import Mathlib

/-!
# Verification of the grctool fixture pipeline scripts

A shallow embedding of `scripts/sanitize_vcr_cassettes.py` and
`scripts/convert_vcr_cassettes.py`, together with proofs about the
claims of the specification.

JSON documents are modelled by the mutually inductive types
`JValue` / `JArr` / `JObj` (objects keep key order, as Python dicts do).
Python's `json.loads` / `json.dumps` are modelled by an executable
parser and printer over `List Char`.  Number literals that carry a
fraction or an exponent (Python floats) are kept as their raw token
text (`JValue.numRaw`); integer literals become `JValue.int`.
-/

namespace Grctool

mutual
/-- JSON value, as produced by `json.loads`.  `bool` is kept separate even
though Python's `bool` is a subclass of `int`; the integer view of a value
is taken by `pyIntView` below, which treats `True`/`False` as `1`/`0`
exactly as Python's `isinstance(value, int)` plus comparison does. -/
inductive JValue where
  | null : JValue
  | bool : Bool → JValue
  | int : Int → JValue
  | numRaw : String → JValue
  | str : String → JValue
  | arr : JArr → JValue
  | obj : JObj → JValue
deriving DecidableEq, Repr

inductive JArr where
  | nil : JArr
  | cons : JValue → JArr → JArr
deriving DecidableEq, Repr

inductive JObj where
  | nil : JObj
  | cons : String → JValue → JObj → JObj
deriving DecidableEq, Repr
end

/-- Keys of a JSON object, in order. -/
def JObj.keys : JObj → List String
  | .nil => []
  | .cons k _ t => k :: JObj.keys t

/-- First value stored under a key (Python `dict` lookup). -/
def JObj.lookup : JObj → String → Option JValue
  | .nil, _ => none
  | .cons k v t, key => if k = key then some v else JObj.lookup t key

/-- Length of a JSON array. -/
def JArr.length : JArr → Nat
  | .nil => 0
  | .cons _ t => JArr.length t + 1

/-! ## Character and digit utilities -/

/-- JSON whitespace accepted by Python's `json.loads` (` \t\n\r`). -/
def isWsChar (c : Char) : Bool :=
  c = ' ' || c = '\t' || c = '\n' || c = '\r'

/-- ASCII decimal digit. -/
def isDigitChar (c : Char) : Bool :=
  48 ≤ c.toNat && c.toNat ≤ 57

/-- The ASCII digit character for `n < 10`. -/
def digitChar (n : Nat) : Char := Char.ofNat (48 + n)

/-- Decimal digits, with explicit structural fuel (any `fuel > n` is
enough, see `natToCharsAux_congr`). -/
def natToCharsAux : Nat → Nat → List Char
  | 0, _ => []
  | fuel + 1, n =>
    if n < 10 then [digitChar n]
    else natToCharsAux fuel (n / 10) ++ [digitChar (n % 10)]

/-- Decimal digits of a natural number, most significant first. -/
def natToChars (n : Nat) : List Char := natToCharsAux (n + 1) n

theorem natToCharsAux_congr :
    ∀ (f1 f2 n : Nat), n < f1 → n < f2 →
      natToCharsAux f1 n = natToCharsAux f2 n
  | 0, _, n, h1, _ => absurd h1 (Nat.not_lt_zero n)
  | _ + 1, 0, n, _, h2 => absurd h2 (Nat.not_lt_zero n)
  | f1 + 1, f2 + 1, n, h1, h2 => by
    simp only [natToCharsAux]
    split
    · rfl
    · have hd1 : n / 10 < f1 := by omega
      have hd2 : n / 10 < f2 := by omega
      rw [natToCharsAux_congr f1 f2 (n / 10) hd1 hd2]

/-- The defining recursion of `natToChars`. -/
theorem natToChars_unfold (n : Nat) :
    natToChars n = if n < 10 then [digitChar n]
      else natToChars (n / 10) ++ [digitChar (n % 10)] := by
  show natToCharsAux (n + 1) n = _
  simp only [natToCharsAux]
  split
  · rfl
  · rw [natToCharsAux_congr n (n / 10 + 1) (n / 10) (by omega) (by omega)]
    rfl

/-- Decimal representation of an integer (Python `repr` of an `int`). -/
def intChars : Int → List Char
  | .ofNat n => natToChars n
  | .negSucc m => '-' :: natToChars (m + 1)

/-- Value of a list of ASCII digits. -/
def digitsVal (cs : List Char) : Nat :=
  cs.foldl (fun a c => 10 * a + (c.toNat - 48)) 0

/-! ## Printer: `json.dumps` with separators `(',', ':')`

Escaping matches Python's `json.dumps` for the characters it must escape
(`"`,`\\`, C0 controls); code points `≥ 0x20` are emitted raw (as with
`ensure_ascii=False`; the default `\uXXXX` transport encoding of non-ASCII
characters is a byte-level concern that none of the verified properties
depend on). -/

/-- Lowercase hex digit. -/
def hexChar (n : Nat) : Char :=
  if n < 10 then digitChar n else Char.ofNat (87 + n)

/-- Escape one character of a JSON string. -/
def escChar (c : Char) : List Char :=
  if c = '"' then ['\\', '"']
  else if c = '\\' then ['\\', '\\']
  else if c = '\n' then ['\\', 'n']
  else if c = '\t' then ['\\', 't']
  else if c = '\r' then ['\\', 'r']
  else if c.toNat = 8 then ['\\', 'b']
  else if c.toNat = 12 then ['\\', 'f']
  else if c.toNat < 32 then
    ['\\', 'u', '0', '0', hexChar (c.toNat / 16), hexChar (c.toNat % 16)]
  else [c]

/-- Escape a string body. -/
def escChars (cs : List Char) : List Char := cs.flatMap escChar

/-- A JSON string literal, quotes included. -/
def dumpStr (s : String) : List Char :=
  '"' :: escChars s.data ++ ['"']

mutual
/-- Serialize a value, compact form. -/
def dumpV : JValue → List Char
  | .null => 'n' :: 'u' :: 'l' :: 'l' :: []
  | .bool true => 't' :: 'r' :: 'u' :: 'e' :: []
  | .bool false => 'f' :: 'a' :: 'l' :: 's' :: 'e' :: []
  | .int n => intChars n
  | .numRaw s => s.data
  | .str s => dumpStr s
  | .arr a => '[' :: dumpArr a ++ [']']
  | .obj o => '{' :: dumpObj o ++ ['}']

def dumpArr : JArr → List Char
  | .nil => []
  | .cons v t => dumpV v ++ dumpArrTail t

def dumpArrTail : JArr → List Char
  | .nil => []
  | .cons v t => ',' :: dumpV v ++ dumpArrTail t

def dumpObj : JObj → List Char
  | .nil => []
  | .cons k v t => dumpStr k ++ ':' :: dumpV v ++ dumpObjTail t

def dumpObjTail : JObj → List Char
  | .nil => []
  | .cons k v t => ',' :: (dumpStr k ++ ':' :: dumpV v ++ dumpObjTail t)
end

/-- `json.dumps(obj, separators=(',', ':'))`. -/
def json_dumps (v : JValue) : String := ⟨dumpV v⟩

/-! ## Parser: `json.loads`

A recursive-descent parser over `List Char` mirroring Python's pure-Python
scanner: number literals follow `NUMBER_RE`
(`(-?(?:0|[1-9]\d+*))(\.\d+)?([eE][-+]?\d+)?`, with the starred `+`
read as `*`); a literal with a fraction or exponent part is kept as its raw
token (`numRaw`), a bare integer literal becomes `int`, exactly as the
Python scanner produces `float` or `int`.  Strings decode the standard
escapes including `\uXXXX` with surrogate pairs; raw control characters
are rejected (strict mode). -/

/-- Drop leading JSON whitespace. -/
def skipWs (cs : List Char) : List Char := cs.dropWhile isWsChar

/-- Split off a maximal run of leading digits. -/
def takeDigits : List Char → List Char × List Char
  | [] => ([], [])
  | c :: cs =>
    if isDigitChar c then
      (c :: (takeDigits cs).1, (takeDigits cs).2)
    else ([], c :: cs)

/-- Scan `0|[1-9]\d*`. -/
def scanIntPartNoSign (cs : List Char) : Option (List Char × List Char) :=
  match cs with
  | c :: t =>
    if c = '0' then some (['0'], t)
    else if isDigitChar c then
      some (c :: (takeDigits t).1, (takeDigits t).2)
    else none
  | [] => none

/-- Scan `-?(0|[1-9]\d*)`: the integer part of a number token. -/
def scanIntPart (cs : List Char) : Option (List Char × List Char) :=
  match cs with
  | c :: t =>
    if c = '-' then
      match scanIntPartNoSign t with
      | some (tok, r) => some ('-' :: tok, r)
      | none => none
    else scanIntPartNoSign cs
  | [] => none

/-- Scan an optional fraction part `(\.\d+)?`; returns `[]` if absent. -/
def scanFrac (cs : List Char) : List Char × List Char :=
  match cs with
  | c :: t =>
    if c = '.' then
      match takeDigits t with
      | ([], _) => ([], cs)
      | (d, r) => ('.' :: d, r)
    else ([], cs)
  | [] => ([], [])

/-- The exponent scan after an initial `e`/`E` at the head of `orig`. -/
def scanExpTail (c : Char) (t orig : List Char) : List Char × List Char :=
  match t with
  | s :: t1 =>
    if s = '+' || s = '-' then
      match takeDigits t1 with
      | ([], _) => ([], orig)
      | (d, r) => (c :: s :: d, r)
    else
      match takeDigits t with
      | ([], _) => ([], orig)
      | (d, r) => (c :: d, r)
  | [] => ([], orig)

/-- Scan an optional exponent part `([eE][-+]?\d+)?`; returns `[]` if absent. -/
def scanExp (cs : List Char) : List Char × List Char :=
  match cs with
  | c :: t => if c = 'e' || c = 'E' then scanExpTail c t cs else ([], cs)
  | [] => ([], [])

/-- Signed value of an integer-part token. -/
def intPartVal (tok : List Char) : Int :=
  match tok with
  | c :: d => if c = '-' then -(digitsVal d : Int) else (digitsVal (c :: d) : Int)
  | [] => (digitsVal [] : Int)

/-- Parse a number literal at the head of the input. -/
def parseNumber (cs : List Char) : Option (JValue × List Char) :=
  match scanIntPart cs with
  | none => none
  | some (ip, r1) =>
    let fr := (scanFrac r1).1
    let ex := (scanExp (scanFrac r1).2).1
    let r3 := (scanExp (scanFrac r1).2).2
    if fr = [] && ex = [] then some (.int (intPartVal ip), r3)
    else some (.numRaw ⟨ip ++ fr ++ ex⟩, r3)

/-- Hex digit value. -/
def hexVal (c : Char) : Option Nat :=
  if 48 ≤ c.toNat && c.toNat ≤ 57 then some (c.toNat - 48)
  else if 97 ≤ c.toNat && c.toNat ≤ 102 then some (c.toNat - 87)
  else if 65 ≤ c.toNat && c.toNat ≤ 70 then some (c.toNat - 55)
  else none

/-- Value of four hex digits. -/
def hex4 (h1 h2 h3 h4 : Char) : Option Nat :=
  match hexVal h1, hexVal h2, hexVal h3, hexVal h4 with
  | some a, some b, some c, some d => some (((a * 16 + b) * 16 + c) * 16 + d)
  | _, _, _, _ => none

/-- Prepend a decoded character to a string-body parse result. -/
def consFst (c : Char) : Option (List Char × List Char) → Option (List Char × List Char)
  | some (s, r) => some (c :: s, r)
  | none => none

/-- Decode a single-character escape (everything but `\u`). -/
def escDec (e : Char) : Option Char :=
  if e = '"' then some '"'
  else if e = '\\' then some '\\'
  else if e = '/' then some '/'
  else if e = 'b' then some (Char.ofNat 8)
  else if e = 'f' then some (Char.ofNat 12)
  else if e = 'n' then some '\n'
  else if e = 'r' then some '\r'
  else if e = 't' then some '\t'
  else none

/-- Parse the body of a string literal (the opening quote already
consumed), returning the decoded characters and the input after the
closing quote.  The fuel argument only serves termination: every step
consumes at least one input character, so any fuel exceeding the input
length gives the exact scanner behaviour. -/
def parseStrBody : Nat → List Char → Option (List Char × List Char)
  | 0, _ => none
  | fuel + 1, input =>
    match input with
    | [] => none
    | c :: t =>
      if c = '"' then some ([], t)
      else if c = '\\' then
        match t with
        | [] => none
        | e :: t1 =>
          if e = 'u' then
            match t1 with
            | h1 :: h2 :: h3 :: h4 :: t2 =>
              (hex4 h1 h2 h3 h4).bind fun n =>
                if 0xD800 ≤ n && n ≤ 0xDBFF then
                  match t2 with
                  | e2 :: u2 :: g1 :: g2 :: g3 :: g4 :: t3 =>
                    if e2 = '\\' && u2 = 'u' then
                      (hex4 g1 g2 g3 g4).bind fun m =>
                        if 0xDC00 ≤ m && m ≤ 0xDFFF then
                          consFst (Char.ofNat
                              (0x10000 + (n - 0xD800) * 0x400 + (m - 0xDC00)))
                            (parseStrBody fuel t3)
                        else none
                    else none
                  | _ => none
                else if 0xDC00 ≤ n && n ≤ 0xDFFF then none
                else consFst (Char.ofNat n) (parseStrBody fuel t2)
            | _ => none
          else (escDec e).bind fun d => consFst d (parseStrBody fuel t1)
      else if c.toNat < 32 then none
      else consFst c (parseStrBody fuel t)

mutual
/-- Parse one JSON value at the head of the input. -/
def parseValue : Nat → List Char → Option (JValue × List Char)
  | 0, _ => none
  | fuel + 1, cs =>
    match cs with
    | [] => none
    | c :: t =>
      if c = '{' then
        Option.map (fun p => (JValue.obj p.1, p.2)) (parseObjBody fuel (skipWs t))
      else if c = '[' then
        Option.map (fun p => (JValue.arr p.1, p.2)) (parseArrBody fuel (skipWs t))
      else if c = '"' then
        Option.map (fun p => (JValue.str ⟨p.1⟩, p.2)) (parseStrBody fuel t)
      else if c = 't' then
        match t with
        | 'r' :: 'u' :: 'e' :: t2 => some (.bool true, t2)
        | _ => parseNumber cs
      else if c = 'f' then
        match t with
        | 'a' :: 'l' :: 's' :: 'e' :: t2 => some (.bool false, t2)
        | _ => parseNumber cs
      else if c = 'n' then
        match t with
        | 'u' :: 'l' :: 'l' :: t2 => some (.null, t2)
        | _ => parseNumber cs
      else parseNumber cs

/-- Parse the inside of an object after `{` and whitespace. -/
def parseObjBody : Nat → List Char → Option (JObj × List Char)
  | 0, _ => none
  | fuel + 1, cs =>
    match cs with
    | '}' :: t => some (.nil, t)
    | '"' :: t =>
      match parseStrBody fuel t with
      | none => none
      | some (k, r1) =>
        match skipWs r1 with
        | ':' :: r2 =>
          match parseValue fuel (skipWs r2) with
          | none => none
          | some (v, r3) =>
            match parseObjTail fuel (skipWs r3) with
            | none => none
            | some (o, r4) => some (.cons ⟨k⟩ v o, r4)
        | _ => none
    | _ => none

/-- Parse an object continuation: `}` or `, "key": value …`. -/
def parseObjTail : Nat → List Char → Option (JObj × List Char)
  | 0, _ => none
  | fuel + 1, cs =>
    match cs with
    | '}' :: t => some (.nil, t)
    | ',' :: t =>
      match skipWs t with
      | '"' :: t2 =>
        match parseStrBody fuel t2 with
        | none => none
        | some (k, r1) =>
          match skipWs r1 with
          | ':' :: r2 =>
            match parseValue fuel (skipWs r2) with
            | none => none
            | some (v, r3) =>
              match parseObjTail fuel (skipWs r3) with
              | none => none
              | some (o, r4) => some (.cons ⟨k⟩ v o, r4)
          | _ => none
      | _ => none
    | _ => none

/-- Parse the inside of an array after `[` and whitespace. -/
def parseArrBody : Nat → List Char → Option (JArr × List Char)
  | 0, _ => none
  | fuel + 1, cs =>
    match cs with
    | ']' :: t => some (.nil, t)
    | _ =>
      match parseValue fuel cs with
      | none => none
      | some (v, r1) =>
        match parseArrTail fuel (skipWs r1) with
        | none => none
        | some (a, r2) => some (.cons v a, r2)

/-- Parse an array continuation: `]` or `, value …`. -/
def parseArrTail : Nat → List Char → Option (JArr × List Char)
  | 0, _ => none
  | fuel + 1, cs =>
    match cs with
    | ']' :: t => some (.nil, t)
    | ',' :: t =>
      match parseValue fuel (skipWs t) with
      | none => none
      | some (v, r1) =>
        match parseArrTail fuel (skipWs r1) with
        | none => none
        | some (a, r2) => some (.cons v a, r2)
    | _ => none
end

/-- `json.loads`: parse a whole document, allowing surrounding whitespace
and requiring the input to be fully consumed. -/
def json_loads (s : String) : Option JValue :=
  let cs := skipWs s.data
  match parseValue (cs.length + 1) cs with
  | some (v, rest) => if skipWs rest = [] then some v else none
  | none => none

/-! ## Sanitizer: `sanitize_vcr_cassettes.py`

The script's module-level constants and the two global maps.  The maps are
threaded explicitly as a `SanState`; association lists keep Python's dict
insertion order. -/

def TEST_ORG_ID : Int := 12345

def TEST_USER_ID : Int := 99999

def ORG_ID_FIELDS : List String := ["org_id", "org"]

def USER_ID_FIELDS : List String :=
  ["owner_id", "published_by_id", "user_id", "assignee_id",
   "language_okay_updated_by_id", "infosec_program_id"]

def EMAIL_FIELDS : List String := ["email"]

def NAME_FIELDS : List String :=
  ["first_name", "last_name", "display_name", "short_display_name",
   "audit_team_name"]

def TEST_NAMES : List (String × String) :=
  [("first_name", "Test"), ("last_name", "User"),
   ("display_name", "Test User"), ("short_display_name", "TU"),
   ("audit_team_name", "Test Audit Team")]

/-- The two global maps `ORG_ID_MAP` and `USER_ID_MAP`. -/
structure SanState where
  orgMap : List (Int × Int)
  userMap : List (Int × Int)
deriving DecidableEq, Repr

/-- The maps at process start: both empty. -/
def emptyState : SanState := ⟨[], []⟩

/-- Keys of a map, in insertion order (`list(d.keys())`). -/
def mapKeys (m : List (Int × Int)) : List Int := m.map Prod.fst

/-- Python `d[k] = v`: overwrite in place if present, else append. -/
def dictAssign (m : List (Int × Int)) (k v : Int) : List (Int × Int) :=
  match m with
  | [] => [(k, v)]
  | (k', v') :: t => if k' = k then (k', v) :: t else (k', v') :: dictAssign t k v

/-- Python's `isinstance(value, int)` view of a JSON value: `bool` is a
subclass of `int`, with `True == 1` and `False == 0`. -/
def pyIntView : JValue → Option Int
  | .int n => some n
  | .bool b => some (if b then 1 else 0)
  | _ => none

/-- `sanitize_value(obj, key, value)` (the unused `obj` parameter is
dropped).  Returns the replacement value together with the updated maps. -/
def sanitize_value (st : SanState) (key : String) (value : JValue) :
    JValue × SanState :=
  match value with
  | .null => (.null, st)
  | v =>
    match pyIntView v with
    | some n =>
      if key ∈ ORG_ID_FIELDS ∧ 0 < n then
        match List.lookup n st.orgMap with
        | some t => (.int t, st)
        | none => (.int TEST_ORG_ID, ⟨st.orgMap ++ [(n, TEST_ORG_ID)], st.userMap⟩)
      else if key ∈ USER_ID_FIELDS ∧ 0 < n then
        match List.lookup n st.userMap with
        | some t => (.int t, st)
        | none => (.int TEST_USER_ID, ⟨st.orgMap, st.userMap ++ [(n, TEST_USER_ID)]⟩)
      else (v, st)
    | none =>
      match v with
      | .str s =>
        if key ∈ EMAIL_FIELDS ∧ s.data.contains '@' then
          (.str "test@example.com", st)
        else if key ∈ NAME_FIELDS ∧ s ≠ "" then
          (.str ((TEST_NAMES.lookup key).getD "Test Value"), st)
        else (v, st)
      | _ => (v, st)

mutual
/-- `sanitize_dict`: recursively sanitize a dictionary (non-dicts are
returned unchanged). -/
def sanitize_dict (st : SanState) (obj : JValue) : JValue × SanState :=
  match obj with
  | .obj entries =>
    let (es, st') := sanitizeEntries st entries
    (.obj es, st')
  | v => (v, st)

/-- The `for key, value in obj.items()` loop of `sanitize_dict`. -/
def sanitizeEntries (st : SanState) (es : JObj) : JObj × SanState :=
  match es with
  | .nil => (.nil, st)
  | .cons k v t =>
    let p :=
      match v with
      | .obj o => let q := sanitizeEntries st o; (JValue.obj q.1, q.2)
      | .arr items => let q := sanitize_list st items; (JValue.arr q.1, q.2)
      | _ => sanitize_value st k v
    let q := sanitizeEntries p.2 t
    (.cons k p.1 q.1, q.2)

/-- `sanitize_list`: recursively sanitize a list (scalar items are kept —
there is no key to sanitize them under). -/
def sanitize_list (st : SanState) (arr : JArr) : JArr × SanState :=
  match arr with
  | .nil => (.nil, st)
  | .cons item t =>
    let p :=
      match item with
      | .obj o => let q := sanitizeEntries st o; (JValue.obj q.1, q.2)
      | .arr its => let q := sanitize_list st its; (JValue.arr q.1, q.2)
      | _ => (item, st)
    let q := sanitize_list p.2 t
    (.cons p.1 q.1, q.2)
end

/-- The dispatch of `sanitize_body_string` on the parsed body:
`sanitize_dict` for dicts, `sanitize_list` for lists, identity otherwise. -/
def sanitizeParsedBody (st : SanState) (v : JValue) : JValue × SanState :=
  match v with
  | .obj o => let q := sanitizeEntries st o; (JValue.obj q.1, q.2)
  | .arr a => let q := sanitize_list st a; (JValue.arr q.1, q.2)
  | w => (w, st)

/-- `sanitize_body_string`: parse the body, sanitize, re-serialize
compactly; a body that is not valid JSON is returned untouched. -/
def sanitize_body_string (st : SanState) (body_str : String) :
    String × SanState :=
  match json_loads body_str with
  | none => (body_str, st)
  | some body_obj =>
    let p := sanitizeParsedBody st body_obj
    (json_dumps p.1, p.2)

/-! ### URL rewriting -/

/-- Python `s.replace(pat, rep)`: all non-overlapping occurrences,
scanning left to right.  A positive `skip` means the scanner is still
inside a replaced span and drops the character; at `skip = 0` it tries
the pattern at the current position.  (Structural recursion on the
input so the kernel can evaluate it.) -/
def strReplaceAux (rep pat : List Char) : Nat → List Char → List Char
  | _, [] => []
  | skip + 1, _ :: rest => strReplaceAux rep pat skip rest
  | 0, c :: rest =>
    if pat.isPrefixOf (c :: rest) then
      rep ++ strReplaceAux rep pat (pat.length - 1) rest
    else c :: strReplaceAux rep pat 0 rest

/-- Python `s.replace(pat, rep)` for a nonempty `pat`. -/
def strReplace (s pat rep : List Char) : List Char :=
  match pat with
  | [] => s
  | _ :: _ => strReplaceAux rep pat 0 s

/-- The f-string `/org/{id}/`. -/
def orgPathPat (id : Int) : List Char :=
  '/' :: 'o' :: 'r' :: 'g' :: '/' :: (intChars id ++ ['/'])

/-- The f-string `org_id={id}`. -/
def orgQueryPat (id : Int) : List Char :=
  'o' :: 'r' :: 'g' :: '_' :: 'i' :: 'd' :: '=' :: intChars id

/-- One iteration of the URL loop: replace `/org/<real>/` and
`org_id=<real>` by the same patterns built from `TEST_ORG_ID`. -/
def replaceOrgInUrl (url : List Char) (real_id : Int) : List Char :=
  let u1 := strReplace url (orgPathPat real_id) (orgPathPat TEST_ORG_ID)
  strReplace u1 (orgQueryPat real_id) (orgQueryPat TEST_ORG_ID)

/-- The `for real_id in list(ORG_ID_MAP.keys())` loop over a request URL. -/
def sanitizeUrl (st : SanState) (url : List Char) : List Char :=
  (mapKeys st.orgMap).foldl replaceOrgInUrl url

/-! ### Per-interaction and per-cassette rewrite -/

/-- Python `d[k] = v` on a JSON object: overwrite in place, else append. -/
def JObj.set : JObj → String → JValue → JObj
  | .nil, k, v => .cons k v .nil
  | .cons k' v' t, k, v =>
    if k' = k then .cons k' v t else .cons k' v' (JObj.set t k v)

/-- The body of the `for interaction in cassette['interactions']` loop:
rewrite org IDs in `request.url`, then sanitize `response.body` (when the
body is a nonempty string; `if body:` skips empty or null bodies). -/
def sanitize_interaction (st : SanState) (interaction : JValue) :
    JValue × SanState :=
  match interaction with
  | .obj entries =>
    let entries1 :=
      match entries.lookup "request" with
      | some (.obj req) =>
        match req.lookup "url" with
        | some (.str url) =>
          entries.set "request"
            (.obj (req.set "url" (.str ⟨sanitizeUrl st url.data⟩)))
        | _ => entries
      | _ => entries
    match entries1.lookup "response" with
    | some (.obj resp) =>
      match resp.lookup "body" with
      | some (.str body) =>
        if body ≠ "" then
          let p := sanitize_body_string st body
          (.obj (entries1.set "response" (.obj (resp.set "body" (.str p.1)))), p.2)
        else (.obj entries1, st)
      | _ => (.obj entries1, st)
    | _ => (.obj entries1, st)
  | v => (v, st)

/-- The interaction loop, threading the global maps left to right. -/
def sanitize_interactions (st : SanState) (items : JArr) : JArr × SanState :=
  match items with
  | .nil => (.nil, st)
  | .cons i t =>
    let p := sanitize_interaction st i
    let q := sanitize_interactions p.2 t
    (.cons p.1 q.1, q.2)

/-- `sanitize_cassette` on the parsed cassette document (file I/O and the
`indent=2` re-serialization are outside the model; the returned value is
what is written back). -/
def sanitize_cassette (st : SanState) (cassette : JValue) :
    JValue × SanState :=
  match cassette with
  | .obj entries =>
    match entries.lookup "interactions" with
    | some (.arr items) =>
      let p := sanitize_interactions st items
      (.obj (entries.set "interactions" (.arr p.1)), p.2)
    | _ => (cassette, st)
  | v => (v, st)

/-! ### Discovery pass: `find_org_ids`

The regexes `r'"<field>"\s*:\s*(\d+)'` are modelled by an anchored
matcher tried at every position.  Since every match starts with a `"`
and no later match can begin strictly inside an earlier match's span,
scanning position by position collects exactly the values `re.finditer`
yields.  `\s` is modelled as ASCII whitespace ` \t\n\r\x0b\x0c`. -/

/-- ASCII whitespace of the regex class `\s`. -/
def isReWs (c : Char) : Bool :=
  c = ' ' || c = '\t' || c = '\n' || c = '\r' || c.toNat = 11 || c.toNat = 12

/-- Strip an exact literal from the head of the input. -/
def stripLit : List Char → List Char → Option (List Char)
  | [], cs => some cs
  | _ :: _, [] => none
  | l :: ls, c :: cs => if c = l then stripLit ls cs else none

/-- Match `"<field>"\s*:\s*(\d+)` anchored at the head of the input,
returning the captured integer and the rest of the input. -/
def matchFieldAt (field : String) (cs : List Char) : Option (Int × List Char) :=
  match stripLit ('"' :: (field.data ++ ['"'])) cs with
  | none => none
  | some r1 =>
    match (r1.dropWhile isReWs) with
    | ':' :: r3 =>
      match takeDigits (r3.dropWhile isReWs) with
      | ([], _) => none
      | (d, r5) => some ((digitsVal d : Int), r5)
    | _ => none

/-- All captured values of `re.finditer(r'"<field>"\s*:\s*(\d+)', content)`,
in order. -/
def findFieldInts (field : String) : List Char → List Int
  | [] => []
  | c :: rest =>
    match matchFieldAt field (c :: rest) with
    | some (n, _) => n :: findFieldInts field rest
    | none => findFieldInts field rest

/-- `if org_id > 0: ORG_ID_MAP[org_id] = TEST_ORG_ID`. -/
def registerOrg (st : SanState) (n : Int) : SanState :=
  if 0 < n then ⟨dictAssign st.orgMap n TEST_ORG_ID, st.userMap⟩ else st

/-- `if user_id > 0: USER_ID_MAP[user_id] = TEST_USER_ID`. -/
def registerUser (st : SanState) (n : Int) : SanState :=
  if 0 < n then ⟨st.orgMap, dictAssign st.userMap n TEST_USER_ID⟩ else st

/-- `find_org_ids`: the discovery pass over one file's raw text. -/
def find_org_ids (st : SanState) (content : String) : SanState :=
  let cs := content.data
  let st1 := (findFieldInts "org_id" cs).foldl registerOrg st
  let st2 := (findFieldInts "org" cs).foldl registerOrg st1
  USER_ID_FIELDS.foldl (fun s f => (findFieldInts f cs).foldl registerUser s) st2

/-! ## Converter: `convert_vcr_cassettes.py`

`none` models an uncaught exception (`KeyError` on a missing required
field, or an attribute/type error on a malformed one); in
`convert_cassette` every interaction is converted before the output file
is opened, so `none` means the original file is left untouched. -/

/-- `convert_headers`: `{k: [v] for k, v in headers_dict.items()}`. -/
def convert_headers : JObj → JObj
  | .nil => .nil
  | .cons k v t => .cons k (.arr (.cons v .nil)) (convert_headers t)

/-- `convert_interaction`: one flat-schema interaction to go-vcr shape. -/
def convert_interaction (j : JValue) : Option JValue :=
  match j with
  | .obj i =>
    match i.lookup "request", i.lookup "response" with
    | some (.obj req), some (.obj resp) =>
      match req.lookup "headers", req.lookup "method", req.lookup "url",
            resp.lookup "body", resp.lookup "status_code", resp.lookup "headers" with
      | some (.obj reqHdrs), some m, some u, some b, some code, some (.obj respHdrs) =>
        some (.obj (
          .cons "request" (.obj (
            .cons "body" ((req.lookup "body").getD .null) (
            .cons "form" (.obj .nil) (
            .cons "headers" (.obj (convert_headers reqHdrs)) (
            .cons "method" m (
            .cons "uri" u .nil)))))) (
          .cons "response" (.obj (
            .cons "body" (.obj (.cons "string" b .nil)) (
            .cons "code" code (
            .cons "headers" (.obj (convert_headers respHdrs)) .nil))))
          .nil)))
      | _, _, _, _, _, _ => none
    | _, _ => none
  | _ => none

/-- The `[convert_interaction(i) for i in json_data["interactions"]]`
comprehension: the first failure aborts the whole conversion. -/
def convert_interactions : JArr → Option JArr
  | .nil => some .nil
  | .cons i t =>
    match convert_interaction i, convert_interactions t with
    | some i', some t' => some (.cons i' t')
    | _, _ => none

/-- `convert_cassette` up to the write: the document that would be
serialized, or `none` if conversion failed before any write. -/
def convert_cassette (json_data : JValue) : Option JValue :=
  match json_data with
  | .obj entries =>
    match entries.lookup "interactions" with
    | some (.arr items) =>
      match convert_interactions items with
      | some items' => some (.obj (.cons "interactions" (.arr items') .nil))
      | none => none
    | _ => none
  | _ => none

/-! ## Notions used by the claims -/

/-- A scalar (non-container) JSON value. -/
def IsScalarJ : JValue → Prop
  | .arr _ => False
  | .obj _ => False
  | _ => True

instance : DecidablePred IsScalarJ := fun v =>
  match v with
  | .null => isTrue trivial
  | .bool _ => isTrue trivial
  | .int _ => isTrue trivial
  | .numRaw _ => isTrue trivial
  | .str _ => isTrue trivial
  | .arr _ => isFalse id
  | .obj _ => isFalse id

mutual
/-- Two values have the same document shape: containers match node for
node with equal keys in equal order, and only scalar leaves may differ. -/
inductive SameShapeV : JValue → JValue → Prop where
  | scalar {v w : JValue} : IsScalarJ v → IsScalarJ w → SameShapeV v w
  | arr {a b : JArr} : SameShapeA a b → SameShapeV (.arr a) (.arr b)
  | obj {o p : JObj} : SameShapeO o p → SameShapeV (.obj o) (.obj p)

inductive SameShapeA : JArr → JArr → Prop where
  | nil : SameShapeA .nil .nil
  | cons {v w : JValue} {a b : JArr} :
      SameShapeV v w → SameShapeA a b → SameShapeA (.cons v a) (.cons w b)

inductive SameShapeO : JObj → JObj → Prop where
  | nil : SameShapeO .nil .nil
  | cons (k : String) {v w : JValue} {o p : JObj} :
      SameShapeV v w → SameShapeO o p → SameShapeO (.cons k v o) (.cons k w p)
end

/-- A key/value pair reachable anywhere in a document through objects and
arrays. -/
inductive ReachablePair : JValue → String → JValue → Prop where
  | head (k : String) (v : JValue) (t : JObj) :
      ReachablePair (.obj (.cons k v t)) k v
  | tail {k : String} {v : JValue} (k' : String) (v' : JValue) {t : JObj} :
      ReachablePair (.obj t) k v → ReachablePair (.obj (.cons k' v' t)) k v
  | inVal {k : String} {v : JValue} (k' : String) {v' : JValue} (t : JObj) :
      ReachablePair v' k v → ReachablePair (.obj (.cons k' v' t)) k v
  | arrHead {k : String} {v : JValue} {v' : JValue} (t : JArr) :
      ReachablePair v' k v → ReachablePair (.arr (.cons v' t)) k v
  | arrTail {k : String} {v : JValue} (v' : JValue) {t : JArr} :
      ReachablePair (.arr t) k v → ReachablePair (.arr (.cons v' t)) k v

/-- Every entry of the organization map carries the fixed substitute. -/
def OrgAllSubst (st : SanState) : Prop :=
  ∀ p ∈ st.orgMap, p.2 = TEST_ORG_ID

/-- Every entry of the user map carries the fixed substitute. -/
def UserAllSubst (st : SanState) : Prop :=
  ∀ p ∈ st.userMap, p.2 = TEST_USER_ID

instance (st : SanState) : Decidable (OrgAllSubst st) :=
  List.decidableBAll _ _

instance (st : SanState) : Decidable (UserAllSubst st) :=
  List.decidableBAll _ _

/-- `pat` occurs as a contiguous substring of `cs`. -/
def hasOcc (pat : List Char) : List Char → Bool
  | [] => pat.isEmpty
  | c :: rest => pat.isPrefixOf (c :: rest) || hasOcc pat rest

/-! ## Shape preservation of the structural walk (claim C9) -/

theorem sanitize_value_cases (st : SanState) (k : String) (v : JValue) :
    (sanitize_value st k v).1 = v ∨ (∃ m, (sanitize_value st k v).1 = .int m) ∨
    (∃ s, (sanitize_value st k v).1 = .str s) := by
  cases v <;> simp only [sanitize_value, pyIntView] <;> (repeat' split) <;> simp

theorem sanitize_value_scalar (st : SanState) (k : String) (v : JValue)
    (h : IsScalarJ v) : IsScalarJ (sanitize_value st k v).1 := by
  rcases sanitize_value_cases st k v with hv | ⟨m, hv⟩ | ⟨s, hv⟩ <;> rw [hv]
  · exact h
  · exact trivial
  · exact trivial

mutual
theorem sanitizeEntries_shape (st : SanState) (es : JObj) :
    SameShapeO es (sanitizeEntries st es).1 :=
  match es with
  | .nil => SameShapeO.nil
  | .cons k v t => by
    cases v with
    | obj o =>
      simp only [sanitizeEntries]
      exact SameShapeO.cons k (SameShapeV.obj (sanitizeEntries_shape st o))
        (sanitizeEntries_shape _ t)
    | arr a =>
      simp only [sanitizeEntries]
      exact SameShapeO.cons k (SameShapeV.arr (sanitize_list_shape st a))
        (sanitizeEntries_shape _ t)
    | null =>
      simp only [sanitizeEntries]
      exact SameShapeO.cons k
        (SameShapeV.scalar trivial (sanitize_value_scalar st k _ trivial))
        (sanitizeEntries_shape _ t)
    | bool b =>
      simp only [sanitizeEntries]
      exact SameShapeO.cons k
        (SameShapeV.scalar trivial (sanitize_value_scalar st k _ trivial))
        (sanitizeEntries_shape _ t)
    | int n =>
      simp only [sanitizeEntries]
      exact SameShapeO.cons k
        (SameShapeV.scalar trivial (sanitize_value_scalar st k _ trivial))
        (sanitizeEntries_shape _ t)
    | numRaw s =>
      simp only [sanitizeEntries]
      exact SameShapeO.cons k
        (SameShapeV.scalar trivial (sanitize_value_scalar st k _ trivial))
        (sanitizeEntries_shape _ t)
    | str s =>
      simp only [sanitizeEntries]
      exact SameShapeO.cons k
        (SameShapeV.scalar trivial (sanitize_value_scalar st k _ trivial))
        (sanitizeEntries_shape _ t)

theorem sanitize_list_shape (st : SanState) (a : JArr) :
    SameShapeA a (sanitize_list st a).1 :=
  match a with
  | .nil => SameShapeA.nil
  | .cons item t => by
    cases item with
    | obj o =>
      simp only [sanitize_list]
      exact SameShapeA.cons (SameShapeV.obj (sanitizeEntries_shape st o))
        (sanitize_list_shape _ t)
    | arr its =>
      simp only [sanitize_list]
      exact SameShapeA.cons (SameShapeV.arr (sanitize_list_shape st its))
        (sanitize_list_shape _ t)
    | null =>
      simp only [sanitize_list]
      exact SameShapeA.cons (SameShapeV.scalar trivial trivial)
        (sanitize_list_shape _ t)
    | bool b =>
      simp only [sanitize_list]
      exact SameShapeA.cons (SameShapeV.scalar trivial trivial)
        (sanitize_list_shape _ t)
    | int n =>
      simp only [sanitize_list]
      exact SameShapeA.cons (SameShapeV.scalar trivial trivial)
        (sanitize_list_shape _ t)
    | numRaw s =>
      simp only [sanitize_list]
      exact SameShapeA.cons (SameShapeV.scalar trivial trivial)
        (sanitize_list_shape _ t)
    | str s =>
      simp only [sanitize_list]
      exact SameShapeA.cons (SameShapeV.scalar trivial trivial)
        (sanitize_list_shape _ t)
end

theorem SameShapeO.keys_eq {o p : JObj} (h : SameShapeO o p) :
    o.keys = p.keys :=
  match o, p, h with
  | .nil, .nil, .nil => rfl
  | .cons k _ _, .cons _ _ _, .cons _ _ ht => by
    simp only [JObj.keys]
    exact congrArg (k :: ·) (SameShapeO.keys_eq ht)

theorem SameShapeA.length_eq {a b : JArr} (h : SameShapeA a b) :
    a.length = b.length :=
  match a, b, h with
  | .nil, .nil, .nil => rfl
  | .cons _ _, .cons _ _, .cons _ ht => by
    simp only [JArr.length]
    exact congrArg (· + 1) (SameShapeA.length_eq ht)

mutual
theorem sameShapeV_refl : (v : JValue) → SameShapeV v v
  | .null => .scalar trivial trivial
  | .bool _ => .scalar trivial trivial
  | .int _ => .scalar trivial trivial
  | .numRaw _ => .scalar trivial trivial
  | .str _ => .scalar trivial trivial
  | .arr a => .arr (sameShapeA_refl a)
  | .obj o => .obj (sameShapeO_refl o)

theorem sameShapeA_refl : (a : JArr) → SameShapeA a a
  | .nil => .nil
  | .cons v t => .cons (sameShapeV_refl v) (sameShapeA_refl t)

theorem sameShapeO_refl : (o : JObj) → SameShapeO o o
  | .nil => .nil
  | .cons k v t => .cons k (sameShapeV_refl v) (sameShapeO_refl t)
end

theorem sanitize_dict_shape (st : SanState) (v : JValue) :
    SameShapeV v (sanitize_dict st v).1 := by
  cases v with
  | obj o =>
    simpa only [sanitize_dict] using SameShapeV.obj (sanitizeEntries_shape st o)
  | null => exact sameShapeV_refl _
  | bool b => exact sameShapeV_refl _
  | int n => exact sameShapeV_refl _
  | numRaw s => exact sameShapeV_refl _
  | str s => exact sameShapeV_refl _
  | arr a => exact sameShapeV_refl _

/-- C9: the structural sanitization functions preserve document shape:
sanitizing a mapping yields exactly the same keys in the same order,
sanitizing a sequence yields the same length in the same order, and only
scalar leaf values may differ (captured by `SameShapeV`). -/
theorem claim_C9_shape_preservation :
    (∀ (st : SanState) (v : JValue), SameShapeV v (sanitize_dict st v).1) ∧
    (∀ (st : SanState) (es : JObj),
      JObj.keys (sanitizeEntries st es).1 = JObj.keys es) ∧
    (∀ (st : SanState) (a : JArr),
      JArr.length (sanitize_list st a).1 = JArr.length a) :=
  ⟨sanitize_dict_shape,
   fun st es => (SameShapeO.keys_eq (sanitizeEntries_shape st es)).symm,
   fun st a => (SameShapeA.length_eq (sanitize_list_shape st a)).symm⟩

/-! ## Discovery-pass lemmas (claims C6 and C10) -/

theorem stripLit_append (l cs : List Char) : stripLit l (l ++ cs) = some cs := by
  induction l with
  | nil => rfl
  | cons c t ih => simp [stripLit, ih]

theorem dropWhile_ws_append {w : List Char} (hw : ∀ c ∈ w, isReWs c = true)
    (cs : List Char) : (w ++ cs).dropWhile isReWs = cs.dropWhile isReWs := by
  induction w with
  | nil => rfl
  | cons c t ih =>
    simp only [List.cons_append, List.dropWhile_cons]
    rw [hw c (by simp)]
    exact ih (fun c hc => hw c (by simp [hc]))

/-- The anchored matcher rejects any occurrence whose value is a quoted
string: `"<field>"\s*:\s*"` never yields a capture, because `\d+`
requires at least one digit and `"` is not a digit. -/
theorem matchFieldAt_quoted_none (f : String) (w1 w2 rest : List Char)
    (h1 : ∀ c ∈ w1, isReWs c = true) (h2 : ∀ c ∈ w2, isReWs c = true) :
    matchFieldAt f
      (('"' :: (f.data ++ ['"'])) ++ (w1 ++ ':' :: (w2 ++ '"' :: rest))) = none := by
  have hcolon : isReWs ':' = false := by decide
  have hquote : isReWs '"' = false := by decide
  have hqd : isDigitChar '"' = false := by decide
  unfold matchFieldAt
  simp only [stripLit_append, dropWhile_ws_append h1, List.dropWhile_cons,
    hcolon, Bool.false_eq_true, if_false, dropWhile_ws_append h2, hquote,
    takeDigits, hqd]

/-- Every value the scanner collects arises from a successful anchored
match at some position of the input. -/
theorem findFieldInts_sound {f : String} {cs : List Char} {n : Int}
    (h : n ∈ findFieldInts f cs) :
    ∃ i r, matchFieldAt f (cs.drop i) = some (n, r) := by
  induction cs with
  | nil => simp [findFieldInts] at h
  | cons c rest ih =>
    rw [findFieldInts] at h
    rcases hm : matchFieldAt f (c :: rest) with _ | ⟨m, r⟩ <;> rw [hm] at h
    · rcases ih h with ⟨i, r, hi⟩
      exact ⟨i + 1, r, hi⟩
    · rcases List.mem_cons.mp h with rfl | h'
      · exact ⟨0, r, hm⟩
      · rcases ih h' with ⟨i, r', hi⟩
        exact ⟨i + 1, r', hi⟩

theorem dictAssign_keys_mem {m : List (Int × Int)} {k v n : Int}
    (h : n ∈ mapKeys (dictAssign m k v)) : n ∈ mapKeys m ∨ n = k := by
  induction m with
  | nil => simp [dictAssign, mapKeys] at h; exact Or.inr h
  | cons p t ih =>
    rcases p with ⟨k', v'⟩
    simp only [dictAssign] at h
    split at h
    · simp only [mapKeys, List.map_cons] at h ⊢
      exact Or.inl h
    · simp only [mapKeys, List.map_cons, List.mem_cons] at h ⊢
      rcases h with rfl | h'
      · exact Or.inl (Or.inl rfl)
      · rcases ih h' with h'' | rfl
        · exact Or.inl (Or.inr h'')
        · exact Or.inr rfl

theorem registerOrg_userMap (st : SanState) (id : Int) :
    (registerOrg st id).userMap = st.userMap := by
  unfold registerOrg; split <;> rfl

theorem registerUser_orgMap (st : SanState) (id : Int) :
    (registerUser st id).orgMap = st.orgMap := by
  unfold registerUser; split <;> rfl

theorem registerOrg_keys_mem {st : SanState} {id n : Int}
    (h : n ∈ mapKeys (registerOrg st id).orgMap) :
    n ∈ mapKeys st.orgMap ∨ (n = id ∧ 0 < id) := by
  unfold registerOrg at h
  split at h
  · rcases dictAssign_keys_mem h with h' | rfl
    · exact Or.inl h'
    · exact Or.inr ⟨rfl, by assumption⟩
  · exact Or.inl h

theorem registerUser_keys_mem {st : SanState} {id n : Int}
    (h : n ∈ mapKeys (registerUser st id).userMap) :
    n ∈ mapKeys st.userMap ∨ (n = id ∧ 0 < id) := by
  unfold registerUser at h
  split at h
  · rcases dictAssign_keys_mem h with h' | rfl
    · exact Or.inl h'
    · exact Or.inr ⟨rfl, by assumption⟩
  · exact Or.inl h

theorem foldl_registerOrg_keys_mem {l : List Int} {st : SanState} {n : Int}
    (h : n ∈ mapKeys ((l.foldl registerOrg st).orgMap)) :
    n ∈ mapKeys st.orgMap ∨ (n ∈ l ∧ 0 < n) := by
  induction l generalizing st with
  | nil => exact Or.inl h
  | cons a t ih =>
    rw [List.foldl_cons] at h
    rcases ih h with h' | ⟨hm, hp⟩
    · rcases registerOrg_keys_mem h' with h'' | ⟨rfl, hp⟩
      · exact Or.inl h''
      · exact Or.inr ⟨by simp, hp⟩
    · exact Or.inr ⟨by simp [hm], hp⟩

theorem foldl_registerOrg_userMap (l : List Int) (st : SanState) :
    (l.foldl registerOrg st).userMap = st.userMap := by
  induction l generalizing st with
  | nil => rfl
  | cons a t ih => rw [List.foldl_cons, ih, registerOrg_userMap]

theorem foldl_registerUser_orgMap (l : List Int) (st : SanState) :
    (l.foldl registerUser st).orgMap = st.orgMap := by
  induction l generalizing st with
  | nil => rfl
  | cons a t ih => rw [List.foldl_cons, ih, registerUser_orgMap]

theorem foldl_registerUser_keys_mem {l : List Int} {st : SanState} {n : Int}
    (h : n ∈ mapKeys ((l.foldl registerUser st).userMap)) :
    n ∈ mapKeys st.userMap ∨ (n ∈ l ∧ 0 < n) := by
  induction l generalizing st with
  | nil => exact Or.inl h
  | cons a t ih =>
    rw [List.foldl_cons] at h
    rcases ih h with h' | ⟨hm, hp⟩
    · rcases registerUser_keys_mem h' with h'' | ⟨rfl, hp⟩
      · exact Or.inl h''
      · exact Or.inr ⟨by simp, hp⟩
    · exact Or.inr ⟨by simp [hm], hp⟩

/-- The user-field outer fold leaves the org map untouched. -/
theorem userFold_orgMap (fs : List String) (cs : List Char) (st : SanState) :
    (fs.foldl (fun s f => (findFieldInts f cs).foldl registerUser s) st).orgMap
      = st.orgMap := by
  induction fs generalizing st with
  | nil => rfl
  | cons f t ih => rw [List.foldl_cons, ih, foldl_registerUser_orgMap]

theorem userFold_keys_mem {fs : List String} {cs : List Char} {st : SanState}
    {n : Int}
    (h : n ∈ mapKeys ((fs.foldl
      (fun s f => (findFieldInts f cs).foldl registerUser s) st).userMap)) :
    n ∈ mapKeys st.userMap ∨
      (0 < n ∧ ∃ f ∈ fs, n ∈ findFieldInts f cs) := by
  induction fs generalizing st with
  | nil => exact Or.inl h
  | cons f t ih =>
    rw [List.foldl_cons] at h
    rcases ih h with h' | ⟨hp, f', hf', hm⟩
    · rcases foldl_registerUser_keys_mem h' with h'' | ⟨hm, hp⟩
      · exact Or.inl h''
      · exact Or.inr ⟨hp, f, by simp, hm⟩
    · exact Or.inr ⟨hp, f', by simp [hf'], hm⟩

/-- Provenance of organization-map keys after discovery: an entry is
either pre-existing or the positive value of an anchored regex match. -/
theorem find_org_ids_org_keys {st : SanState} {content : String} {n : Int}
    (h : n ∈ mapKeys (find_org_ids st content).orgMap) :
    n ∈ mapKeys st.orgMap ∨
      (0 < n ∧ ∃ f ∈ ORG_ID_FIELDS, n ∈ findFieldInts f content.data) := by
  unfold find_org_ids at h
  rw [userFold_orgMap] at h
  rcases foldl_registerOrg_keys_mem h with h' | ⟨hm, hp⟩
  · rcases foldl_registerOrg_keys_mem h' with h'' | ⟨hm, hp⟩
    · exact Or.inl h''
    · exact Or.inr ⟨hp, "org_id", by simp [ORG_ID_FIELDS], hm⟩
  · exact Or.inr ⟨hp, "org", by simp [ORG_ID_FIELDS], hm⟩

/-- Provenance of user-map keys after discovery. -/
theorem find_org_ids_user_keys {st : SanState} {content : String} {n : Int}
    (h : n ∈ mapKeys (find_org_ids st content).userMap) :
    n ∈ mapKeys st.userMap ∨
      (0 < n ∧ ∃ f ∈ USER_ID_FIELDS, n ∈ findFieldInts f content.data) := by
  unfold find_org_ids at h
  rcases userFold_keys_mem h with h' | h'
  · rw [foldl_registerOrg_userMap, foldl_registerOrg_userMap] at h'
    exact Or.inl h'
  · exact Or.inr h'

/-! ## Rewrite-pass value lemmas -/

/-- A zero or negative integer value is returned unchanged, for any key,
and the maps are untouched. -/
theorem sanitize_value_nonpos (st : SanState) (k : String) (v : JValue)
    (n : Int) (hv : pyIntView v = some n) (hn : n ≤ 0) :
    sanitize_value st k v = (v, st) := by
  cases v with
  | bool b =>
    simp only [pyIntView, Option.some.injEq] at hv
    cases b with
    | false => simp [sanitize_value, pyIntView]
    | true => norm_num at hv; omega
  | int m =>
    simp only [pyIntView, Option.some.injEq] at hv
    have hm : ¬ (0 : Int) < m := by omega
    simp [sanitize_value, pyIntView, hm]
  | null => simp [pyIntView] at hv
  | numRaw s => simp [pyIntView] at hv
  | str s => simp [pyIntView] at hv
  | arr a => simp [pyIntView] at hv
  | obj o => simp [pyIntView] at hv

/-- A string value under an organization- or user-ID field name is
returned unchanged (only integers qualify for substitution). -/
theorem sanitize_value_str_id_field (st : SanState) (k : String) (s : String)
    (hk : k ∈ ORG_ID_FIELDS ∨ k ∈ USER_ID_FIELDS) :
    sanitize_value st k (.str s) = (.str s, st) := by
  have hek : k ∉ EMAIL_FIELDS ∧ k ∉ NAME_FIELDS := by
    rcases hk with hk | hk <;>
      simp only [ORG_ID_FIELDS, USER_ID_FIELDS] at hk <;>
      fin_cases hk <;> decide
  simp [sanitize_value, pyIntView, hek.1, hek.2]

/-- C6: a value of `0` or a negative integer under a recognized
organization-ID or user-ID field name is never inserted into either
substitution map by the Discovery pass and is never altered by the
Rewrite pass. -/
theorem claim_C6_nonpositive_policy (st : SanState) (content : String)
    (k : String) (v : JValue) (n : Int)
    (_hk : k ∈ ORG_ID_FIELDS ∨ k ∈ USER_ID_FIELDS)
    (hv : pyIntView v = some n) (hn : n ≤ 0) :
    (n ∈ mapKeys (find_org_ids st content).orgMap → n ∈ mapKeys st.orgMap) ∧
    (n ∈ mapKeys (find_org_ids st content).userMap → n ∈ mapKeys st.userMap) ∧
    sanitize_value st k v = (v, st) := by
  refine ⟨?_, ?_, sanitize_value_nonpos st k v n hv hn⟩
  · intro h
    rcases find_org_ids_org_keys h with h' | ⟨hp, _⟩
    · exact h'
    · omega
  · intro h
    rcases find_org_ids_user_keys h with h' | ⟨hp, _⟩
    · exact h'
    · omega

theorem claim_C6_witness :
    (("org_id" ∈ ORG_ID_FIELDS ∨ "org_id" ∈ USER_ID_FIELDS) ∧
      pyIntView (.int 0) = some 0 ∧ (0 : Int) ≤ 0) ∧
    sanitize_value emptyState "org_id" (.int 0) = (.int 0, emptyState) ∧
    find_org_ids emptyState "\x7b\"org_id\": 0, \"owner_id\": 0\x7d" = emptyState :=
  ⟨⟨Or.inl (by decide), rfl, by decide⟩,
   (claim_C6_nonpositive_policy emptyState "\x7b\"org_id\": 0, \"owner_id\": 0\x7d"
      "org_id" (.int 0) 0 (Or.inl (by decide)) rfl (by decide)).2.2,
   by decide⟩

/-- C10: an identifier encoded as a JSON string under a recognized ID
field name is never altered by the structural rewrite, and is never
registered by the Discovery pass: the anchored matcher rejects any
occurrence whose value starts with a quote, and every newly registered
key arises from a successful anchored match. -/
theorem claim_C10_string_typed_ids (st : SanState) (content : String)
    (k f : String) (s : String) (n : Int) (w1 w2 rest : List Char)
    (hk : k ∈ ORG_ID_FIELDS ∨ k ∈ USER_ID_FIELDS)
    (h1 : ∀ c ∈ w1, isReWs c = true) (h2 : ∀ c ∈ w2, isReWs c = true) :
    sanitize_value st k (.str s) = (.str s, st) ∧
    matchFieldAt f
      (('"' :: (f.data ++ ['"'])) ++ (w1 ++ ':' :: (w2 ++ '"' :: rest))) = none ∧
    (n ∈ mapKeys (find_org_ids st content).orgMap → n ∈ mapKeys st.orgMap ∨
      (0 < n ∧ ∃ f' ∈ ORG_ID_FIELDS, ∃ i r,
        matchFieldAt f' (content.data.drop i) = some (n, r))) ∧
    (n ∈ mapKeys (find_org_ids st content).userMap → n ∈ mapKeys st.userMap ∨
      (0 < n ∧ ∃ f' ∈ USER_ID_FIELDS, ∃ i r,
        matchFieldAt f' (content.data.drop i) = some (n, r))) := by
  refine ⟨sanitize_value_str_id_field st k s hk,
    matchFieldAt_quoted_none f w1 w2 rest h1 h2, ?_, ?_⟩
  · intro h
    rcases find_org_ids_org_keys h with h' | ⟨hp, f', hf', hm⟩
    · exact Or.inl h'
    · rcases findFieldInts_sound hm with ⟨i, r, hi⟩
      exact Or.inr ⟨hp, f', hf', i, r, hi⟩
  · intro h
    rcases find_org_ids_user_keys h with h' | ⟨hp, f', hf', hm⟩
    · exact Or.inl h'
    · rcases findFieldInts_sound hm with ⟨i, r, hi⟩
      exact Or.inr ⟨hp, f', hf', i, r, hi⟩

theorem claim_C10_witness :
    (("org_id" ∈ ORG_ID_FIELDS ∨ "org_id" ∈ USER_ID_FIELDS) ∧
      (∀ c ∈ ([] : List Char), isReWs c = true) ∧
      (∀ c ∈ [' '], isReWs c = true)) ∧
    sanitize_value emptyState "org_id" (.str "13888") = (.str "13888", emptyState) ∧
    find_org_ids emptyState "\x7b\"org_id\": \"13888\"\x7d" = emptyState :=
  ⟨⟨Or.inl (by decide), by decide, by decide⟩,
   (claim_C10_string_typed_ids emptyState "\x7b\"org_id\": \"13888\"\x7d" "org_id"
      "org_id" "13888" 13888 [] [' '] ('1' :: '3' :: '8' :: '8' :: '8' :: '"' :: '}' :: [])
      (Or.inl (by decide)) (by decide) (by decide)).1,
   by decide⟩

/-! ## Non-JSON body fallback (claim C5) -/

theorem JObj.lookup_set_self : (o : JObj) → (k : String) → (v : JValue) →
    (o.set k v).lookup k = some v
  | .nil, k, v => by simp [JObj.set, JObj.lookup]
  | .cons k' v' t, k, v => by
    by_cases h : k' = k
    · simp [JObj.set, JObj.lookup, h]
    · simp [JObj.set, JObj.lookup, h, JObj.lookup_set_self t k v]

theorem JObj.lookup_set_ne : (o : JObj) → {k k' : String} → (v : JValue) →
    k' ≠ k → (o.set k v).lookup k' = o.lookup k'
  | .nil, k, k', v, h => by
    simp [JObj.set, JObj.lookup, Ne.symm h]
  | .cons k'' v'' t, k, k', v, h => by
    by_cases hk : k'' = k
    · subst hk
      simp [JObj.set, JObj.lookup, Ne.symm h]
    · simp only [JObj.set, if_neg hk, JObj.lookup]
      split
      · rfl
      · exact JObj.lookup_set_ne t v h

/-- C5: a response body string that does not parse as JSON is returned
unchanged by the Rewrite pass, with the maps untouched and no failure,
while the other structural fields of the interaction — here the request
URL — are still sanitized. -/
theorem claim_C5_nonjson_body (st : SanState) (s url : String)
    (entries req resp : JObj)
    (hs : json_loads s = none)
    (hreq : entries.lookup "request" = some (.obj req))
    (hurl : req.lookup "url" = some (.str url))
    (hresp : entries.lookup "response" = some (.obj resp))
    (hbody : resp.lookup "body" = some (.str s)) :
    sanitize_body_string st s = (s, st) ∧
    ∃ entries' req' resp',
      sanitize_interaction st (.obj entries) = (.obj entries', st) ∧
      entries'.lookup "request" = some (.obj req') ∧
      req'.lookup "url" = some (.str ⟨sanitizeUrl st url.data⟩) ∧
      entries'.lookup "response" = some (.obj resp') ∧
      resp'.lookup "body" = some (.str s) := by
  have hbs : sanitize_body_string st s = (s, st) := by
    simp [sanitize_body_string, hs]
  refine ⟨hbs, ?_⟩
  have hne : ("response" : String) ≠ "request" := by decide
  have hlook1 :
      (entries.set "request"
        (.obj (req.set "url" (.str ⟨sanitizeUrl st url.data⟩)))).lookup "response"
        = some (.obj resp) := by
    rw [JObj.lookup_set_ne _ _ hne, hresp]
  by_cases hempty : s = ""
  · subst hempty
    refine ⟨entries.set "request"
        (.obj (req.set "url" (.str ⟨sanitizeUrl st url.data⟩))),
      req.set "url" (.str ⟨sanitizeUrl st url.data⟩), resp, ?_, ?_, ?_, ?_, ?_⟩
    · simp only [sanitize_interaction, hreq, hurl, hlook1, hbody]
      simp
    · exact JObj.lookup_set_self _ _ _
    · exact JObj.lookup_set_self _ _ _
    · exact hlook1
    · exact hbody
  · refine ⟨(entries.set "request"
        (.obj (req.set "url" (.str ⟨sanitizeUrl st url.data⟩)))).set "response"
        (.obj (resp.set "body" (.str s))),
      req.set "url" (.str ⟨sanitizeUrl st url.data⟩),
      resp.set "body" (.str s), ?_, ?_, ?_, ?_, ?_⟩
    · simp only [sanitize_interaction, hreq, hurl, hlook1, hbody]
      simp [hempty, hbs]
    · rw [JObj.lookup_set_ne _ _ (by decide : ("request" : String) ≠ "response")]
      exact JObj.lookup_set_self _ _ _
    · exact JObj.lookup_set_self _ _ _
    · exact JObj.lookup_set_self _ _ _
    · exact JObj.lookup_set_self _ _ _

theorem claim_C5_witness :
    json_loads "<html>Error</html>" = none ∧
    sanitize_body_string ⟨[(777, 12345)], []⟩ "<html>Error</html>"
      = ("<html>Error</html>", ⟨[(777, 12345)], []⟩) ∧
    sanitizeUrl ⟨[(777, 12345)], []⟩ "https://a/org/777/x".data
      = "https://a/org/12345/x".data :=
  ⟨by decide,
   (claim_C5_nonjson_body ⟨[(777, 12345)], []⟩ "<html>Error</html>"
      "https://a/org/777/x"
      (.cons "request" (.obj (.cons "url" (.str "https://a/org/777/x") .nil))
        (.cons "response" (.obj (.cons "body" (.str "<html>Error</html>") .nil)) .nil))
      (.cons "url" (.str "https://a/org/777/x") .nil)
      (.cons "body" (.str "<html>Error</html>") .nil)
      (of_decide_eq_true rfl) (of_decide_eq_true rfl) (of_decide_eq_true rfl) (of_decide_eq_true rfl) (of_decide_eq_true rfl)).1,
   by decide⟩

/-! ## Converter claims (C3, C7, C8) -/

/-- Elements of a JSON array, as a list. -/
def JArr.toList : JArr → List JValue
  | .nil => []
  | .cons v t => v :: JArr.toList t

/-- An interaction that is structurally incomplete for conversion: a
required field (method, URI, header mapping, response status code,
response body) is missing, or the request/response records themselves
are missing or not mappings. -/
def missingRequired (v : JValue) : Prop :=
  match v with
  | .obj i =>
    match i.lookup "request", i.lookup "response" with
    | some (.obj req), some (.obj resp) =>
      req.lookup "method" = none ∨ req.lookup "url" = none ∨
      req.lookup "headers" = none ∨ resp.lookup "status_code" = none ∨
      resp.lookup "body" = none
    | _, _ => True
  | _ => True

/-- The exact output of a successful `convert_interaction`. -/
theorem convert_interaction_eq (i req resp rh sh : JObj) (m u b c : JValue)
    (hreq : i.lookup "request" = some (.obj req))
    (hresp : i.lookup "response" = some (.obj resp))
    (hh : req.lookup "headers" = some (.obj rh))
    (hm : req.lookup "method" = some m)
    (hu : req.lookup "url" = some u)
    (hb : resp.lookup "body" = some b)
    (hc : resp.lookup "status_code" = some c)
    (hsh : resp.lookup "headers" = some (.obj sh)) :
    convert_interaction (.obj i) = some (.obj (
      .cons "request" (.obj (
        .cons "body" ((req.lookup "body").getD .null) (
        .cons "form" (.obj .nil) (
        .cons "headers" (.obj (convert_headers rh)) (
        .cons "method" m (
        .cons "uri" u .nil)))))) (
      .cons "response" (.obj (
        .cons "body" (.obj (.cons "string" b .nil)) (
        .cons "code" c (
        .cons "headers" (.obj (convert_headers sh)) .nil))))
      .nil))) := by
  simp [convert_interaction, hreq, hresp, hh, hm, hu, hb, hc, hsh]

/-- A structurally incomplete interaction makes `convert_interaction`
fail. -/
theorem convert_interaction_missing {v : JValue} (h : missingRequired v) :
    convert_interaction v = none := by
  cases v with
  | obj i =>
    rcases h1 : i.lookup "request" with _ | r
    · simp [convert_interaction, h1]
    · rcases h2 : i.lookup "response" with _ | s
      · cases r <;> simp [convert_interaction, h1, h2]
      · cases r <;> cases s <;> simp [convert_interaction, h1, h2]
        rename_i req resp
        simp only [missingRequired, h1, h2] at h
        rcases hh : req.lookup "headers" with _ | hv
        · simp [hh]
        · rcases hm : req.lookup "method" with _ | mv
          · cases hv <;> simp [hh, hm]
          · rcases hu : req.lookup "url" with _ | uv
            · cases hv <;> simp [hh, hm, hu]
            · rcases hb : resp.lookup "body" with _ | bv
              · cases hv <;> simp [hh, hm, hu, hb]
              · rcases hc : resp.lookup "status_code" with _ | cv
                · cases hv <;> simp [hh, hm, hu, hb, hc]
                · simp [hh, hm, hu, hb, hc] at h
  | null => rfl
  | bool b => rfl
  | int n => rfl
  | numRaw s => rfl
  | str s => rfl
  | arr a => rfl

/-- One failing interaction aborts the whole comprehension. -/
theorem convert_interactions_none : (items : JArr) → (i : JValue) →
    i ∈ items.toList → convert_interaction i = none →
    convert_interactions items = none
  | .nil, i, hm, _ => absurd hm (by simp [JArr.toList])
  | .cons a t, i, hm, hn => by
    rcases List.mem_cons.mp (by simpa [JArr.toList] using hm) with rfl | hm'
    · simp [convert_interactions, hn]
    · rw [convert_interactions, convert_interactions_none t i hm' hn]
      cases convert_interaction a <;> rfl

/-- C7: a fixture containing an interaction with a missing required
field (method, URI, header mapping, response status code or response
body — including a missing or malformed request/response record) fails
conversion as a whole: `convert_cassette` returns `none`, which models
the exception raised before the output file is opened, so the original
file is never overwritten. -/
theorem claim_C7_schema_error (entries : JObj) (items : JArr) (i : JValue)
    (hint : entries.lookup "interactions" = some (.arr items))
    (hmem : i ∈ items.toList) (hmiss : missingRequired i) :
    convert_cassette (.obj entries) = none := by
  have hnone := convert_interactions_none items i hmem
    (convert_interaction_missing hmiss)
  simp [convert_cassette, hint, hnone]

/-- A fixture interaction missing its request URL and headers. -/
def exBadInteraction : JObj :=
  .cons "request" (.obj (.cons "method" (.str "GET") .nil)) (
  .cons "response" (.obj (.cons "status_code" (.int 200) (
    .cons "body" (.str "\x7b\x7d") .nil))) .nil)

/-- A one-interaction cassette around `exBadInteraction`. -/
def exBadCassette : JObj :=
  .cons "interactions" (.arr (.cons (.obj exBadInteraction) .nil)) .nil

theorem claim_C7_witness :
    missingRequired (.obj exBadInteraction) ∧
    convert_cassette (.obj exBadCassette) = none :=
  ⟨by simp [missingRequired, exBadInteraction, JObj.lookup],
   claim_C7_schema_error exBadCassette (.cons (.obj exBadInteraction) .nil)
     (.obj exBadInteraction) (by decide) (by simp [JArr.toList])
     (by simp [missingRequired, exBadInteraction, JObj.lookup])⟩

/-- Pointwise content of `convert_headers`: every header value becomes a
one-element array. -/
theorem convert_headers_lookup : (h : JObj) → (k : String) →
    (convert_headers h).lookup k
      = (h.lookup k).map (fun v => .arr (.cons v .nil))
  | .nil, k => rfl
  | .cons k' v t, k => by
    by_cases hk : k' = k <;>
      simp [convert_headers, JObj.lookup, hk, convert_headers_lookup t k]

/-- C8 (amended C3 uses the same computation): the full output shape of a
successful conversion.  Headers become one-element arrays
unconditionally, the form is the empty mapping, and an absent request
body becomes an explicit `null`. -/
theorem claim_C8_request_defaults (i req resp rh sh : JObj) (m u b c : JValue)
    (hreq : i.lookup "request" = some (.obj req))
    (hresp : i.lookup "response" = some (.obj resp))
    (hh : req.lookup "headers" = some (.obj rh))
    (hm : req.lookup "method" = some m)
    (hu : req.lookup "url" = some u)
    (hb : resp.lookup "body" = some b)
    (hc : resp.lookup "status_code" = some c)
    (hsh : resp.lookup "headers" = some (.obj sh)) :
    ∃ outReq : JObj,
      convert_interaction (.obj i) = some (.obj (
        .cons "request" (.obj outReq) (
        .cons "response" (.obj (
          .cons "body" (.obj (.cons "string" b .nil)) (
          .cons "code" c (
          .cons "headers" (.obj (convert_headers sh)) .nil))))
        .nil))) ∧
      outReq.lookup "form" = some (.obj .nil) ∧
      outReq.lookup "headers" = some (.obj (convert_headers rh)) ∧
      (∀ k : String, (convert_headers rh).lookup k
        = (rh.lookup k).map (fun v => .arr (.cons v .nil))) ∧
      (req.lookup "body" = none → outReq.lookup "body" = some .null) ∧
      (∀ bv, req.lookup "body" = some bv → outReq.lookup "body" = some bv) := by
  refine ⟨.cons "body" ((req.lookup "body").getD .null) (
      .cons "form" (.obj .nil) (
      .cons "headers" (.obj (convert_headers rh)) (
      .cons "method" m (
      .cons "uri" u .nil)))),
    convert_interaction_eq i req resp rh sh m u b c
      hreq hresp hh hm hu hb hc hsh, ?_, ?_, convert_headers_lookup rh, ?_, ?_⟩
  · simp [JObj.lookup]
  · simp [JObj.lookup]
  · intro hnone; simp [JObj.lookup, hnone]
  · intro bv hbv; simp [JObj.lookup, hbv]

/-- The request headers of the concrete conversion scenario. -/
def exReqHdrs : JObj := .cons "Accept" (.str "application/json") .nil

/-- The flat-schema request of the concrete conversion scenario. -/
def exReq : JObj :=
  .cons "method" (.str "GET") (
  .cons "url" (.str "https://x") (
  .cons "headers" (.obj exReqHdrs) .nil))

/-- The flat-schema response of the concrete conversion scenario. -/
def exResp : JObj :=
  .cons "status_code" (.int 200) (
  .cons "headers" (.obj .nil) (
  .cons "body" (.str "\x7b\x7d") .nil))

/-- The flat-schema interaction of the concrete conversion scenario. -/
def exInteraction : JObj :=
  .cons "request" (.obj exReq) (.cons "response" (.obj exResp) .nil)

theorem claim_C8_witness :
    ∃ outReq : JObj,
      convert_interaction (.obj exInteraction) = some (.obj (
        .cons "request" (.obj outReq) (
        .cons "response" (.obj (
          .cons "body" (.obj (.cons "string" (.str "\x7b\x7d") .nil)) (
          .cons "code" (.int 200) (
          .cons "headers" (.obj (convert_headers .nil)) .nil))))
        .nil))) ∧
      outReq.lookup "form" = some (.obj .nil) ∧
      outReq.lookup "headers" = some (.obj (convert_headers exReqHdrs)) ∧
      outReq.lookup "body" = some .null := by
  rcases claim_C8_request_defaults exInteraction exReq exResp exReqHdrs .nil
      (.str "GET") (.str "https://x") (.str "\x7b\x7d") (.int 200)
      (of_decide_eq_true rfl) (of_decide_eq_true rfl) (of_decide_eq_true rfl) (of_decide_eq_true rfl) (of_decide_eq_true rfl) (of_decide_eq_true rfl) (of_decide_eq_true rfl) (of_decide_eq_true rfl)
    with ⟨outReq, heq, hform, hhdrs, _, hnone, _⟩
  exact ⟨outReq, heq, hform, hhdrs, hnone (by decide)⟩

/-! ## Status text is dropped by the converter (claim C3) -/

/-- Field of an optional object value. -/
def jField (o : Option JValue) (k : String) : Option JValue :=
  match o with
  | some (.obj es) => es.lookup k
  | _ => none

/-- A flat request used in the status scenario. -/
def exReqS : JObj :=
  .cons "method" (.str "GET") (
  .cons "url" (.str "https://x") (
  .cons "headers" (.obj .nil) .nil))

/-- A flat response that carries the textual status `"200 OK"`. -/
def exRespS : JObj :=
  .cons "status_code" (.int 200) (
  .cons "status" (.str "200 OK") (
  .cons "headers" (.obj .nil) (
  .cons "body" (.str "\x7b\x7d") .nil)))

/-- A flat interaction whose response carries a textual status. -/
def exInteractionS : JObj :=
  .cons "request" (.obj exReqS) (.cons "response" (.obj exRespS) .nil)

/-- C3 fails on the code: the flat schema supplies `"status": "200 OK"`,
the conversion succeeds, but the nested output contains no textual
status at all — only the numeric code survives. -/
theorem claim_C3_counterexample :
    jField (jField (some (.obj exInteractionS)) "response") "status"
      = some (.str "200 OK") ∧
    (convert_interaction (.obj exInteractionS)).isSome = true ∧
    jField (jField (convert_interaction (.obj exInteractionS)) "response")
      "status" = none ∧
    jField (jField (convert_interaction (.obj exInteractionS)) "response")
      "code" = some (.int 200) := by decide

/-- C3 amended: the numeric status code is passed through, the
conversion succeeds whether or not the flat schema supplies a textual
status, but the textual status is always dropped: the nested response
never contains a `status` field. -/
theorem claim_C3_amended_status (i req resp rh sh : JObj) (m u b c : JValue)
    (hreq : i.lookup "request" = some (.obj req))
    (hresp : i.lookup "response" = some (.obj resp))
    (hh : req.lookup "headers" = some (.obj rh))
    (hm : req.lookup "method" = some m)
    (hu : req.lookup "url" = some u)
    (hb : resp.lookup "body" = some b)
    (hc : resp.lookup "status_code" = some c)
    (hsh : resp.lookup "headers" = some (.obj sh)) :
    ∃ out outResp : JObj,
      convert_interaction (.obj i) = some (.obj out) ∧
      out.lookup "response" = some (.obj outResp) ∧
      outResp.lookup "code" = some c ∧
      outResp.lookup "status" = none := by
  refine ⟨_, .cons "body" (.obj (.cons "string" b .nil)) (
      .cons "code" c (
      .cons "headers" (.obj (convert_headers sh)) .nil)),
    convert_interaction_eq i req resp rh sh m u b c
      hreq hresp hh hm hu hb hc hsh, ?_, ?_, ?_⟩
  · simp [JObj.lookup]
  · simp [JObj.lookup]
  · simp [JObj.lookup]

theorem claim_C3_witness :
    ∃ out outResp : JObj,
      convert_interaction (.obj exInteractionS) = some (.obj out) ∧
      out.lookup "response" = some (.obj outResp) ∧
      outResp.lookup "code" = some (.int 200) ∧
      outResp.lookup "status" = none :=
  claim_C3_amended_status exInteractionS exReqS exRespS .nil .nil
    (.str "GET") (.str "https://x") (.str "\x7b\x7d") (.int 200)
    (of_decide_eq_true rfl) (of_decide_eq_true rfl) (of_decide_eq_true rfl) (of_decide_eq_true rfl) (of_decide_eq_true rfl) (of_decide_eq_true rfl) (of_decide_eq_true rfl) (of_decide_eq_true rfl)

/-! ## Structural walk: map invariants and org-ID replacement (claim C2) -/

/-- Both maps send every key to their fixed substitute. -/
def AllSubst (st : SanState) : Prop := OrgAllSubst st ∧ UserAllSubst st

instance (st : SanState) : Decidable (AllSubst st) := by
  unfold AllSubst; infer_instance

theorem lookup_mem_of_eq_some {m : List (Int × Int)} {k v : Int}
    (h : List.lookup k m = some v) : (k, v) ∈ m := by
  induction m with
  | nil => simp [List.lookup] at h
  | cons p t ih =>
    rcases p with ⟨k', v'⟩
    rw [List.lookup] at h
    by_cases hk : k = k'
    · subst hk
      simp only [beq_self_eq_true] at h
      injection h with h
      subst h
      exact List.mem_cons_self _ _
    · have hne : (k == k') = false := beq_eq_false_iff_ne.mpr hk
      rw [hne] at h
      exact List.mem_cons_of_mem _ (ih h)

/-- Disjointness of the recognized organization fields from the other
field classes. -/
theorem org_field_disjoint {k : String} (hk : k ∈ ORG_ID_FIELDS) :
    k ∉ USER_ID_FIELDS ∧ k ∉ EMAIL_FIELDS ∧ k ∉ NAME_FIELDS := by
  simp only [ORG_ID_FIELDS] at hk
  fin_cases hk <;> refine ⟨of_decide_eq_true rfl, of_decide_eq_true rfl, of_decide_eq_true rfl⟩

/-- Reduction of `sanitize_value` on a value with an integer view. -/
theorem sanitize_value_intView (st : SanState) (k : String) (v : JValue)
    (m : Int) (hv : pyIntView v = some m) :
    sanitize_value st k v =
      if k ∈ ORG_ID_FIELDS ∧ 0 < m then
        match List.lookup m st.orgMap with
        | some t => (JValue.int t, st)
        | none => (JValue.int TEST_ORG_ID,
            ⟨st.orgMap ++ [(m, TEST_ORG_ID)], st.userMap⟩)
      else if k ∈ USER_ID_FIELDS ∧ 0 < m then
        match List.lookup m st.userMap with
        | some t => (JValue.int t, st)
        | none => (JValue.int TEST_USER_ID,
            ⟨st.orgMap, st.userMap ++ [(m, TEST_USER_ID)]⟩)
      else (v, st) := by
  cases v with
  | int i =>
    simp only [pyIntView, Option.some.injEq] at hv
    subst hv
    rfl
  | bool b =>
    cases b <;> simp only [pyIntView, Option.some.injEq] at hv <;>
      norm_num at hv <;> subst hv <;> rfl
  | null => simp [pyIntView] at hv
  | numRaw s => simp [pyIntView] at hv
  | str s => simp [pyIntView] at hv
  | arr a => simp [pyIntView] at hv
  | obj o => simp [pyIntView] at hv

/-- `sanitize_value` preserves the substitute invariant of both maps and
never removes keys. -/
theorem sanitize_value_state (st : SanState) (k : String) (v : JValue) :
    (AllSubst st → AllSubst (sanitize_value st k v).2) ∧
    (∀ n, n ∈ mapKeys st.orgMap →
      n ∈ mapKeys (sanitize_value st k v).2.orgMap) ∧
    (∀ n, n ∈ mapKeys st.userMap →
      n ∈ mapKeys (sanitize_value st k v).2.userMap) := by
  have hout : (sanitize_value st k v).2 = st ∨
      (∃ m, (sanitize_value st k v).2
        = ⟨st.orgMap ++ [(m, TEST_ORG_ID)], st.userMap⟩) ∨
      (∃ m, (sanitize_value st k v).2
        = ⟨st.orgMap, st.userMap ++ [(m, TEST_USER_ID)]⟩) := by
    cases v <;> simp only [sanitize_value, pyIntView] <;>
      (repeat' split) <;> simp
  rcases hout with h | ⟨m, h⟩ | ⟨m, h⟩ <;> rw [h]
  · exact ⟨id, fun n hn => hn, fun n hn => hn⟩
  · refine ⟨fun ⟨ho, hu⟩ => ⟨?_, hu⟩, fun n hn => ?_, fun n hn => hn⟩
    · intro p hp
      rcases List.mem_append.mp hp with hp | hp
      · exact ho p hp
      · simp at hp; simp [hp]
    · simp [mapKeys] at hn ⊢
      exact Or.inl hn
  · refine ⟨fun ⟨ho, hu⟩ => ⟨ho, ?_⟩, fun n hn => hn, fun n hn => ?_⟩
    · intro p hp
      rcases List.mem_append.mp hp with hp | hp
      · exact hu p hp
      · simp at hp; simp [hp]
    · simp [mapKeys] at hn ⊢
      exact Or.inl hn

/-- Under the substitute invariant, any positive-integer output of
`sanitize_value` at an organization field is exactly the substitute. -/
theorem sanitize_value_org_out (st : SanState) (k : String) (v : JValue)
    (n : Int) (horg : OrgAllSubst st) (hk : k ∈ ORG_ID_FIELDS)
    (hn : pyIntView (sanitize_value st k v).1 = some n) (hpos : 0 < n) :
    (sanitize_value st k v).1 = .int TEST_ORG_ID := by
  rcases org_field_disjoint hk with ⟨hku, hke, hkn⟩
  rcases hv : pyIntView v with _ | m
  · -- no integer view: the value comes back unchanged
    have hout : (sanitize_value st k v).1 = v := by
      cases v with
      | null => rfl
      | str s => simp [sanitize_value, pyIntView, hke, hkn]
      | numRaw s => rfl
      | arr a => rfl
      | obj o => rfl
      | bool b => simp [pyIntView] at hv
      | int i => simp [pyIntView] at hv
    rw [hout] at hn
    rw [hv] at hn
    exact absurd hn (by simp)
  · rw [sanitize_value_intView st k v m hv] at hn ⊢
    by_cases hm : 0 < m
    · rw [if_pos ⟨hk, hm⟩] at hn ⊢
      rcases hl : List.lookup m st.orgMap with _ | t
      · rfl
      · have ht := horg _ (lookup_mem_of_eq_some hl)
        simp only at ht
        simp [ht]
    · have hc1 : ¬ (k ∈ ORG_ID_FIELDS ∧ 0 < m) := fun h => hm h.2
      have hc2 : ¬ (k ∈ USER_ID_FIELDS ∧ 0 < m) := fun h => hku h.1
      rw [if_neg hc1, if_neg hc2] at hn
      simp only at hn
      rw [hv] at hn
      injection hn with hn
      omega

/-- At an organization field, a positive integer input value always ends
up registered in the organization map (looked up or inserted on the
fly). -/
theorem sanitize_value_org_registers (st : SanState) (k : String) (n : Int)
    (hk : k ∈ ORG_ID_FIELDS) (hpos : 0 < n) :
    n ∈ mapKeys (sanitize_value st k (.int n)).2.orgMap := by
  rw [sanitize_value_intView st k (.int n) n rfl]
  rw [if_pos ⟨hk, hpos⟩]
  rcases hl : List.lookup n st.orgMap with _ | t
  · simp [mapKeys]
  · exact List.mem_map_of_mem Prod.fst (lookup_mem_of_eq_some hl)

/-- Relation between the maps before and after one sanitization step:
the substitute invariants are preserved and keys are never removed. -/
def StepOk (st st' : SanState) : Prop :=
  (OrgAllSubst st → OrgAllSubst st') ∧
  (UserAllSubst st → UserAllSubst st') ∧
  (∀ n, n ∈ mapKeys st.orgMap → n ∈ mapKeys st'.orgMap) ∧
  (∀ n, n ∈ mapKeys st.userMap → n ∈ mapKeys st'.userMap)

theorem StepOk.refl (st : SanState) : StepOk st st :=
  ⟨id, id, fun _ h => h, fun _ h => h⟩

theorem StepOk.trans {s1 s2 s3 : SanState} (h1 : StepOk s1 s2)
    (h2 : StepOk s2 s3) : StepOk s1 s3 :=
  ⟨fun h => h2.1 (h1.1 h), fun h => h2.2.1 (h1.2.1 h),
   fun n h => h2.2.2.1 n (h1.2.2.1 n h), fun n h => h2.2.2.2 n (h1.2.2.2 n h)⟩

theorem sanitize_value_stepOk (st : SanState) (k : String) (v : JValue) :
    StepOk st (sanitize_value st k v).2 := by
  have hout : (sanitize_value st k v).2 = st ∨
      (∃ m, (sanitize_value st k v).2
        = ⟨st.orgMap ++ [(m, TEST_ORG_ID)], st.userMap⟩) ∨
      (∃ m, (sanitize_value st k v).2
        = ⟨st.orgMap, st.userMap ++ [(m, TEST_USER_ID)]⟩) := by
    cases v <;> simp only [sanitize_value, pyIntView] <;>
      (repeat' split) <;> simp
  rcases hout with h | ⟨m, h⟩ | ⟨m, h⟩ <;> rw [h]
  · exact StepOk.refl st
  · refine ⟨fun ho p hp => ?_, fun h => h, fun n hn => ?_, fun n hn => hn⟩
    · rcases List.mem_append.mp hp with hp | hp
      · exact ho p hp
      · simp at hp; simp [hp]
    · simp only [mapKeys, List.map_append]
      exact List.mem_append_left _ hn
  · refine ⟨fun h => h, fun hu p hp => ?_, fun n hn => hn, fun n hn => ?_⟩
    · rcases List.mem_append.mp hp with hp | hp
      · exact hu p hp
      · simp at hp; simp [hp]
    · simp only [mapKeys, List.map_append]
      exact List.mem_append_left _ hn

/-- No key/value pair is reachable inside a scalar. -/
theorem ReachablePair.not_scalar {v : JValue} {k : String} {w : JValue}
    (hr : ReachablePair v k w) (hs : IsScalarJ v) : False := by
  cases hr <;> exact hs

mutual
theorem sanitizeEntries_stepOk (st : SanState) (es : JObj) :
    StepOk st (sanitizeEntries st es).2 :=
  match es with
  | .nil => StepOk.refl st
  | .cons k v t => by
    cases v with
    | obj o =>
      simp only [sanitizeEntries]
      exact (sanitizeEntries_stepOk st o).trans (sanitizeEntries_stepOk _ t)
    | arr items =>
      simp only [sanitizeEntries]
      exact (sanitize_list_stepOk st items).trans (sanitizeEntries_stepOk _ t)
    | null =>
      simp only [sanitizeEntries]
      exact (sanitize_value_stepOk st k _).trans (sanitizeEntries_stepOk _ t)
    | bool b =>
      simp only [sanitizeEntries]
      exact (sanitize_value_stepOk st k _).trans (sanitizeEntries_stepOk _ t)
    | int n =>
      simp only [sanitizeEntries]
      exact (sanitize_value_stepOk st k _).trans (sanitizeEntries_stepOk _ t)
    | numRaw s =>
      simp only [sanitizeEntries]
      exact (sanitize_value_stepOk st k _).trans (sanitizeEntries_stepOk _ t)
    | str s =>
      simp only [sanitizeEntries]
      exact (sanitize_value_stepOk st k _).trans (sanitizeEntries_stepOk _ t)

theorem sanitize_list_stepOk (st : SanState) (a : JArr) :
    StepOk st (sanitize_list st a).2 :=
  match a with
  | .nil => StepOk.refl st
  | .cons item t => by
    cases item with
    | obj o =>
      simp only [sanitize_list]
      exact (sanitizeEntries_stepOk st o).trans (sanitize_list_stepOk _ t)
    | arr its =>
      simp only [sanitize_list]
      exact (sanitize_list_stepOk st its).trans (sanitize_list_stepOk _ t)
    | null =>
      simp only [sanitize_list]
      exact sanitize_list_stepOk _ t
    | bool b =>
      simp only [sanitize_list]
      exact sanitize_list_stepOk _ t
    | int n =>
      simp only [sanitize_list]
      exact sanitize_list_stepOk _ t
    | numRaw s =>
      simp only [sanitize_list]
      exact sanitize_list_stepOk _ t
    | str s =>
      simp only [sanitize_list]
      exact sanitize_list_stepOk _ t
end

mutual
/-- After the walk, every reachable organization-ID field holding a
positive integer holds exactly the substitute. -/
theorem sanitizeEntries_org_out (st : SanState) (es : JObj)
    (horg : OrgAllSubst st) :
    ∀ k w n, ReachablePair (.obj (sanitizeEntries st es).1) k w →
      k ∈ ORG_ID_FIELDS → pyIntView w = some n → 0 < n →
      w = .int TEST_ORG_ID :=
  match es with
  | .nil => by
    intro k w n hr _ _ _
    simp only [sanitizeEntries] at hr
    cases hr
  | .cons key v t => by
    cases v with
    | obj o =>
      simp only [sanitizeEntries]
      intro k w n hr hk hw hpos
      cases hr with
      | head => simp [pyIntView] at hw
      | tail _ _ ht =>
        exact sanitizeEntries_org_out _ t
          ((sanitizeEntries_stepOk st o).1 horg) k w n ht hk hw hpos
      | inVal _ _ hv =>
        exact sanitizeEntries_org_out st o horg k w n hv hk hw hpos
    | arr items =>
      simp only [sanitizeEntries]
      intro k w n hr hk hw hpos
      cases hr with
      | head => simp [pyIntView] at hw
      | tail _ _ ht =>
        exact sanitizeEntries_org_out _ t
          ((sanitize_list_stepOk st items).1 horg) k w n ht hk hw hpos
      | inVal _ _ hv =>
        exact sanitize_list_org_out st items horg k w n hv hk hw hpos
    | null =>
      simp only [sanitizeEntries]
      intro k w n hr hk hw hpos
      cases hr with
      | head => exact sanitize_value_org_out st key _ n horg hk hw hpos
      | tail _ _ ht =>
        exact sanitizeEntries_org_out _ t
          ((sanitize_value_stepOk st key _).1 horg) k w n ht hk hw hpos
      | inVal _ _ hv =>
        exact ((ReachablePair.not_scalar hv
          (sanitize_value_scalar st key _ trivial))).elim
    | bool b =>
      simp only [sanitizeEntries]
      intro k w n hr hk hw hpos
      cases hr with
      | head => exact sanitize_value_org_out st key _ n horg hk hw hpos
      | tail _ _ ht =>
        exact sanitizeEntries_org_out _ t
          ((sanitize_value_stepOk st key _).1 horg) k w n ht hk hw hpos
      | inVal _ _ hv =>
        exact ((ReachablePair.not_scalar hv
          (sanitize_value_scalar st key _ trivial))).elim
    | int m =>
      simp only [sanitizeEntries]
      intro k w n hr hk hw hpos
      cases hr with
      | head => exact sanitize_value_org_out st key _ n horg hk hw hpos
      | tail _ _ ht =>
        exact sanitizeEntries_org_out _ t
          ((sanitize_value_stepOk st key _).1 horg) k w n ht hk hw hpos
      | inVal _ _ hv =>
        exact ((ReachablePair.not_scalar hv
          (sanitize_value_scalar st key _ trivial))).elim
    | numRaw s =>
      simp only [sanitizeEntries]
      intro k w n hr hk hw hpos
      cases hr with
      | head => exact sanitize_value_org_out st key _ n horg hk hw hpos
      | tail _ _ ht =>
        exact sanitizeEntries_org_out _ t
          ((sanitize_value_stepOk st key _).1 horg) k w n ht hk hw hpos
      | inVal _ _ hv =>
        exact ((ReachablePair.not_scalar hv
          (sanitize_value_scalar st key _ trivial))).elim
    | str s =>
      simp only [sanitizeEntries]
      intro k w n hr hk hw hpos
      cases hr with
      | head => exact sanitize_value_org_out st key _ n horg hk hw hpos
      | tail _ _ ht =>
        exact sanitizeEntries_org_out _ t
          ((sanitize_value_stepOk st key _).1 horg) k w n ht hk hw hpos
      | inVal _ _ hv =>
        exact ((ReachablePair.not_scalar hv
          (sanitize_value_scalar st key _ trivial))).elim

theorem sanitize_list_org_out (st : SanState) (a : JArr)
    (horg : OrgAllSubst st) :
    ∀ k w n, ReachablePair (.arr (sanitize_list st a).1) k w →
      k ∈ ORG_ID_FIELDS → pyIntView w = some n → 0 < n →
      w = .int TEST_ORG_ID :=
  match a with
  | .nil => by
    intro k w n hr _ _ _
    simp only [sanitize_list] at hr
    cases hr
  | .cons item t => by
    cases item with
    | obj o =>
      simp only [sanitize_list]
      intro k w n hr hk hw hpos
      cases hr with
      | arrHead _ hv =>
        exact sanitizeEntries_org_out st o horg k w n hv hk hw hpos
      | arrTail _ ht =>
        exact sanitize_list_org_out _ t
          ((sanitizeEntries_stepOk st o).1 horg) k w n ht hk hw hpos
    | arr its =>
      simp only [sanitize_list]
      intro k w n hr hk hw hpos
      cases hr with
      | arrHead _ hv =>
        exact sanitize_list_org_out st its horg k w n hv hk hw hpos
      | arrTail _ ht =>
        exact sanitize_list_org_out _ t
          ((sanitize_list_stepOk st its).1 horg) k w n ht hk hw hpos
    | null =>
      simp only [sanitize_list]
      intro k w n hr hk hw hpos
      cases hr with
      | arrHead _ hv => exact (ReachablePair.not_scalar hv trivial).elim
      | arrTail _ ht =>
        exact sanitize_list_org_out st t horg k w n ht hk hw hpos
    | bool b =>
      simp only [sanitize_list]
      intro k w n hr hk hw hpos
      cases hr with
      | arrHead _ hv => exact (ReachablePair.not_scalar hv trivial).elim
      | arrTail _ ht =>
        exact sanitize_list_org_out st t horg k w n ht hk hw hpos
    | int m =>
      simp only [sanitize_list]
      intro k w n hr hk hw hpos
      cases hr with
      | arrHead _ hv => exact (ReachablePair.not_scalar hv trivial).elim
      | arrTail _ ht =>
        exact sanitize_list_org_out st t horg k w n ht hk hw hpos
    | numRaw s =>
      simp only [sanitize_list]
      intro k w n hr hk hw hpos
      cases hr with
      | arrHead _ hv => exact (ReachablePair.not_scalar hv trivial).elim
      | arrTail _ ht =>
        exact sanitize_list_org_out st t horg k w n ht hk hw hpos
    | str s =>
      simp only [sanitize_list]
      intro k w n hr hk hw hpos
      cases hr with
      | arrHead _ hv => exact (ReachablePair.not_scalar hv trivial).elim
      | arrTail _ ht =>
        exact sanitize_list_org_out st t horg k w n ht hk hw hpos
end

mutual
/-- Every positive integer found under an organization-ID field anywhere
in the walked document ends up registered in the organization map. -/
theorem sanitizeEntries_registers (st : SanState) (es : JObj) :
    ∀ k n, ReachablePair (.obj es) k (.int n) → k ∈ ORG_ID_FIELDS → 0 < n →
      n ∈ mapKeys (sanitizeEntries st es).2.orgMap :=
  match es with
  | .nil => by
    intro k n hr _ _
    cases hr
  | .cons key v t => by
    cases v with
    | obj o =>
      simp only [sanitizeEntries]
      intro k n hr hk hpos
      cases hr with
      | tail _ _ ht => exact sanitizeEntries_registers _ t k n ht hk hpos
      | inVal _ _ hv =>
        exact (sanitizeEntries_stepOk _ t).2.2.1 n
          (sanitizeEntries_registers st o k n hv hk hpos)
    | arr items =>
      simp only [sanitizeEntries]
      intro k n hr hk hpos
      cases hr with
      | tail _ _ ht => exact sanitizeEntries_registers _ t k n ht hk hpos
      | inVal _ _ hv =>
        exact (sanitizeEntries_stepOk _ t).2.2.1 n
          (sanitize_list_registers st items k n hv hk hpos)
    | null =>
      simp only [sanitizeEntries]
      intro k n hr hk hpos
      cases hr with
      | tail _ _ ht => exact sanitizeEntries_registers _ t k n ht hk hpos
      | inVal _ _ hv => exact (ReachablePair.not_scalar hv trivial).elim
    | bool b =>
      simp only [sanitizeEntries]
      intro k n hr hk hpos
      cases hr with
      | tail _ _ ht => exact sanitizeEntries_registers _ t k n ht hk hpos
      | inVal _ _ hv => exact (ReachablePair.not_scalar hv trivial).elim
    | int m =>
      simp only [sanitizeEntries]
      intro k n hr hk hpos
      cases hr with
      | head =>
        exact (sanitizeEntries_stepOk _ t).2.2.1 m
          (sanitize_value_org_registers st key m hk hpos)
      | tail _ _ ht => exact sanitizeEntries_registers _ t k n ht hk hpos
      | inVal _ _ hv => exact (ReachablePair.not_scalar hv trivial).elim
    | numRaw s =>
      simp only [sanitizeEntries]
      intro k n hr hk hpos
      cases hr with
      | tail _ _ ht => exact sanitizeEntries_registers _ t k n ht hk hpos
      | inVal _ _ hv => exact (ReachablePair.not_scalar hv trivial).elim
    | str s =>
      simp only [sanitizeEntries]
      intro k n hr hk hpos
      cases hr with
      | tail _ _ ht => exact sanitizeEntries_registers _ t k n ht hk hpos
      | inVal _ _ hv => exact (ReachablePair.not_scalar hv trivial).elim

theorem sanitize_list_registers (st : SanState) (a : JArr) :
    ∀ k n, ReachablePair (.arr a) k (.int n) → k ∈ ORG_ID_FIELDS → 0 < n →
      n ∈ mapKeys (sanitize_list st a).2.orgMap :=
  match a with
  | .nil => by
    intro k n hr _ _
    cases hr
  | .cons item t => by
    cases item with
    | obj o =>
      simp only [sanitize_list]
      intro k n hr hk hpos
      cases hr with
      | arrHead _ hv =>
        exact (sanitize_list_stepOk _ t).2.2.1 n
          (sanitizeEntries_registers st o k n hv hk hpos)
      | arrTail _ ht => exact sanitize_list_registers _ t k n ht hk hpos
    | arr its =>
      simp only [sanitize_list]
      intro k n hr hk hpos
      cases hr with
      | arrHead _ hv =>
        exact (sanitize_list_stepOk _ t).2.2.1 n
          (sanitize_list_registers st its k n hv hk hpos)
      | arrTail _ ht => exact sanitize_list_registers _ t k n ht hk hpos
    | null =>
      simp only [sanitize_list]
      intro k n hr hk hpos
      cases hr with
      | arrHead _ hv => exact (ReachablePair.not_scalar hv trivial).elim
      | arrTail _ ht => exact sanitize_list_registers _ t k n ht hk hpos
    | bool b =>
      simp only [sanitize_list]
      intro k n hr hk hpos
      cases hr with
      | arrHead _ hv => exact (ReachablePair.not_scalar hv trivial).elim
      | arrTail _ ht => exact sanitize_list_registers _ t k n ht hk hpos
    | int m =>
      simp only [sanitize_list]
      intro k n hr hk hpos
      cases hr with
      | arrHead _ hv => exact (ReachablePair.not_scalar hv trivial).elim
      | arrTail _ ht => exact sanitize_list_registers _ t k n ht hk hpos
    | numRaw s =>
      simp only [sanitize_list]
      intro k n hr hk hpos
      cases hr with
      | arrHead _ hv => exact (ReachablePair.not_scalar hv trivial).elim
      | arrTail _ ht => exact sanitize_list_registers _ t k n ht hk hpos
    | str s =>
      simp only [sanitize_list]
      intro k n hr hk hpos
      cases hr with
      | arrHead _ hv => exact (ReachablePair.not_scalar hv trivial).elim
      | arrTail _ ht => exact sanitize_list_registers _ t k n ht hk hpos
end

/-- A cassette whose top level carries a structural `org_id` field. -/
def exCassette2 : JObj :=
  .cons "org_id" (.int 13888) (.cons "interactions" (.arr .nil) .nil)

/-- C2 fails on the code: the Rewrite pass does not walk the fixture
document itself.  Here `"org_id": 13888` is reachable at the cassette's
top level, `13888` is in the organization map (Discovery finds the
structural field in the raw text), yet `sanitize_cassette` returns the
document completely unchanged — the pair is not replaced. -/
theorem claim_C2_counterexample :
    find_org_ids emptyState "\x7b\n  \"org_id\": 13888,\n  \"interactions\": []\n\x7d"
      = ⟨[(13888, 12345)], []⟩ ∧
    ReachablePair (.obj exCassette2) "org_id" (.int 13888) ∧
    "org_id" ∈ ORG_ID_FIELDS ∧ (0 : Int) < 13888 ∧
    sanitize_cassette ⟨[(13888, 12345)], []⟩ (.obj exCassette2)
      = (.obj exCassette2, ⟨[(13888, 12345)], []⟩) ∧
    JValue.int 13888 ≠ JValue.int TEST_ORG_ID :=
  ⟨by decide, ReachablePair.head _ _ _, of_decide_eq_true rfl, of_decide_eq_true rfl, of_decide_eq_true rfl,
   of_decide_eq_true rfl⟩

/-- C2 amended: the recursive walk covers the parsed response-body
document (not the whole fixture document).  There, under the invariant
that the organization map only carries the fixed substitute, every
reachable organization-ID field holding a positive integer is replaced
via the organization map — the result is always the substitute — and
every such input value is registered on the fly when not yet mapped, so
the pass never fails on an unmapped value. -/
theorem claim_C2_amended_body_walk (st : SanState) (v : JValue)
    (horg : OrgAllSubst st) :
    (∀ k w n, ReachablePair (sanitizeParsedBody st v).1 k w →
      k ∈ ORG_ID_FIELDS → pyIntView w = some n → 0 < n →
      w = .int TEST_ORG_ID) ∧
    (∀ k n, ReachablePair v k (.int n) → k ∈ ORG_ID_FIELDS → 0 < n →
      n ∈ mapKeys (sanitizeParsedBody st v).2.orgMap) := by
  cases v with
  | obj o =>
    constructor
    · intro k w n hr hk hw hpos
      exact sanitizeEntries_org_out st o horg k w n hr hk hw hpos
    · intro k n hr hk hpos
      exact sanitizeEntries_registers st o k n hr hk hpos
  | arr a =>
    constructor
    · intro k w n hr hk hw hpos
      exact sanitize_list_org_out st a horg k w n hr hk hw hpos
    · intro k n hr hk hpos
      exact sanitize_list_registers st a k n hr hk hpos
  | null =>
    exact ⟨fun k w n hr _ _ _ => (ReachablePair.not_scalar hr trivial).elim,
      fun k n hr _ _ => (ReachablePair.not_scalar hr trivial).elim⟩
  | bool b =>
    exact ⟨fun k w n hr _ _ _ => (ReachablePair.not_scalar hr trivial).elim,
      fun k n hr _ _ => (ReachablePair.not_scalar hr trivial).elim⟩
  | int m =>
    exact ⟨fun k w n hr _ _ _ => (ReachablePair.not_scalar hr trivial).elim,
      fun k n hr _ _ => (ReachablePair.not_scalar hr trivial).elim⟩
  | numRaw s =>
    exact ⟨fun k w n hr _ _ _ => (ReachablePair.not_scalar hr trivial).elim,
      fun k n hr _ _ => (ReachablePair.not_scalar hr trivial).elim⟩
  | str s =>
    exact ⟨fun k w n hr _ _ _ => (ReachablePair.not_scalar hr trivial).elim,
      fun k n hr _ _ => (ReachablePair.not_scalar hr trivial).elim⟩

theorem claim_C2_witness :
    OrgAllSubst emptyState ∧
    13888 ∈ mapKeys (sanitizeParsedBody emptyState
      (.obj (.cons "org_id" (.int 13888) .nil))).2.orgMap ∧
    (sanitizeParsedBody emptyState
      (.obj (.cons "org_id" (.int 13888) .nil))).1
      = .obj (.cons "org_id" (.int 12345) .nil) :=
  ⟨by decide,
   (claim_C2_amended_body_walk emptyState
      (.obj (.cons "org_id" (.int 13888) .nil)) (by decide)).2
     "org_id" 13888 (ReachablePair.head _ _ _) (by decide) (by decide),
   by decide⟩

/-! ## `str.replace` lemmas (claims C1 and C4) -/

theorem strReplaceAux_skip (rep pat : List Char) :
    ∀ (xs ys : List Char),
      strReplaceAux rep pat xs.length (xs ++ ys) = strReplaceAux rep pat 0 ys
  | [], ys => by simp
  | x :: xs, ys => by
    rw [List.cons_append, List.length_cons, strReplaceAux]
    exact strReplaceAux_skip rep pat xs ys

theorem strReplaceAux_no_occ (rep pat : List Char) :
    ∀ cs, hasOcc pat cs = false → strReplaceAux rep pat 0 cs = cs
  | [], _ => rfl
  | c :: rest, h => by
    rw [hasOcc, Bool.or_eq_false_iff] at h
    rw [strReplaceAux, if_neg (by simp [h.1])]
    rw [strReplaceAux_no_occ rep pat rest h.2]

/-- Replacing every occurrence of a nonempty pattern that never occurs is
the identity. -/
theorem strReplace_no_occ (s pat rep : List Char)
    (h : hasOcc pat s = false) : strReplace s pat rep = s := by
  cases pat with
  | nil => rfl
  | cons p ps => exact strReplaceAux_no_occ rep (p :: ps) s h

theorem strReplaceAux_self (p : Char) (ps : List Char) :
    ∀ (N : Nat) (cs : List Char), cs.length ≤ N →
      strReplaceAux (p :: ps) (p :: ps) 0 cs = cs
  | 0, cs, h => by
    cases cs with
    | nil => rfl
    | cons c rest => simp at h
  | N + 1, cs, h => by
    cases cs with
    | nil => rfl
    | cons c rest =>
      rw [strReplaceAux]
      split
      · rename_i hpre
        rcases List.isPrefixOf_iff_prefix.mp hpre with ⟨tail, htail⟩
        injection htail with h1 h2
        subst h1
        have hre : rest = ps ++ tail := h2.symm
        subst hre
        have : (p :: ps).length - 1 = ps.length := by simp
        rw [this, strReplaceAux_skip]
        rw [strReplaceAux_self p ps N tail (by simp at h; omega)]
        simp
      · rw [strReplaceAux_self p ps N rest (by simp at h; omega)]

/-- Replacing a pattern by itself is the identity (used for the fixed
substitute's own patterns). -/
theorem strReplace_self (s pat : List Char) : strReplace s pat pat = s := by
  cases pat with
  | nil => rfl
  | cons p ps => exact strReplaceAux_self p ps s.length s le_rfl

/-- Replacement at a clean occurrence: if the pattern does not occur
before position `|a|` and does not occur in `b`, then
`(a ++ pat ++ b).replace(pat, rep) = a ++ rep ++ b`. -/
theorem strReplaceAux_clean (rep : List Char) (p : Char) (ps : List Char) :
    ∀ (a b : List Char),
      (∀ i, i < a.length →
        (p :: ps).isPrefixOf ((a ++ ((p :: ps) ++ b)).drop i) = false) →
      hasOcc (p :: ps) b = false →
      strReplaceAux rep (p :: ps) 0 (a ++ ((p :: ps) ++ b)) = a ++ rep ++ b
  | [], b, _, hb => by
    simp only [List.nil_append, List.cons_append]
    rw [strReplaceAux,
      if_pos (List.isPrefixOf_iff_prefix.mpr ⟨b, by simp⟩)]
    have hl : (p :: ps).length - 1 = ps.length := by simp
    rw [hl, strReplaceAux_skip, strReplaceAux_no_occ rep (p :: ps) b hb]
  | c :: a', b, hno, hb => by
    have h0 := hno 0 (by simp)
    simp only [List.drop_zero, List.cons_append] at h0
    rw [List.cons_append, strReplaceAux,
      if_neg (by simp only [List.cons_append]; rw [h0]; simp)]
    rw [strReplaceAux_clean rep p ps a' b
      (fun i hi => by simpa using hno (i + 1) (by simpa using hi)) hb]
    simp

/-- The clean-occurrence property for the `strReplace` wrapper. -/
theorem strReplace_clean (rep : List Char) (p : Char) (ps : List Char)
    (a b : List Char)
    (hno : ∀ i, i < a.length →
      (p :: ps).isPrefixOf ((a ++ ((p :: ps) ++ b)).drop i) = false)
    (hb : hasOcc (p :: ps) b = false) :
    strReplace (a ++ ((p :: ps) ++ b)) (p :: ps) rep = a ++ rep ++ b :=
  strReplaceAux_clean rep p ps a b hno hb

/-- Under the substitute invariant, a positive integer under an
organization-ID field is always rewritten to the substitute. -/
theorem sanitize_value_org_replaced (st : SanState) (k : String) (m : Int)
    (horg : OrgAllSubst st) (hk : k ∈ ORG_ID_FIELDS) (hm : 0 < m) :
    (sanitize_value st k (.int m)).1 = .int TEST_ORG_ID := by
  rw [sanitize_value_intView st k (.int m) m rfl, if_pos ⟨hk, hm⟩]
  rcases hl : List.lookup m st.orgMap with _ | t
  · rfl
  · have ht := horg _ (lookup_mem_of_eq_some hl)
    simp only at ht
    simp [ht]

/-- `strReplace_clean` for any nonempty pattern. -/
theorem strReplace_clean_of_ne (rep pat : List Char) (a b : List Char)
    (hpat : pat ≠ [])
    (hno : ∀ i, i < a.length →
      pat.isPrefixOf ((a ++ (pat ++ b)).drop i) = false)
    (hb : hasOcc pat b = false) :
    strReplace (a ++ (pat ++ b)) pat rep = a ++ rep ++ b := by
  cases pat with
  | nil => exact absurd rfl hpat
  | cons p ps => exact strReplace_clean rep p ps a b hno hb

theorem orgPathPat_ne_nil (id : Int) : orgPathPat id ≠ [] := by
  simp [orgPathPat]

theorem orgQueryPat_ne_nil (id : Int) : orgQueryPat id ≠ [] := by
  simp [orgQueryPat]

/-- A URL-loop iteration for an identifier whose patterns do not occur
is the identity. -/
theorem replaceOrgInUrl_no_occ (u : List Char) (x : Int)
    (hp : hasOcc (orgPathPat x) u = false)
    (hq : hasOcc (orgQueryPat x) u = false) :
    replaceOrgInUrl u x = u := by
  unfold replaceOrgInUrl
  rw [strReplace_no_occ _ _ _ hp, strReplace_no_occ _ _ _ hq]

/-- The URL-loop iteration for the substitute itself is the identity. -/
theorem replaceOrgInUrl_test (u : List Char) :
    replaceOrgInUrl u TEST_ORG_ID = u := by
  unfold replaceOrgInUrl
  rw [strReplace_self, strReplace_self]

theorem foldl_replace_fix {L : List Int} {u : List Char}
    (h : ∀ x ∈ L, replaceOrgInUrl u x = u) :
    L.foldl replaceOrgInUrl u = u := by
  induction L with
  | nil => rfl
  | cons a t ih =>
    rw [List.foldl_cons, h a (by simp)]
    exact ih (fun x hx => h x (by simp [hx]))

/-- A URL with one `/org/<x>/` path segment and one `org_id=<y>` query
parameter. -/
def urlPathQuery (x y : Int) (A M B : List Char) : List Char :=
  A ++ (orgPathPat x ++ (M ++ (orgQueryPat y ++ B)))

/-- C1 fails on the code: with the two discovered organization IDs `777`
and `7770` (in discovery order), the URL rewrite is a plain substring
replace, so the query occurrence `org_id=7770` is first mangled to
`org_id=123450` by the replacement for `777`; the structural field
occurrence of the same real ID `7770` is replaced by `12345`.  The same
real organization ID thus does not map to the identical substitute in
both contexts. -/
theorem claim_C1_counterexample :
    find_org_ids emptyState "\"org_id\": 777, \"org_id\": 7770"
      = ⟨[(777, 12345), (7770, 12345)], []⟩ ∧
    (sanitize_value ⟨[(777, 12345), (7770, 12345)], []⟩ "org_id"
      (.int 7770)).1 = .int 12345 ∧
    sanitizeUrl ⟨[(777, 12345), (7770, 12345)], []⟩ "x?org_id=7770".data
      = "x?org_id=123450".data ∧
    "x?org_id=123450".data ≠ "x?org_id=12345".data := by
  refine ⟨of_decide_eq_true rfl, of_decide_eq_true rfl, of_decide_eq_true rfl, of_decide_eq_true rfl⟩

/-- C1 amended: every substitution one run performs uses the single
fixed substitute.  A recognized org-ID field holding a positive integer
is rewritten to `TEST_ORG_ID`; and for a discovered identifier `id`
whose URL occurrences are clean — the patterns of other discovered
identifiers (except the substitute itself, whose rewrite is always the
identity) do not hit the URL, `id`'s own patterns occur exactly at the
displayed positions, and no discovered identifier's decimal string
collides there — both the `/org/<id>/` path segment and the
`org_id=<id>` query parameter are rewritten to the identical substitute
`TEST_ORG_ID`. -/
theorem claim_C1_amended_consistency
    (st : SanState) (id m : Int) (k : String) (A M B : List Char)
    (horg : OrgAllSubst st)
    (hk : k ∈ ORG_ID_FIELDS) (hm : 0 < m)
    (hid : id ∈ mapKeys st.orgMap)
    (hnodup : (mapKeys st.orgMap).Nodup)
    (hpathClean : ∀ i, i < A.length →
      (orgPathPat id).isPrefixOf
        ((A ++ (orgPathPat id ++ (M ++ (orgQueryPat id ++ B)))).drop i)
        = false)
    (hpathOnce : hasOcc (orgPathPat id) (M ++ (orgQueryPat id ++ B)) = false)
    (hqClean : ∀ i, i < (A ++ orgPathPat TEST_ORG_ID ++ M).length →
      (orgQueryPat id).isPrefixOf
        (((A ++ orgPathPat TEST_ORG_ID ++ M) ++ (orgQueryPat id ++ B)).drop i)
        = false)
    (hqOnce : hasOcc (orgQueryPat id) B = false)
    (hothers : ∀ x ∈ mapKeys st.orgMap, x ≠ id → x ≠ TEST_ORG_ID →
      hasOcc (orgPathPat x) (urlPathQuery id id A M B) = false ∧
      hasOcc (orgQueryPat x) (urlPathQuery id id A M B) = false ∧
      hasOcc (orgPathPat x)
        (urlPathQuery TEST_ORG_ID TEST_ORG_ID A M B) = false ∧
      hasOcc (orgQueryPat x)
        (urlPathQuery TEST_ORG_ID TEST_ORG_ID A M B) = false) :
    (sanitize_value st k (.int m)).1 = .int TEST_ORG_ID ∧
    sanitizeUrl st (urlPathQuery id id A M B)
      = urlPathQuery TEST_ORG_ID TEST_ORG_ID A M B := by
  constructor
  · exact sanitize_value_org_replaced st k m horg hk hm
  · -- the id step rewrites both patterns
    have hstep : replaceOrgInUrl (urlPathQuery id id A M B) id
        = urlPathQuery TEST_ORG_ID TEST_ORG_ID A M B := by
      unfold replaceOrgInUrl urlPathQuery
      rw [strReplace_clean_of_ne _ _ _ _ (orgPathPat_ne_nil id)
        hpathClean hpathOnce]
      have hassoc :
          A ++ orgPathPat TEST_ORG_ID ++ (M ++ (orgQueryPat id ++ B))
            = (A ++ orgPathPat TEST_ORG_ID ++ M) ++ (orgQueryPat id ++ B) := by
        simp [List.append_assoc]
      rw [hassoc]
      rw [strReplace_clean_of_ne _ _ _ _ (orgQueryPat_ne_nil id)
        hqClean hqOnce]
      simp [List.append_assoc]
    -- decompose the key list around id
    rcases List.append_of_mem hid with ⟨L1, L2, hsplit⟩
    have hnd := hnodup
    rw [hsplit] at hnd
    have hid1 : id ∉ L1 := by
      intro hmem
      rcases List.nodup_append.mp hnd with ⟨_, _, hdisj⟩
      exact hdisj hmem (by simp)
    have hid2 : id ∉ L2 := by
      rcases List.nodup_append.mp hnd with ⟨_, hnd2, _⟩
      exact (List.nodup_cons.mp hnd2).1
    unfold sanitizeUrl
    rw [hsplit, List.foldl_append]
    have hfix1 : L1.foldl replaceOrgInUrl (urlPathQuery id id A M B)
        = urlPathQuery id id A M B := by
      apply foldl_replace_fix
      intro x hx
      by_cases hxt : x = TEST_ORG_ID
      · subst hxt; exact replaceOrgInUrl_test _
      · have hxid : x ≠ id := fun he => hid1 (he ▸ hx)
        have hxmem : x ∈ mapKeys st.orgMap := by
          rw [hsplit]; exact List.mem_append_left _ hx
        rcases hothers x hxmem hxid hxt with ⟨h1, h2, _, _⟩
        exact replaceOrgInUrl_no_occ _ x h1 h2
    rw [hfix1, List.foldl_cons, hstep]
    apply foldl_replace_fix
    intro x hx
    by_cases hxt : x = TEST_ORG_ID
    · subst hxt; exact replaceOrgInUrl_test _
    · have hxid : x ≠ id := fun he => hid2 (he ▸ hx)
      have hxmem : x ∈ mapKeys st.orgMap := by
        rw [hsplit]
        exact List.mem_append_right _ (List.mem_cons_of_mem _ hx)
      rcases hothers x hxmem hxid hxt with ⟨_, _, h3, h4⟩
      exact replaceOrgInUrl_no_occ _ x h3 h4

theorem claim_C1_witness :
    OrgAllSubst (⟨[(13888, 12345)], []⟩ : SanState) ∧
    (sanitize_value ⟨[(13888, 12345)], []⟩ "org_id" (.int 13888)).1
      = .int TEST_ORG_ID ∧
    sanitizeUrl ⟨[(13888, 12345)], []⟩
      (urlPathQuery 13888 13888 "https://api.example.com".data
        "/members?x=1&".data "&y=2".data)
      = urlPathQuery TEST_ORG_ID TEST_ORG_ID "https://api.example.com".data
        "/members?x=1&".data "&y=2".data := by
  have h := claim_C1_amended_consistency ⟨[(13888, 12345)], []⟩ 13888 13888
    "org_id" "https://api.example.com".data "/members?x=1&".data "&y=2".data
    (of_decide_eq_true rfl) (of_decide_eq_true rfl) (of_decide_eq_true rfl) (of_decide_eq_true rfl) (of_decide_eq_true rfl) (of_decide_eq_true rfl) (of_decide_eq_true rfl) (of_decide_eq_true rfl) (of_decide_eq_true rfl) (of_decide_eq_true rfl)
  exact ⟨by decide, h.1, h.2⟩

/-! ## Printer/parser round trip: characters and digits -/

theorem char_toNat_ofNat {n : Nat} (h : n < 0xD800) :
    (Char.ofNat n).toNat = n := by
  unfold Char.ofNat Char.toNat
  rw [dif_pos (Or.inl h : n.isValidChar)]
  rfl

theorem char_toNat_inj {c d : Char} (h : c.toNat = d.toNat) : c = d := by
  apply Char.ext
  exact UInt32.toNat.inj h

theorem char_ofNat_toNat {c : Char} (h : c.toNat < 0xD800) :
    Char.ofNat c.toNat = c :=
  char_toNat_inj (char_toNat_ofNat h)

theorem digitChar_toNat {k : Nat} (h : k < 10) :
    (digitChar k).toNat = 48 + k := char_toNat_ofNat (by omega)

theorem digitChar_isDigit {k : Nat} (h : k < 10) :
    isDigitChar (digitChar k) = true := by
  simp only [isDigitChar, digitChar_toNat h]
  simp
  omega

theorem digitChar_ne_zero {k : Nat} (h1 : 1 ≤ k) (h2 : k < 10) :
    digitChar k ≠ '0' := by
  intro he
  have h3 := digitChar_toNat h2
  rw [he] at h3
  have : ('0' : Char).toNat = 48 := by decide
  omega

theorem natToChars_digits : ∀ n, ∀ c ∈ natToChars n, isDigitChar c = true := by
  intro n
  induction n using Nat.strong_induction_on with
  | _ n ih =>
    rw [natToChars_unfold]
    split
    · intro c hc
      simp at hc
      subst hc
      exact digitChar_isDigit (by omega)
    · intro c hc
      rcases List.mem_append.mp hc with hc | hc
      · exact ih (n / 10) (by omega) c hc
      · simp at hc
        subst hc
        exact digitChar_isDigit (Nat.mod_lt _ (by omega))

theorem natToChars_ne_nil (n : Nat) : natToChars n ≠ [] := by
  rw [natToChars_unfold]
  split <;> simp

theorem natToChars_head_ne_zero :
    ∀ n, 1 ≤ n → ∀ c cs, natToChars n = c :: cs → c ≠ '0' := by
  intro n
  induction n using Nat.strong_induction_on with
  | _ n ih =>
    intro h1 c cs he
    rw [natToChars_unfold] at he
    split at he
    · injection he with h2 _
      subst h2
      exact digitChar_ne_zero h1 (by omega)
    · rcases hd : natToChars (n / 10) with _ | ⟨c', cs'⟩
      · exact absurd hd (natToChars_ne_nil _)
      · rw [hd] at he
        simp only [List.cons_append] at he
        injection he with h2 _
        subst h2
        exact ih (n / 10) (by omega) (by omega) c' cs' hd

theorem digitsVal_append_singleton (xs : List Char) (c : Char) :
    digitsVal (xs ++ [c]) = 10 * digitsVal xs + (c.toNat - 48) := by
  unfold digitsVal
  rw [List.foldl_append]
  rfl

theorem digitsVal_natToChars : ∀ n, digitsVal (natToChars n) = n := by
  intro n
  induction n using Nat.strong_induction_on with
  | _ n ih =>
    rw [natToChars_unfold]
    split
    · unfold digitsVal
      simp only [List.foldl_cons, List.foldl_nil]
      rw [digitChar_toNat (by omega)]
      omega
    · rw [digitsVal_append_singleton, ih (n / 10) (by omega),
        digitChar_toNat (Nat.mod_lt _ (by omega))]
      omega

/-- The input does not start with a digit. -/
def noDigitStart (cs : List Char) : Bool :=
  match cs with
  | [] => true
  | c :: _ => !(isDigitChar c)

theorem takeDigits_append (d x : List Char)
    (hd : ∀ c ∈ d, isDigitChar c = true) (hx : noDigitStart x = true) :
    takeDigits (d ++ x) = (d, x) := by
  induction d with
  | nil =>
    cases x with
    | nil => rfl
    | cons c t =>
      simp only [noDigitStart, Bool.not_eq_true'] at hx
      simp only [List.nil_append, takeDigits]
      rw [if_neg (by simp [hx])]
  | cons c t ih =>
    simp only [List.cons_append, takeDigits]
    rw [if_pos (by simp [hd c (by simp)])]
    simp only [List.append_eq]
    rw [ih (fun x hx' => hd x (by simp [hx']))]

/-- A character that may legally follow a printed value inside a
compact document: end of input, `,`, `}` or `]`. -/
def delimOk (cs : List Char) : Bool :=
  match cs with
  | [] => true
  | c :: _ => c = ',' || c = '}' || c = ']'

theorem delimOk_noDigitStart {cs : List Char} (h : delimOk cs = true) :
    noDigitStart cs = true := by
  cases cs with
  | nil => rfl
  | cons c t =>
    simp only [delimOk, Bool.or_eq_true, decide_eq_true_eq] at h
    rcases h with (h | h) | h <;> subst h <;> rfl

theorem scanIntPartNoSign_nat (n : Nat) (rest : List Char)
    (hr : noDigitStart rest = true) :
    scanIntPartNoSign (natToChars n ++ rest) = some (natToChars n, rest) := by
  by_cases h0 : n = 0
  · subst h0
    have h00 : natToChars 0 = ['0'] := by decide
    rw [h00]
    simp only [List.cons_append, List.nil_append, scanIntPartNoSign]
    rw [if_pos trivial]
  · rcases hd : natToChars n with _ | ⟨c, cs⟩
    · exact absurd hd (natToChars_ne_nil n)
    · have hc0 : c ≠ '0' := natToChars_head_ne_zero n (by omega) c cs hd
      have hcd : isDigitChar c = true :=
        natToChars_digits n c (by rw [hd]; simp)
      simp only [List.cons_append, scanIntPartNoSign]
      rw [if_neg hc0, if_pos (by simp [hcd])]
      rw [takeDigits_append cs rest
        (fun x hx => natToChars_digits n x (by rw [hd]; simp [hx])) hr]

theorem isDigit_ne_minus {c : Char} (h : isDigitChar c = true) : c ≠ '-' := by
  intro he
  subst he
  simp [isDigitChar] at h

theorem scanIntPart_intChars (i : Int) (rest : List Char)
    (hr : noDigitStart rest = true) :
    scanIntPart (intChars i ++ rest) = some (intChars i, rest) := by
  cases i with
  | ofNat n =>
    show scanIntPart (natToChars n ++ rest) = some (natToChars n, rest)
    rcases hd : natToChars n with _ | ⟨c, cs⟩
    · exact absurd hd (natToChars_ne_nil n)
    · have hcd : isDigitChar c = true :=
        natToChars_digits n c (by rw [hd]; simp)
      simp only [List.cons_append, scanIntPart]
      rw [if_neg (isDigit_ne_minus hcd), ← List.cons_append, ← hd]
      exact scanIntPartNoSign_nat n rest hr
  | negSucc m =>
    show scanIntPart ('-' :: natToChars (m + 1) ++ rest) = _
    simp only [List.cons_append, scanIntPart]
    rw [if_pos trivial, scanIntPartNoSign_nat (m + 1) rest hr]
    rfl

theorem intPartVal_intChars (i : Int) : intPartVal (intChars i) = i := by
  cases i with
  | ofNat n =>
    show intPartVal (natToChars n) = n
    rcases hd : natToChars n with _ | ⟨c, cs⟩
    · exact absurd hd (natToChars_ne_nil n)
    · have hcd : isDigitChar c = true :=
        natToChars_digits n c (by rw [hd]; simp)
      simp only [intPartVal]
      rw [if_neg (isDigit_ne_minus hcd), ← hd, digitsVal_natToChars]
  | negSucc m =>
    show intPartVal ('-' :: natToChars (m + 1)) = _
    simp only [intPartVal]
    rw [if_pos trivial, digitsVal_natToChars, Int.negSucc_eq]
    push_cast
    ring

theorem scanFrac_delim {cs : List Char} (h : delimOk cs = true) :
    scanFrac cs = ([], cs) := by
  cases cs with
  | nil => rfl
  | cons c t =>
    simp only [delimOk, Bool.or_eq_true, decide_eq_true_eq] at h
    have hc : c ≠ '.' := by rcases h with (h | h) | h <;> subst h <;> decide
    simp only [scanFrac]
    rw [if_neg hc]

theorem scanExp_delim {cs : List Char} (h : delimOk cs = true) :
    scanExp cs = ([], cs) := by
  cases cs with
  | nil => rfl
  | cons c t =>
    simp only [delimOk, Bool.or_eq_true, decide_eq_true_eq] at h
    have hc : ¬(c = 'e' || c = 'E') = true := by
      rcases h with (h | h) | h <;> subst h <;> decide
    simp only [scanExp]
    rw [if_neg hc]

/-- Parsing the decimal print of an integer before a legal delimiter
recovers the integer exactly. -/
theorem parseNumber_intChars (i : Int) (rest : List Char)
    (hr : delimOk rest = true) :
    parseNumber (intChars i ++ rest) = some (.int i, rest) := by
  unfold parseNumber
  rw [scanIntPart_intChars i rest (delimOk_noDigitStart hr)]
  simp only [scanFrac_delim hr, scanExp_delim hr]
  rw [intPartVal_intChars]
  rfl

/-! ### Number-token stability: a scanned token re-scans to itself -/

theorem takeDigits_spec (t : List Char) :
    t = (takeDigits t).1 ++ (takeDigits t).2 ∧
    (∀ c ∈ (takeDigits t).1, isDigitChar c = true) ∧
    noDigitStart (takeDigits t).2 = true := by
  induction t with
  | nil => exact ⟨rfl, fun c hc => by simp [takeDigits] at hc, rfl⟩
  | cons c t ih =>
    by_cases hc : isDigitChar c = true
    · rw [takeDigits, if_pos hc]
      refine ⟨?_, ?_, ih.2.2⟩
      · have h3 := congrArg (c :: ·) ih.1
        simp only [List.cons_append]
        exact h3
      · intro x hx
        rcases List.mem_cons.mp hx with rfl | hx
        · exact hc
        · exact ih.2.1 x hx
    · rw [takeDigits, if_neg hc]
      exact ⟨rfl, by simp, by simp [noDigitStart, hc]⟩

theorem scanIntPartNoSign_split {cs tok r : List Char}
    (h : scanIntPartNoSign cs = some (tok, r)) :
    cs = tok ++ r ∧ tok ≠ [] ∧
    (∃ c t, tok = c :: t ∧ isDigitChar c = true) ∧
    (∀ X, noDigitStart X = true →
      scanIntPartNoSign (tok ++ X) = some (tok, X)) := by
  cases cs with
  | nil => simp [scanIntPartNoSign] at h
  | cons c t =>
    simp only [scanIntPartNoSign] at h
    by_cases hc0 : c = '0'
    · rw [if_pos hc0] at h
      injection h with h
      injection h with h1 h2
      subst h1
      subst h2
      subst hc0
      refine ⟨rfl, by simp, ⟨'0', [], rfl, by decide⟩, ?_⟩
      intro X _
      simp [scanIntPartNoSign]
    · rw [if_neg hc0] at h
      by_cases hcd : isDigitChar c = true
      · rw [if_pos (by simp [hcd])] at h
        injection h with h
        injection h with h1 h2
        have hspec := takeDigits_spec t
        refine ⟨?_, ?_, ?_, ?_⟩
        · rw [← h1, ← h2]
          simpa using congrArg (c :: ·) hspec.1
        · rw [← h1]; simp
        · exact ⟨c, (takeDigits t).1, h1.symm, hcd⟩
        · intro X hX
          rw [← h1]
          simp only [List.cons_append, scanIntPartNoSign]
          rw [if_neg hc0, if_pos (by simp [hcd])]
          rw [takeDigits_append _ _ hspec.2.1 hX]
      · rw [if_neg (by simp [hcd])] at h
        exact absurd h (by simp)

theorem scanIntPart_split {cs tok r : List Char}
    (h : scanIntPart cs = some (tok, r)) :
    cs = tok ++ r ∧
    (∃ c t, tok = c :: t ∧ (isDigitChar c = true ∨ c = '-')) ∧
    (∀ X, noDigitStart X = true →
      scanIntPart (tok ++ X) = some (tok, X)) := by
  cases cs with
  | nil => simp [scanIntPart] at h
  | cons c t =>
    simp only [scanIntPart] at h
    by_cases hcm : c = '-'
    · rw [if_pos hcm] at h
      rcases hs : scanIntPartNoSign t with _ | ⟨tok', r'⟩ <;> rw [hs] at h
      · exact absurd h (by simp)
      · injection h with h
        injection h with h1 h2
        rcases scanIntPartNoSign_split hs with ⟨hsplit, _, ⟨d, dt, hdt, hdd⟩, hre⟩
        subst hcm
        refine ⟨?_, ⟨'-', tok', h1.symm, Or.inr rfl⟩, ?_⟩
        · rw [← h1, ← h2, hsplit]
          simp
        · intro X hX
          rw [← h1]
          simp only [List.cons_append, scanIntPart]
          rw [if_pos trivial, hre X hX]
    · rw [if_neg hcm] at h
      rcases scanIntPartNoSign_split h with ⟨hsplit, hne, ⟨d, dt, hdt, hdd⟩, hre⟩
      refine ⟨hsplit, ⟨d, dt, hdt, Or.inl hdd⟩, ?_⟩
      intro X hX
      have := hre X hX
      rw [hdt]
      rw [hdt] at this
      simp only [List.cons_append, scanIntPart]
      rw [if_neg (isDigit_ne_minus hdd)]
      simpa using this

theorem scanFrac_split {cs fr r : List Char} (h : scanFrac cs = (fr, r)) :
    cs = fr ++ r ∧
    (fr = [] ∨ ((∃ t, fr = '.' :: t) ∧
      (∀ Y, noDigitStart Y = true → scanFrac (fr ++ Y) = (fr, Y)))) := by
  cases cs with
  | nil =>
    simp only [scanFrac] at h
    injection h with h1 h2
    subst h1; subst h2
    exact ⟨rfl, Or.inl rfl⟩
  | cons c t =>
    simp only [scanFrac] at h
    by_cases hcd : c = '.'
    · rw [if_pos hcd] at h
      have hspec := takeDigits_spec t
      rcases htd : takeDigits t with ⟨d, rest'⟩
      rw [htd] at h hspec
      cases d with
      | nil =>
        simp only at h
        injection h with h1 h2
        subst h1; subst h2
        exact ⟨by simp, Or.inl rfl⟩
      | cons d0 ds =>
        simp only at h
        injection h with h1 h2
        subst hcd
        refine ⟨?_, Or.inr ⟨⟨d0 :: ds, h1.symm⟩, ?_⟩⟩
        · rw [← h1, ← h2]
          simpa using congrArg ('.' :: ·) hspec.1
        · intro Y hY
          rw [← h1]
          simp only at hspec
          have hcons : takeDigits ((d0 :: ds) ++ Y) = (d0 :: ds, Y) :=
            takeDigits_append _ _ hspec.2.1 hY
          simp only [List.cons_append] at hcons
          simp only [List.cons_append, scanFrac]
          rw [if_pos trivial, hcons]
    · rw [if_neg hcd] at h
      injection h with h1 h2
      subst h1; subst h2
      exact ⟨rfl, Or.inl rfl⟩

theorem scanExp_split {cs ex r : List Char} (h : scanExp cs = (ex, r)) :
    cs = ex ++ r ∧
    (ex = [] ∨ ((∃ e t, ex = e :: t ∧ (e = 'e' ∨ e = 'E')) ∧
      (∀ Y, noDigitStart Y = true → scanExp (ex ++ Y) = (ex, Y)))) := by
  cases cs with
  | nil =>
    simp only [scanExp] at h
    injection h with h1 h2
    subst h1; subst h2
    exact ⟨rfl, Or.inl rfl⟩
  | cons c t =>
    simp only [scanExp] at h
    by_cases hce : (c = 'e' || c = 'E') = true
    · rw [if_pos hce] at h
      have hce' : c = 'e' ∨ c = 'E' := by
        rcases Bool.or_eq_true _ _ |>.mp hce with h' | h' <;>
          simp only [decide_eq_true_eq] at h'
        · exact Or.inl h'
        · exact Or.inr h'
      cases t with
      | nil =>
        simp only [scanExpTail] at h
        injection h with h1 h2
        subst h1; subst h2
        exact ⟨rfl, Or.inl rfl⟩
      | cons s t1 =>
        simp only [scanExpTail] at h
        by_cases hs : (s = '+' || s = '-') = true
        · rw [if_pos hs] at h
          have hspec := takeDigits_spec t1
          rcases htd : takeDigits t1 with ⟨d, rest'⟩
          rw [htd] at h hspec
          cases d with
          | nil =>
            simp only at h
            injection h with h1 h2
            subst h1; subst h2
            exact ⟨rfl, Or.inl rfl⟩
          | cons d0 ds =>
            simp only at h
            injection h with h1 h2
            refine ⟨?_, Or.inr ⟨⟨c, s :: d0 :: ds, h1.symm, hce'⟩, ?_⟩⟩
            · rw [← h1, ← h2]
              have h3 := congrArg (fun l => c :: s :: l) hspec.1
              simpa using h3
            · intro Y hY
              rw [← h1]
              simp only at hspec
              have hcons : takeDigits ((d0 :: ds) ++ Y) = (d0 :: ds, Y) :=
                takeDigits_append _ _ hspec.2.1 hY
              simp only [List.cons_append] at hcons
              simp only [List.cons_append, scanExp]
              rw [if_pos hce]
              simp only [scanExpTail]
              rw [if_pos hs, hcons]
        · rw [if_neg hs] at h
          have hspec := takeDigits_spec (s :: t1)
          rcases htd : takeDigits (s :: t1) with ⟨d, rest'⟩
          rw [htd] at h hspec
          cases d with
          | nil =>
            simp only at h
            injection h with h1 h2
            subst h1; subst h2
            exact ⟨rfl, Or.inl rfl⟩
          | cons d0 ds =>
            simp only at h
            injection h with h1 h2
            refine ⟨?_, Or.inr ⟨⟨c, d0 :: ds, h1.symm, hce'⟩, ?_⟩⟩
            · rw [← h1, ← h2]
              simpa using congrArg (c :: ·) hspec.1
            · intro Y hY
              rw [← h1]
              simp only at hspec
              have hd0 : isDigitChar d0 = true := hspec.2.1 d0 (by simp)
              have hd0s : ¬(d0 = '+' || d0 = '-') = true := by
                intro hcon
                rcases Bool.or_eq_true _ _ |>.mp hcon with hc2 | hc2 <;>
                  simp only [decide_eq_true_eq] at hc2 <;>
                  subst hc2 <;> simp [isDigitChar] at hd0
              have hcons : takeDigits ((d0 :: ds) ++ Y) = (d0 :: ds, Y) :=
                takeDigits_append _ _ hspec.2.1 hY
              simp only [List.cons_append, scanExp]
              rw [if_pos hce]
              simp only [scanExpTail]
              rw [if_neg hd0s]
              simp only [List.cons_append] at hcons
              rw [hcons]
    · rw [if_neg hce] at h
      injection h with h1 h2
      subst h1; subst h2
      exact ⟨rfl, Or.inl rfl⟩

theorem parseNumber_eq_of_scan {cs ip r1 : List Char}
    (hip : scanIntPart cs = some (ip, r1)) :
    parseNumber cs =
      if (scanFrac r1).1 = [] && (scanExp (scanFrac r1).2).1 = [] then
        some (.int (intPartVal ip), (scanExp (scanFrac r1).2).2)
      else some (.numRaw ⟨ip ++ (scanFrac r1).1 ++ (scanExp (scanFrac r1).2).1⟩,
        (scanExp (scanFrac r1).2).2) := by
  unfold parseNumber
  rw [hip]

theorem scanFrac_not_dot {c : Char} (l : List Char) (h : c ≠ '.') :
    scanFrac (c :: l) = ([], c :: l) := by
  simp only [scanFrac]
  rw [if_neg h]

theorem scanExp_not_e {c : Char} (l : List Char)
    (h : ¬(c = 'e' || c = 'E') = true) :
    scanExp (c :: l) = ([], c :: l) := by
  simp only [scanExp]
  rw [if_neg h]

/-- A well-formed non-integer number token: it re-parses to itself in
front of any delimiter, and starts with a digit or a minus sign. -/
def NumTokGood (s : String) : Prop :=
  (∀ rest, delimOk rest = true →
    parseNumber (s.data ++ rest) = some (.numRaw s, rest)) ∧
  (∃ c t, s.data = c :: t ∧ (isDigitChar c = true ∨ c = '-'))

/-- Any `numRaw` produced by the number parser is a good token. -/
theorem parseNumber_numRaw_good {cs : List Char} {s : String}
    {r : List Char} (h : parseNumber cs = some (.numRaw s, r)) :
    NumTokGood s := by
  rcases hip : scanIntPart cs with _ | ⟨ip, r1⟩
  · unfold parseNumber at h
    rw [hip] at h
    exact absurd h (by simp)
  · rw [parseNumber_eq_of_scan hip] at h
    rcases hf : scanFrac r1 with ⟨fr, r2⟩
    rcases he : scanExp r2 with ⟨ex, r3⟩
    rw [hf] at h
    simp only at h
    rw [he] at h
    simp only at h
    by_cases hfe : (fr = List.nil ∧ ex = List.nil)
    · rw [if_pos (by simp [hfe.1, hfe.2])] at h
      exact absurd h (by simp)
    · rw [if_neg (by
        intro hc
        rcases Bool.and_eq_true _ _ |>.mp hc with ⟨hc1, hc2⟩
        simp only [decide_eq_true_eq] at hc1 hc2
        exact hfe ⟨hc1, hc2⟩)] at h
      injection h with h'
      injection h' with hv hr3
      injection hv with hs
      subst hs
      rcases scanIntPart_split hip with ⟨hcs, ⟨c0, t0, hip0, hhead⟩, hipre⟩
      rcases scanFrac_split hf with ⟨hr1, hfr⟩
      rcases scanExp_split he with ⟨hr2, hex⟩
      constructor
      · intro rest hrest
        show parseNumber ((ip ++ fr ++ ex) ++ rest) = _
        -- the character after the integer part is not a digit
        have hX : noDigitStart (fr ++ (ex ++ rest)) = true := by
          rcases hfr with hfr0 | ⟨⟨tf, hfdot⟩, _⟩
          · subst hfr0
            rcases hex with hex0 | ⟨⟨e, te, hee, hEe⟩, _⟩
            · subst hex0
              exact delimOk_noDigitStart hrest
            · rw [hee]
              rcases hEe with rfl | rfl <;> rfl
          · rw [hfdot]
            rfl
        have hscan1 : scanIntPart ((ip ++ fr ++ ex) ++ rest)
            = some (ip, fr ++ (ex ++ rest)) := by
          have hassoc : (ip ++ fr ++ ex) ++ rest = ip ++ (fr ++ (ex ++ rest)) := by
            simp [List.append_assoc]
          rw [hassoc]
          exact hipre _ hX
        rw [parseNumber_eq_of_scan hscan1]
        have hscan2 : scanFrac (fr ++ (ex ++ rest)) = (fr, ex ++ rest) := by
          rcases hfr with hfr0 | ⟨⟨tf, hfdot⟩, hfre⟩
          · subst hfr0
            simp only [List.nil_append]
            rcases hex with hex0 | ⟨⟨e, te, hee, hEe⟩, _⟩
            · subst hex0
              simp only [List.nil_append]
              cases rest with
              | nil => rfl
              | cons rc rt =>
                refine scanFrac_not_dot rt ?_
                simp only [delimOk, Bool.or_eq_true, decide_eq_true_eq] at hrest
                rcases hrest with (h' | h') | h' <;> subst h' <;> decide
            · rw [hee]
              refine scanFrac_not_dot _ ?_
              rcases hEe with rfl | rfl <;> decide
          · refine hfre _ ?_
            rcases hex with hex0 | ⟨⟨e, te, hee, hEe⟩, _⟩
            · subst hex0
              exact delimOk_noDigitStart hrest
            · rw [hee]
              rcases hEe with rfl | rfl <;> rfl
        rw [hscan2]
        simp only
        have hscan3 : scanExp (ex ++ rest) = (ex, rest) := by
          rcases hex with hex0 | ⟨⟨e, te, hee, hEe⟩, hexe⟩
          · subst hex0
            exact scanExp_delim hrest
          · exact hexe _ (delimOk_noDigitStart hrest)
        rw [hscan3]
        simp only
        rw [if_neg (by
          intro hc
          rcases Bool.and_eq_true _ _ |>.mp hc with ⟨hc1, hc2⟩
          simp only [decide_eq_true_eq] at hc1 hc2
          exact hfe ⟨hc1, hc2⟩)]
      · refine ⟨c0, t0 ++ fr ++ ex, ?_, hhead⟩
        show ip ++ fr ++ ex = _
        rw [hip0]
        simp

theorem hexVal_hexChar {k : Nat} (h : k < 16) :
    hexVal (hexChar k) = some k := by
  interval_cases k <;> decide

/-- The string printer and the string-body parser are inverse (with any
sufficient fuel). -/
theorem parseStrBody_escChars (cs rest : List Char) :
    ∀ fuel, cs.length + 1 ≤ fuel →
      parseStrBody fuel (escChars cs ++ '"' :: rest) = some (cs, rest) := by
  induction cs with
  | nil =>
    intro fuel hf
    rcases fuel with _ | f
    · omega
    show parseStrBody (f + 1) ('"' :: rest) = some ([], rest)
    rw [parseStrBody.eq_def]
    rfl
  | cons c t ih =>
    intro fuel hf
    rcases fuel with _ | f
    · omega
    have hft : t.length + 1 ≤ f := by
      simp only [List.length_cons] at hf
      omega
    have ih' := ih f hft
    have hstep : escChars (c :: t) ++ '"' :: rest
        = escChar c ++ (escChars t ++ '"' :: rest) := by
      simp [escChars]
    rw [hstep]
    by_cases h1 : c = '"'
    · subst h1
      show parseStrBody (f + 1) ('\\' :: '"' :: (escChars t ++ '"' :: rest)) = _
      rw [parseStrBody.eq_def]
      change consFst '"' (parseStrBody f (escChars t ++ '"' :: rest)) = _
      rw [ih']
      rfl
    by_cases h2 : c = '\\'
    · subst h2
      show parseStrBody (f + 1) ('\\' :: '\\' :: (escChars t ++ '"' :: rest)) = _
      rw [parseStrBody.eq_def]
      change consFst '\\' (parseStrBody f (escChars t ++ '"' :: rest)) = _
      rw [ih']
      rfl
    by_cases h3 : c = '\n'
    · subst h3
      show parseStrBody (f + 1) ('\\' :: 'n' :: (escChars t ++ '"' :: rest)) = _
      rw [parseStrBody.eq_def]
      change consFst '\n' (parseStrBody f (escChars t ++ '"' :: rest)) = _
      rw [ih']
      rfl
    by_cases h4 : c = '\t'
    · subst h4
      show parseStrBody (f + 1) ('\\' :: 't' :: (escChars t ++ '"' :: rest)) = _
      rw [parseStrBody.eq_def]
      change consFst '\t' (parseStrBody f (escChars t ++ '"' :: rest)) = _
      rw [ih']
      rfl
    by_cases h5 : c = '\r'
    · subst h5
      show parseStrBody (f + 1) ('\\' :: 'r' :: (escChars t ++ '"' :: rest)) = _
      rw [parseStrBody.eq_def]
      change consFst '\r' (parseStrBody f (escChars t ++ '"' :: rest)) = _
      rw [ih']
      rfl
    by_cases h6 : c.toNat = 8
    · have hc : c = Char.ofNat 8 := by
        refine (char_ofNat_toNat (by omega)).symm.trans ?_
        rw [h6]
      subst hc
      show parseStrBody (f + 1) ('\\' :: 'b' :: (escChars t ++ '"' :: rest)) = _
      rw [parseStrBody.eq_def]
      change consFst (Char.ofNat 8) (parseStrBody f (escChars t ++ '"' :: rest)) = _
      rw [ih']
      rfl
    by_cases h7 : c.toNat = 12
    · have hc : c = Char.ofNat 12 := by
        refine (char_ofNat_toNat (by omega)).symm.trans ?_
        rw [h7]
      subst hc
      show parseStrBody (f + 1) ('\\' :: 'f' :: (escChars t ++ '"' :: rest)) = _
      rw [parseStrBody.eq_def]
      change consFst (Char.ofNat 12) (parseStrBody f (escChars t ++ '"' :: rest)) = _
      rw [ih']
      rfl
    by_cases h8 : c.toNat < 32
    · have hesc : escChar c
          = ['\\', 'u', '0', '0', hexChar (c.toNat / 16), hexChar (c.toNat % 16)] := by
        rw [escChar, if_neg h1, if_neg h2, if_neg h3, if_neg h4, if_neg h5,
          if_neg h6, if_neg h7, if_pos h8]
      rw [hesc]
      have ha : c.toNat / 16 < 16 := by omega
      have hb : c.toNat % 16 < 16 := by omega
      have hh4 : hex4 '0' '0' (hexChar (c.toNat / 16)) (hexChar (c.toNat % 16))
          = some c.toNat := by
        simp only [hex4, hexVal_hexChar ha, hexVal_hexChar hb,
          show hexVal '0' = some 0 from rfl]
        refine congrArg some ?_
        omega
      have hs1 : ¬ (0xD800 ≤ c.toNat && c.toNat ≤ 0xDBFF) = true := by
        simp only [Bool.and_eq_true, decide_eq_true_eq, not_and]
        omega
      have hs2 : ¬ (0xDC00 ≤ c.toNat && c.toNat ≤ 0xDFFF) = true := by
        simp only [Bool.and_eq_true, decide_eq_true_eq, not_and]
        omega
      have hcn : Char.ofNat c.toNat = c := char_ofNat_toNat (by omega)
      show parseStrBody (f + 1) ('\\' :: 'u' :: '0' :: '0'
        :: hexChar (c.toNat / 16) :: hexChar (c.toNat % 16)
        :: (escChars t ++ '"' :: rest)) = _
      rw [parseStrBody.eq_def]
      change (hex4 '0' '0' (hexChar (c.toNat / 16)) (hexChar (c.toNat % 16))).bind _ = _
      rw [hh4]
      change (if 0xD800 ≤ c.toNat && c.toNat ≤ 0xDBFF then _ else _) = _
      rw [if_neg hs1, if_neg hs2, hcn, ih']
      rfl
    · have hesc : escChar c = [c] := by
        rw [escChar, if_neg h1, if_neg h2, if_neg h3, if_neg h4, if_neg h5,
          if_neg h6, if_neg h7, if_neg h8]
      rw [hesc]
      show parseStrBody (f + 1) (c :: (escChars t ++ '"' :: rest)) = _
      rw [parseStrBody.eq_def]
      change (if c = '"' then _ else _) = _
      rw [if_neg h1, if_neg h2, if_neg h8, ih']
      rfl

/-! ### Well-formed values and parse sizes

`wfV` singles out the values whose compact print re-parses exactly: the
only constraint is on raw number tokens, which must re-scan to
themselves (all values produced by the parser satisfy it).  `sizeV`
bounds the parser fuel a value needs. -/

/-- A raw number token that the number scanner reproduces exactly. -/
def numTokOk (s : String) : Bool :=
  match parseNumber s.data with
  | some (v, r) => decide (v = JValue.numRaw s) && r.isEmpty
  | _ => false

theorem numTokOk_good {s : String} (h : numTokOk s = true) : NumTokGood s := by
  unfold numTokOk at h
  split at h
  · rename_i v r heq
    simp only [Bool.and_eq_true, decide_eq_true_eq, List.isEmpty_iff] at h
    obtain ⟨hv, hr⟩ := h
    subst hv
    subst hr
    exact parseNumber_numRaw_good heq
  · exact absurd h (by simp)

mutual
/-- Well-formedness of a value for printing/parsing round trips. -/
def wfV : JValue → Bool
  | .null => true
  | .bool _ => true
  | .int _ => true
  | .numRaw s => numTokOk s
  | .str _ => true
  | .arr a => wfA a
  | .obj o => wfO o

def wfA : JArr → Bool
  | .nil => true
  | .cons v t => wfV v && wfA t

def wfO : JObj → Bool
  | .nil => true
  | .cons _ v t => wfV v && wfO t
end

mutual
/-- Fuel needed to parse the compact print of a value. -/
def sizeV : JValue → Nat
  | .null => 1
  | .bool _ => 1
  | .int _ => 1
  | .numRaw _ => 1
  | .str s => s.data.length + 2
  | .arr a => sizeA a + 1
  | .obj o => sizeO o + 1

def sizeA : JArr → Nat
  | .nil => 1
  | .cons v t => 1 + max (sizeV v) (sizeA t)

def sizeO : JObj → Nat
  | .nil => 1
  | .cons k v t => 1 + max (k.data.length + 1) (max (sizeV v) (sizeO t))
end

theorem sizeV_pos (v : JValue) : 1 ≤ sizeV v := by
  cases v <;> simp [sizeV]

theorem sizeA_pos (a : JArr) : 1 ≤ sizeA a := by
  cases a <;> simp [sizeA]

theorem sizeO_pos (o : JObj) : 1 ≤ sizeO o := by
  cases o <;> simp [sizeO]

theorem intChars_head (i : Int) :
    ∃ c cs, intChars i = c :: cs ∧ (isDigitChar c = true ∨ c = '-') := by
  cases i with
  | ofNat n =>
    rcases hd : natToChars n with _ | ⟨c, cs⟩
    · exact absurd hd (natToChars_ne_nil n)
    · exact ⟨c, cs, hd, Or.inl (natToChars_digits n c (by rw [hd]; simp))⟩
  | negSucc m => exact ⟨'-', natToChars (m + 1), rfl, Or.inr rfl⟩

/-- A digit or minus head character is not whitespace, not a closing
bracket, and not one of the parser's dispatch characters. -/
theorem number_head_facts {c : Char} (h : isDigitChar c = true ∨ c = '-') :
    isWsChar c = false ∧ c ≠ ']' ∧ c ≠ '}' ∧ c ≠ '{' ∧ c ≠ '[' ∧ c ≠ '"' ∧
      c ≠ 't' ∧ c ≠ 'f' ∧ c ≠ 'n' := by
  rcases h with h | h
  · have hn : 48 ≤ c.toNat ∧ c.toNat ≤ 57 := by
      simpa [isDigitChar] using h
    constructor
    · by_contra hwne
      have hw : isWsChar c = true := by
        simpa using hwne
      have hcases : c = ' ' ∨ c = '\t' ∨ c = '\n' ∨ c = '\r' := by
        simpa [isWsChar, or_assoc] using hw
      rcases hcases with h' | h' | h' | h' <;> subst h' <;>
        exact absurd hn (by decide)
    · refine ⟨?_, ?_, ?_, ?_, ?_, ?_, ?_, ?_⟩ <;>
        (intro he; subst he; exact absurd hn (by decide))
  · subst h
    decide

/-- Every well-formed value prints to a non-empty list whose head is
not whitespace and not a closing bracket. -/
theorem dumpV_head (v : JValue) (hw : wfV v = true) :
    ∃ c cs, dumpV v = c :: cs ∧ isWsChar c = false ∧ c ≠ ']' ∧ c ≠ '}' := by
  cases v with
  | null => exact ⟨'n', ['u', 'l', 'l'], by simp [dumpV], rfl, by decide, by decide⟩
  | bool b =>
    cases b
    · exact ⟨'f', ['a', 'l', 's', 'e'], by simp [dumpV], rfl, by decide, by decide⟩
    · exact ⟨'t', ['r', 'u', 'e'], by simp [dumpV], rfl, by decide, by decide⟩
  | int i =>
    obtain ⟨c, cs, hd, hor⟩ := intChars_head i
    obtain ⟨hws, h1, h2, _⟩ := number_head_facts hor
    exact ⟨c, cs, by simp [dumpV, hd], hws, h1, h2⟩
  | numRaw s =>
    have hg := numTokOk_good (by simpa [wfV] using hw)
    obtain ⟨c, t, hd, hor⟩ := hg.2
    obtain ⟨hws, h1, h2, _⟩ := number_head_facts hor
    exact ⟨c, t, by simp [dumpV, hd], hws, h1, h2⟩
  | str s =>
    exact ⟨'"', escChars s.data ++ ['"'], by simp [dumpV, dumpStr], rfl,
      by decide, by decide⟩
  | arr a => exact ⟨'[', dumpArr a ++ [']'], by simp [dumpV], rfl, by decide, by decide⟩
  | obj o => exact ⟨'{', dumpObj o ++ ['}'], by simp [dumpV], rfl, by decide, by decide⟩

theorem skipWs_cons_not_ws {c : Char} (t : List Char) (h : isWsChar c = false) :
    skipWs (c :: t) = c :: t := by
  simp [skipWs, List.dropWhile, h]

theorem skipWs_dumpV {v : JValue} (hw : wfV v = true) (x : List Char) :
    skipWs (dumpV v ++ x) = dumpV v ++ x := by
  obtain ⟨c, cs, hd, hws, _⟩ := dumpV_head v hw
  rw [hd, List.cons_append, skipWs_cons_not_ws _ hws]

theorem delimOk_dumpArrTail (t : JArr) (rest : List Char) :
    delimOk (dumpArrTail t ++ ']' :: rest) = true := by
  cases t <;> simp [dumpArrTail, delimOk]

theorem delimOk_dumpObjTail (t : JObj) (rest : List Char) :
    delimOk (dumpObjTail t ++ '}' :: rest) = true := by
  cases t <;> simp [dumpObjTail, delimOk]

/-- On a number head the value parser falls through to the number
scanner. -/
theorem parseValue_number {f : Nat} {c : Char} {t : List Char}
    (h : isDigitChar c = true ∨ c = '-') :
    parseValue (f + 1) (c :: t) = parseNumber (c :: t) := by
  obtain ⟨-, -, -, h4, h5, h6, h7, h8, h9⟩ := number_head_facts h
  rw [parseValue.eq_def]
  change (if c = '{' then _ else _) = _
  rw [if_neg h4, if_neg h5, if_neg h6, if_neg h7, if_neg h8, if_neg h9]

theorem parseArrBody_cons_ne {f : Nat} {c : Char} {t : List Char} (h : c ≠ ']') :
    parseArrBody (f + 1) (c :: t)
      = match parseValue f (c :: t) with
        | none => none
        | some (v, r1) =>
          match parseArrTail f (skipWs r1) with
          | none => none
          | some (a, r2) => some (.cons v a, r2) := by
  rw [parseArrBody.eq_def]
  change (match c :: t with
    | ']' :: t2 => some (JArr.nil, t2)
    | _ => match parseValue f (c :: t) with
      | none => none
      | some (v, r1) =>
        match parseArrTail f (skipWs r1) with
        | none => none
        | some (a, r2) => some (.cons v a, r2)) = _
  split
  · rename_i heq
    injection heq with h1 h2
    exact absurd h1 h
  · rfl

theorem skipWs_dumpArrTail (t : JArr) (rest : List Char) :
    skipWs (dumpArrTail t ++ ']' :: rest) = dumpArrTail t ++ ']' :: rest := by
  cases t with
  | nil => exact skipWs_cons_not_ws rest (by decide)
  | cons v' t' => exact skipWs_cons_not_ws _ (by decide)

theorem skipWs_dumpObjTail (t : JObj) (rest : List Char) :
    skipWs (dumpObjTail t ++ '}' :: rest) = dumpObjTail t ++ '}' :: rest := by
  cases t with
  | nil => exact skipWs_cons_not_ws rest (by decide)
  | cons k v' t' => exact skipWs_cons_not_ws _ (by decide)

/-- The compact printer and the parser are mutually inverse on
well-formed values, given sufficient fuel and a legal following
delimiter. -/
theorem parse_dump (fuel : Nat) :
    (∀ v rest, wfV v = true → sizeV v ≤ fuel → delimOk rest = true →
      parseValue fuel (dumpV v ++ rest) = some (v, rest)) ∧
    (∀ a rest, wfA a = true → sizeA a ≤ fuel → delimOk rest = true →
      parseArrBody fuel (dumpArr a ++ ']' :: rest) = some (a, rest)) ∧
    (∀ a rest, wfA a = true → sizeA a ≤ fuel → delimOk rest = true →
      parseArrTail fuel (dumpArrTail a ++ ']' :: rest) = some (a, rest)) ∧
    (∀ o rest, wfO o = true → sizeO o ≤ fuel → delimOk rest = true →
      parseObjBody fuel (dumpObj o ++ '}' :: rest) = some (o, rest)) ∧
    (∀ o rest, wfO o = true → sizeO o ≤ fuel → delimOk rest = true →
      parseObjTail fuel (dumpObjTail o ++ '}' :: rest) = some (o, rest)) := by
  induction fuel with
  | zero =>
    refine ⟨fun v _ _ hs _ => absurd hs ?_, fun a _ _ hs _ => absurd hs ?_,
      fun a _ _ hs _ => absurd hs ?_, fun o _ _ hs _ => absurd hs ?_,
      fun o _ _ hs _ => absurd hs ?_⟩
    · have := sizeV_pos v
      omega
    · have := sizeA_pos a
      omega
    · have := sizeA_pos a
      omega
    · have := sizeO_pos o
      omega
    · have := sizeO_pos o
      omega
  | succ f ih =>
    obtain ⟨ihV, ihAB, ihAT, ihOB, ihOT⟩ := ih
    refine ⟨?_, ?_, ?_, ?_, ?_⟩
    · intro v rest hw hs hd
      cases v with
      | null =>
        have hdump : dumpV .null ++ rest = 'n' :: 'u' :: 'l' :: 'l' :: rest := by
          simp [dumpV]
        rw [hdump, parseValue.eq_def]
        rfl
      | bool b =>
        cases b
        · have hdump : dumpV (.bool false) ++ rest
              = 'f' :: 'a' :: 'l' :: 's' :: 'e' :: rest := by
            simp [dumpV]
          rw [hdump, parseValue.eq_def]
          rfl
        · have hdump : dumpV (.bool true) ++ rest
              = 't' :: 'r' :: 'u' :: 'e' :: rest := by
            simp [dumpV]
          rw [hdump, parseValue.eq_def]
          rfl
      | int i =>
        have hdump : dumpV (.int i) ++ rest = intChars i ++ rest := by
          simp [dumpV]
        rw [hdump]
        obtain ⟨c, cs, hic, hor⟩ := intChars_head i
        rw [hic, List.cons_append, parseValue_number hor, ← List.cons_append,
          ← hic]
        exact parseNumber_intChars i rest hd
      | numRaw s =>
        have hg := numTokOk_good (by simpa [wfV] using hw)
        have hdump : dumpV (.numRaw s) ++ rest = s.data ++ rest := by
          simp [dumpV]
        rw [hdump]
        obtain ⟨c, cs, hsc, hor⟩ := hg.2
        rw [hsc, List.cons_append, parseValue_number hor, ← List.cons_append,
          ← hsc]
        exact hg.1 rest hd
      | str s =>
        have hf : s.data.length + 1 ≤ f := by
          simp only [sizeV] at hs
          omega
        have hdump : dumpV (.str s) ++ rest
            = '"' :: (escChars s.data ++ '"' :: rest) := by
          simp [dumpV, dumpStr]
        rw [hdump, parseValue.eq_def]
        change Option.map _ (parseStrBody f (escChars s.data ++ '"' :: rest)) = _
        rw [parseStrBody_escChars s.data rest f hf]
        rfl
      | arr a =>
        have hw' : wfA a = true := by simpa [wfV] using hw
        have hsz : sizeA a ≤ f := by
          simp only [sizeV] at hs
          omega
        have hdump : dumpV (.arr a) ++ rest = '[' :: (dumpArr a ++ ']' :: rest) := by
          simp [dumpV]
        rw [hdump, parseValue.eq_def]
        change Option.map _ (parseArrBody f (skipWs (dumpArr a ++ ']' :: rest))) = _
        have hsk : skipWs (dumpArr a ++ ']' :: rest) = dumpArr a ++ ']' :: rest := by
          cases a with
          | nil => exact skipWs_cons_not_ws rest (by decide)
          | cons v' t' =>
            have hwv : wfV v' = true := by
              simp only [wfA, Bool.and_eq_true] at hw'
              exact hw'.1
            have : dumpArr (.cons v' t') ++ ']' :: rest
                = dumpV v' ++ (dumpArrTail t' ++ ']' :: rest) := by
              simp [dumpArr, List.append_assoc]
            rw [this, skipWs_dumpV hwv]
        rw [hsk, ihAB a rest hw' hsz hd]
        rfl
      | obj o =>
        have hw' : wfO o = true := by simpa [wfV] using hw
        have hsz : sizeO o ≤ f := by
          simp only [sizeV] at hs
          omega
        have hdump : dumpV (.obj o) ++ rest = '{' :: (dumpObj o ++ '}' :: rest) := by
          simp [dumpV]
        rw [hdump, parseValue.eq_def]
        change Option.map _ (parseObjBody f (skipWs (dumpObj o ++ '}' :: rest))) = _
        have hsk : skipWs (dumpObj o ++ '}' :: rest) = dumpObj o ++ '}' :: rest := by
          cases o with
          | nil => exact skipWs_cons_not_ws rest (by decide)
          | cons k v' t' =>
            have : dumpObj (.cons k v' t') ++ '}' :: rest
                = '"' :: (escChars k.data ++ ['"']
                    ++ (':' :: dumpV v' ++ dumpObjTail t' ++ '}' :: rest)) := by
              simp [dumpObj, dumpStr, List.append_assoc]
            rw [this]
            exact skipWs_cons_not_ws _ (by decide)
        rw [hsk, ihOB o rest hw' hsz hd]
        rfl
    · intro a rest hw hs hd
      cases a with
      | nil =>
        have hdump : dumpArr .nil ++ ']' :: rest = ']' :: rest := by
          simp [dumpArr]
        rw [hdump, parseArrBody.eq_def]
        rfl
      | cons v t =>
        have hwv : wfV v = true ∧ wfA t = true := by
          simpa [wfA, Bool.and_eq_true] using hw
        have hm : max (sizeV v) (sizeA t) ≤ f := by
          simp only [sizeA] at hs
          omega
        obtain ⟨hsv, hst⟩ := Nat.max_le.mp hm
        obtain ⟨c, cs, hdv, hws, hne, -⟩ := dumpV_head v hwv.1
        have hdump : dumpArr (.cons v t) ++ ']' :: rest
            = c :: (cs ++ (dumpArrTail t ++ ']' :: rest)) := by
          simp [dumpArr, hdv, List.append_assoc]
        rw [hdump, parseArrBody_cons_ne hne, ← List.cons_append, ← hdv]
        rw [ihV v _ hwv.1 hsv (delimOk_dumpArrTail t rest)]
        change (match parseArrTail f (skipWs (dumpArrTail t ++ ']' :: rest)) with
          | none => none
          | some (a, r2) => some (JArr.cons v a, r2)) = _
        rw [skipWs_dumpArrTail, ihAT t rest hwv.2 hst hd]
    · intro a rest hw hs hd
      cases a with
      | nil =>
        have hdump : dumpArrTail .nil ++ ']' :: rest = ']' :: rest := by
          simp [dumpArrTail]
        rw [hdump, parseArrTail.eq_def]
        rfl
      | cons v t =>
        have hwv : wfV v = true ∧ wfA t = true := by
          simpa [wfA, Bool.and_eq_true] using hw
        have hm : max (sizeV v) (sizeA t) ≤ f := by
          simp only [sizeA] at hs
          omega
        obtain ⟨hsv, hst⟩ := Nat.max_le.mp hm
        have hdump : dumpArrTail (.cons v t) ++ ']' :: rest
            = ',' :: (dumpV v ++ (dumpArrTail t ++ ']' :: rest)) := by
          simp [dumpArrTail, List.append_assoc]
        rw [hdump, parseArrTail.eq_def]
        change (match parseValue f (skipWs (dumpV v ++ (dumpArrTail t ++ ']' :: rest))) with
          | none => none
          | some (v2, r1) =>
            match parseArrTail f (skipWs r1) with
            | none => none
            | some (a2, r2) => some (JArr.cons v2 a2, r2)) = _
        rw [skipWs_dumpV hwv.1, ihV v _ hwv.1 hsv (delimOk_dumpArrTail t rest)]
        change (match parseArrTail f (skipWs (dumpArrTail t ++ ']' :: rest)) with
          | none => none
          | some (a2, r2) => some (JArr.cons v a2, r2)) = _
        rw [skipWs_dumpArrTail, ihAT t rest hwv.2 hst hd]
    · intro o rest hw hs hd
      cases o with
      | nil =>
        have hdump : dumpObj .nil ++ '}' :: rest = '}' :: rest := by
          simp [dumpObj]
        rw [hdump, parseObjBody.eq_def]
        rfl
      | cons k v t =>
        have hwv : wfV v = true ∧ wfO t = true := by
          simpa [wfO, Bool.and_eq_true] using hw
        have hm1 : k.data.length + 1 ≤ f := by
          have : max (k.data.length + 1) (max (sizeV v) (sizeO t)) ≤ f := by
            simp only [sizeO] at hs
            omega
          have := Nat.max_le.mp this
          exact this.1
        have hm2 : max (sizeV v) (sizeO t) ≤ f := by
          have : max (k.data.length + 1) (max (sizeV v) (sizeO t)) ≤ f := by
            simp only [sizeO] at hs
            omega
          exact (Nat.max_le.mp this).2
        obtain ⟨hsv, hst⟩ := Nat.max_le.mp hm2
        have hdump : dumpObj (.cons k v t) ++ '}' :: rest
            = '"' :: (escChars k.data
                ++ '"' :: (':' :: (dumpV v ++ (dumpObjTail t ++ '}' :: rest)))) := by
          simp [dumpObj, dumpStr, List.append_assoc]
        rw [hdump, parseObjBody.eq_def]
        change (match parseStrBody f (escChars k.data
            ++ '"' :: (':' :: (dumpV v ++ (dumpObjTail t ++ '}' :: rest)))) with
          | none => none
          | some (k2, r1) =>
            match skipWs r1 with
            | ':' :: r2 =>
              match parseValue f (skipWs r2) with
              | none => none
              | some (v2, r3) =>
                match parseObjTail f (skipWs r3) with
                | none => none
                | some (o2, r4) => some (JObj.cons ⟨k2⟩ v2 o2, r4)
            | _ => none) = _
        rw [parseStrBody_escChars k.data _ f hm1]
        change (match skipWs (':' :: (dumpV v ++ (dumpObjTail t ++ '}' :: rest))) with
          | ':' :: r2 =>
            match parseValue f (skipWs r2) with
            | none => none
            | some (v2, r3) =>
              match parseObjTail f (skipWs r3) with
              | none => none
              | some (o2, r4) => some (JObj.cons ⟨k.data⟩ v2 o2, r4)
          | _ => none) = _
        rw [skipWs_cons_not_ws _ (by decide)]
        change (match parseValue f (skipWs (dumpV v ++ (dumpObjTail t ++ '}' :: rest))) with
          | none => none
          | some (v2, r3) =>
            match parseObjTail f (skipWs r3) with
            | none => none
            | some (o2, r4) => some (JObj.cons ⟨k.data⟩ v2 o2, r4)) = _
        rw [skipWs_dumpV hwv.1, ihV v _ hwv.1 hsv (delimOk_dumpObjTail t rest)]
        change (match parseObjTail f (skipWs (dumpObjTail t ++ '}' :: rest)) with
          | none => none
          | some (o2, r4) => some (JObj.cons ⟨k.data⟩ v o2, r4)) = _
        rw [skipWs_dumpObjTail, ihOT t rest hwv.2 hst hd]
    · intro o rest hw hs hd
      cases o with
      | nil =>
        have hdump : dumpObjTail .nil ++ '}' :: rest = '}' :: rest := by
          simp [dumpObjTail]
        rw [hdump, parseObjTail.eq_def]
        rfl
      | cons k v t =>
        have hwv : wfV v = true ∧ wfO t = true := by
          simpa [wfO, Bool.and_eq_true] using hw
        have hm1 : k.data.length + 1 ≤ f := by
          have : max (k.data.length + 1) (max (sizeV v) (sizeO t)) ≤ f := by
            simp only [sizeO] at hs
            omega
          exact (Nat.max_le.mp this).1
        have hm2 : max (sizeV v) (sizeO t) ≤ f := by
          have : max (k.data.length + 1) (max (sizeV v) (sizeO t)) ≤ f := by
            simp only [sizeO] at hs
            omega
          exact (Nat.max_le.mp this).2
        obtain ⟨hsv, hst⟩ := Nat.max_le.mp hm2
        have hdump : dumpObjTail (.cons k v t) ++ '}' :: rest
            = ',' :: ('"' :: (escChars k.data
                ++ '"' :: (':' :: (dumpV v ++ (dumpObjTail t ++ '}' :: rest))))) := by
          simp [dumpObjTail, dumpStr, List.append_assoc]
        rw [hdump, parseObjTail.eq_def]
        change (match skipWs ('"' :: (escChars k.data
            ++ '"' :: (':' :: (dumpV v ++ (dumpObjTail t ++ '}' :: rest))))) with
          | '"' :: t2 =>
            match parseStrBody f t2 with
            | none => none
            | some (k2, r1) =>
              match skipWs r1 with
              | ':' :: r2 =>
                match parseValue f (skipWs r2) with
                | none => none
                | some (v2, r3) =>
                  match parseObjTail f (skipWs r3) with
                  | none => none
                  | some (o2, r4) => some (JObj.cons ⟨k2⟩ v2 o2, r4)
              | _ => none
          | _ => none) = _
        rw [skipWs_cons_not_ws _ (by decide)]
        change (match parseStrBody f (escChars k.data
            ++ '"' :: (':' :: (dumpV v ++ (dumpObjTail t ++ '}' :: rest)))) with
          | none => none
          | some (k2, r1) =>
            match skipWs r1 with
            | ':' :: r2 =>
              match parseValue f (skipWs r2) with
              | none => none
              | some (v2, r3) =>
                match parseObjTail f (skipWs r3) with
                | none => none
                | some (o2, r4) => some (JObj.cons ⟨k2⟩ v2 o2, r4)
            | _ => none) = _
        rw [parseStrBody_escChars k.data _ f hm1]
        change (match skipWs (':' :: (dumpV v ++ (dumpObjTail t ++ '}' :: rest))) with
          | ':' :: r2 =>
            match parseValue f (skipWs r2) with
            | none => none
            | some (v2, r3) =>
              match parseObjTail f (skipWs r3) with
              | none => none
              | some (o2, r4) => some (JObj.cons ⟨k.data⟩ v2 o2, r4)
          | _ => none) = _
        rw [skipWs_cons_not_ws _ (by decide)]
        change (match parseValue f (skipWs (dumpV v ++ (dumpObjTail t ++ '}' :: rest))) with
          | none => none
          | some (v2, r3) =>
            match parseObjTail f (skipWs r3) with
            | none => none
            | some (o2, r4) => some (JObj.cons ⟨k.data⟩ v2 o2, r4)) = _
        rw [skipWs_dumpV hwv.1, ihV v _ hwv.1 hsv (delimOk_dumpObjTail t rest)]
        change (match parseObjTail f (skipWs (dumpObjTail t ++ '}' :: rest)) with
          | none => none
          | some (o2, r4) => some (JObj.cons ⟨k.data⟩ v o2, r4)) = _
        rw [skipWs_dumpObjTail, ihOT t rest hwv.2 hst hd]

theorem escChar_length_pos (c : Char) : 1 ≤ (escChar c).length := by
  unfold escChar
  split_ifs <;> simp

theorem escChars_length_ge (l : List Char) : l.length ≤ (escChars l).length := by
  induction l with
  | nil => simp [escChars]
  | cons c t ih =>
    have h := escChar_length_pos c
    have hstep : escChars (c :: t) = escChar c ++ escChars t := by
      simp [escChars]
    rw [hstep, List.length_append, List.length_cons]
    omega

mutual
theorem sizeV_le_dump : ∀ v : JValue, wfV v = true →
    sizeV v ≤ (dumpV v).length + 1
  | .null, _ => by simp [sizeV, dumpV]
  | .bool b, _ => by cases b <;> simp [sizeV, dumpV]
  | .int i, _ => by
    simp only [sizeV]
    omega
  | .numRaw s, _ => by
    simp only [sizeV]
    omega
  | .str s, _ => by
    have he := escChars_length_ge s.data
    simp only [sizeV, dumpV, dumpStr, List.length_cons, List.length_append,
      List.length_singleton]
    omega
  | .arr a, hw => by
    have hb := sizeA_le_dumpArr a (by simpa [wfV] using hw)
    simp only [sizeV, dumpV, List.length_cons, List.length_append,
      List.length_singleton]
    omega
  | .obj o, hw => by
    have hb := sizeO_le_dumpObj o (by simpa [wfV] using hw)
    simp only [sizeV, dumpV, List.length_cons, List.length_append,
      List.length_singleton]
    omega

theorem sizeA_le_dumpArr : ∀ a : JArr, wfA a = true →
    sizeA a ≤ (dumpArr a).length + 2
  | .nil, _ => by simp [sizeA, dumpArr]
  | .cons v t, hw => by
    have hwv : wfV v = true ∧ wfA t = true := by
      simpa [wfA, Bool.and_eq_true] using hw
    have h1 := sizeV_le_dump v hwv.1
    have h2 := sizeA_le_dumpArrTail t hwv.2
    obtain ⟨c, cs, hdv, -⟩ := dumpV_head v hwv.1
    have hlen : 1 ≤ (dumpV v).length := by
      rw [hdv]
      simp
    have hmax : max (sizeV v) (sizeA t)
        ≤ (dumpV v).length + (dumpArrTail t).length + 1 :=
      max_le (by omega) (by omega)
    simp only [sizeA, dumpArr, List.length_append]
    omega

theorem sizeA_le_dumpArrTail : ∀ a : JArr, wfA a = true →
    sizeA a ≤ (dumpArrTail a).length + 2
  | .nil, _ => by simp [sizeA, dumpArrTail]
  | .cons v t, hw => by
    have hwv : wfV v = true ∧ wfA t = true := by
      simpa [wfA, Bool.and_eq_true] using hw
    have h1 := sizeV_le_dump v hwv.1
    have h2 := sizeA_le_dumpArrTail t hwv.2
    have hmax : max (sizeV v) (sizeA t)
        ≤ (dumpV v).length + (dumpArrTail t).length + 2 :=
      max_le (by omega) (by omega)
    simp only [sizeA, dumpArrTail, List.length_cons, List.length_append]
    omega

theorem sizeO_le_dumpObj : ∀ o : JObj, wfO o = true →
    sizeO o ≤ (dumpObj o).length + 2
  | .nil, _ => by simp [sizeO, dumpObj]
  | .cons k v t, hw => by
    have hwv : wfV v = true ∧ wfO t = true := by
      simpa [wfO, Bool.and_eq_true] using hw
    have h1 := sizeV_le_dump v hwv.1
    have h2 := sizeO_le_dumpObjTail t hwv.2
    have he := escChars_length_ge k.data
    have hks : (dumpStr k).length = (escChars k.data).length + 2 := by
      simp [dumpStr]
    have hmax : max (k.data.length + 1) (max (sizeV v) (sizeO t))
        ≤ (dumpStr k).length + (dumpV v).length + (dumpObjTail t).length + 1 :=
      max_le (by omega) (max_le (by omega) (by omega))
    simp only [sizeO, dumpObj, List.length_append, List.length_cons]
    omega

theorem sizeO_le_dumpObjTail : ∀ o : JObj, wfO o = true →
    sizeO o ≤ (dumpObjTail o).length + 2
  | .nil, _ => by simp [sizeO, dumpObjTail]
  | .cons k v t, hw => by
    have hwv : wfV v = true ∧ wfO t = true := by
      simpa [wfO, Bool.and_eq_true] using hw
    have h1 := sizeV_le_dump v hwv.1
    have h2 := sizeO_le_dumpObjTail t hwv.2
    have he := escChars_length_ge k.data
    have hks : (dumpStr k).length = (escChars k.data).length + 2 := by
      simp [dumpStr]
    have hmax : max (k.data.length + 1) (max (sizeV v) (sizeO t))
        ≤ (dumpStr k).length + (dumpV v).length + (dumpObjTail t).length + 1 :=
      max_le (by omega) (max_le (by omega) (by omega))
    simp only [sizeO, dumpObjTail, List.length_append, List.length_cons]
    omega
end

/-- `json.loads` inverts `json.dumps` on well-formed values. -/
theorem json_loads_dumps {v : JValue} (hw : wfV v = true) :
    json_loads (json_dumps v) = some v := by
  have hsk : skipWs (dumpV v) = dumpV v := by
    have h := skipWs_dumpV hw []
    simpa using h
  have hb : sizeV v ≤ (dumpV v).length + 1 := sizeV_le_dump v hw
  have hp := (parse_dump ((dumpV v).length + 1)).1 v [] hw hb rfl
  rw [List.append_nil] at hp
  show (match parseValue ((skipWs (dumpV v)).length + 1) (skipWs (dumpV v)) with
    | some (v2, rest) => if skipWs rest = [] then some v2 else none
    | none => none) = some v
  rw [hsk, hp]
  rfl

theorem numTokOk_of_good {s : String} (hg : NumTokGood s) : numTokOk s = true := by
  have h := hg.1 [] rfl
  rw [List.append_nil] at h
  unfold numTokOk
  rw [h]
  simp

theorem parseNumber_wf {cs : List Char} {v : JValue} {r : List Char}
    (h : parseNumber cs = some (v, r)) : wfV v = true := by
  have h0 := h
  unfold parseNumber at h
  split at h
  · exact Option.noConfusion h
  · rename_i ip r1 heq
    rw [parseNumber_eq_of_scan heq] at h0
    split at h0
    · injection h0 with h'
      injection h' with hv hr
      rw [← hv]
      rfl
    · rename_i hcond
      injection h0 with h'
      injection h' with hv hr
      rw [← hv]
      show numTokOk _ = true
      have hnum : parseNumber cs
          = some (.numRaw ⟨ip ++ (scanFrac r1).1 ++ (scanExp (scanFrac r1).2).1⟩,
            (scanExp (scanFrac r1).2).2) := by
        rw [parseNumber_eq_of_scan heq, if_neg hcond]
      exact numTokOk_of_good (parseNumber_numRaw_good hnum)

/-- Every value the parser produces is well-formed. -/
theorem parse_wf (fuel : Nat) :
    (∀ cs v r, parseValue fuel cs = some (v, r) → wfV v = true) ∧
    (∀ cs a r, parseArrBody fuel cs = some (a, r) → wfA a = true) ∧
    (∀ cs a r, parseArrTail fuel cs = some (a, r) → wfA a = true) ∧
    (∀ cs o r, parseObjBody fuel cs = some (o, r) → wfO o = true) ∧
    (∀ cs o r, parseObjTail fuel cs = some (o, r) → wfO o = true) := by
  induction fuel with
  | zero =>
    refine ⟨?_, ?_, ?_, ?_, ?_⟩ <;> intro cs x r h <;> exact Option.noConfusion h
  | succ f ih =>
    obtain ⟨ihV, ihAB, ihAT, ihOB, ihOT⟩ := ih
    refine ⟨?_, ?_, ?_, ?_, ?_⟩
    · intro cs v r h
      rw [parseValue.eq_def] at h
      split at h
      · exact Option.noConfusion h
      · rename_i fp hfp
        obtain rfl : fp = f := by omega
        split at h
        · exact Option.noConfusion h
        · rename_i c t
          split_ifs at h
          · rw [Option.map_eq_some'] at h
            obtain ⟨⟨o, r2⟩, ho, hfeq⟩ := h
            injection hfeq with h1 h2
            rw [← h1]
            show wfO o = true
            exact ihOB _ _ _ ho
          · rw [Option.map_eq_some'] at h
            obtain ⟨⟨a, r2⟩, ha, hfeq⟩ := h
            injection hfeq with h1 h2
            rw [← h1]
            show wfA a = true
            exact ihAB _ _ _ ha
          · rw [Option.map_eq_some'] at h
            obtain ⟨⟨sc, r2⟩, hsc, hfeq⟩ := h
            injection hfeq with h1 h2
            rw [← h1]
            rfl
          · split at h
            · injection h with h'
              injection h' with hv hr
              rw [← hv]
              rfl
            · exact parseNumber_wf h
          · split at h
            · injection h with h'
              injection h' with hv hr
              rw [← hv]
              rfl
            · exact parseNumber_wf h
          · split at h
            · injection h with h'
              injection h' with hv hr
              rw [← hv]
              rfl
            · exact parseNumber_wf h
          · exact parseNumber_wf h
    · intro cs a r h
      rw [parseArrBody.eq_def] at h
      split at h
      · exact Option.noConfusion h
      · rename_i fp hfp
        obtain rfl : fp = f := by omega
        split at h
        · injection h with h'
          injection h' with ha hr
          rw [← ha]
          rfl
        · split at h
          · exact Option.noConfusion h
          · rename_i p v r1 heq
            split at h
            · exact Option.noConfusion h
            · rename_i p2 a2 r2 heq2
              injection h with h'
              injection h' with ha hr
              rw [← ha]
              show (wfV v && wfA a2) = true
              rw [ihV _ _ _ heq, ihAT _ _ _ heq2]
              rfl
    · intro cs a r h
      rw [parseArrTail.eq_def] at h
      split at h
      · exact Option.noConfusion h
      · rename_i fp hfp
        obtain rfl : fp = f := by omega
        split at h
        · injection h with h'
          injection h' with ha hr
          rw [← ha]
          rfl
        · split at h
          · exact Option.noConfusion h
          · rename_i p v r1 heq
            split at h
            · exact Option.noConfusion h
            · rename_i p2 a2 r2 heq2
              injection h with h'
              injection h' with ha hr
              rw [← ha]
              show (wfV v && wfA a2) = true
              rw [ihV _ _ _ heq, ihAT _ _ _ heq2]
              rfl
        · exact Option.noConfusion h
    · intro cs o r h
      rw [parseObjBody.eq_def] at h
      split at h
      · exact Option.noConfusion h
      · rename_i fp hfp
        obtain rfl : fp = f := by omega
        split at h
        · injection h with h'
          injection h' with ho hr
          rw [← ho]
          rfl
        · split at h
          · exact Option.noConfusion h
          · rename_i p k r1 heq
            split at h
            · rename_i r2
              split at h
              · exact Option.noConfusion h
              · rename_i p2 v r3 heq2
                split at h
                · exact Option.noConfusion h
                · rename_i p3 o2 r4 heq3
                  injection h with h'
                  injection h' with ho hr
                  rw [← ho]
                  show (wfV v && wfO o2) = true
                  rw [ihV _ _ _ heq2, ihOT _ _ _ heq3]
                  rfl
            · exact Option.noConfusion h
        · exact Option.noConfusion h
    · intro cs o r h
      rw [parseObjTail.eq_def] at h
      split at h
      · exact Option.noConfusion h
      · rename_i fp hfp
        obtain rfl : fp = f := by omega
        split at h
        · injection h with h'
          injection h' with ho hr
          rw [← ho]
          rfl
        · split at h
          · split at h
            · exact Option.noConfusion h
            · rename_i p k r1 heq
              split at h
              · rename_i r2
                split at h
                · exact Option.noConfusion h
                · rename_i p2 v r3 heq2
                  split at h
                  · exact Option.noConfusion h
                  · rename_i p3 o2 r4 heq3
                    injection h with h'
                    injection h' with ho hr
                    rw [← ho]
                    show (wfV v && wfO o2) = true
                    rw [ihV _ _ _ heq2, ihOT _ _ _ heq3]
                    rfl
              · exact Option.noConfusion h
          · exact Option.noConfusion h
        · exact Option.noConfusion h

/-- Every value `json.loads` produces is well-formed. -/
theorem json_loads_wf {s : String} {v : JValue} (h : json_loads s = some v) :
    wfV v = true := by
  have h2 : (match parseValue ((skipWs s.data).length + 1) (skipWs s.data) with
    | some (v2, rest) => if skipWs rest = [] then some v2 else none
    | none => none) = some v := h
  clear h
  rename' h2 => h
  split at h
  · rename_i p v2 rest heq
    split at h
    · injection h with h'
      rw [← h']
      exact (parse_wf _).1 _ _ _ heq
    · exact Option.noConfusion h
  · exact Option.noConfusion h

/-! ### Idempotence of the value sanitizer (claim C4 support) -/

/-- Unfolding of `sanitize_value` on a string value. -/
theorem sanitize_value_str (st : SanState) (k : String) (s : String) :
    sanitize_value st k (.str s) =
      if k ∈ EMAIL_FIELDS ∧ s.data.contains '@' then (.str "test@example.com", st)
      else if k ∈ NAME_FIELDS ∧ s ≠ "" then
        (.str ((TEST_NAMES.lookup k).getD "Test Value"), st)
      else (.str s, st) := rfl

theorem name_not_email {k : String} (h : k ∈ NAME_FIELDS) :
    k ∉ EMAIL_FIELDS := by
  revert h
  have hall : ∀ x ∈ NAME_FIELDS, x ∉ EMAIL_FIELDS := by decide
  exact hall k

/-- The fixed organization substitute is a fixed point of
`sanitize_value` at an organization field (given the map invariant). -/
theorem sanitize_value_fix_org (st : SanState) (k : String)
    (h2 : OrgAllSubst st) (hk : k ∈ ORG_ID_FIELDS) :
    (sanitize_value st k (.int TEST_ORG_ID)).1 = .int TEST_ORG_ID := by
  rw [sanitize_value_intView st k (.int TEST_ORG_ID) TEST_ORG_ID rfl,
    if_pos ⟨hk, by decide⟩]
  rcases hl : List.lookup TEST_ORG_ID st.orgMap with _ | tv
  · rfl
  · have htv := h2 _ (lookup_mem_of_eq_some hl)
    simp only at htv
    show JValue.int tv = JValue.int TEST_ORG_ID
    rw [htv]

/-- The fixed user substitute is a fixed point of `sanitize_value` at a
user field outside the organization fields. -/
theorem sanitize_value_fix_user (st : SanState) (k : String)
    (h2 : UserAllSubst st) (hk : k ∈ USER_ID_FIELDS)
    (hno : k ∉ ORG_ID_FIELDS) :
    (sanitize_value st k (.int TEST_USER_ID)).1 = .int TEST_USER_ID := by
  rw [sanitize_value_intView st k (.int TEST_USER_ID) TEST_USER_ID rfl,
    if_neg (fun hc => hno hc.1), if_pos ⟨hk, by decide⟩]
  rcases hl : List.lookup TEST_USER_ID st.userMap with _ | tv
  · rfl
  · have htv := h2 _ (lookup_mem_of_eq_some hl)
    simp only at htv
    show JValue.int tv = JValue.int TEST_USER_ID
    rw [htv]

/-- A second application of `sanitize_value` (under any states with the
substitute invariant) returns the first application's value unchanged. -/
theorem sanitize_value_idem (st1 st2 : SanState) (k : String) (v : JValue)
    (h1 : AllSubst st1) (h2 : AllSubst st2) :
    (sanitize_value st2 k (sanitize_value st1 k v).1).1
      = (sanitize_value st1 k v).1 := by
  cases v with
  | null => rfl
  | numRaw s => rfl
  | arr a => rfl
  | obj o => rfl
  | str s =>
    rw [sanitize_value_str st1 k s]
    by_cases hem : k ∈ EMAIL_FIELDS ∧ s.data.contains '@'
    · rw [if_pos hem]
      simp only
      rw [sanitize_value_str st2 k _, if_pos ⟨hem.1, by decide⟩]
    · rw [if_neg hem]
      by_cases hnm : k ∈ NAME_FIELDS ∧ s ≠ ""
      · rw [if_pos hnm]
        simp only
        rw [sanitize_value_str st2 k _]
        have hnem : k ∉ EMAIL_FIELDS := name_not_email hnm.1
        rw [if_neg (fun hc => hnem hc.1)]
        by_cases hne : ((TEST_NAMES.lookup k).getD "Test Value") ≠ ""
        · rw [if_pos ⟨hnm.1, hne⟩]
        · rw [if_neg (fun hc => hne hc.2)]
      · rw [if_neg hnm]
        simp only
        rw [sanitize_value_str st2 k s, if_neg hem, if_neg hnm]
  | int i =>
    rw [sanitize_value_intView st1 k (.int i) i rfl]
    by_cases horg : k ∈ ORG_ID_FIELDS ∧ 0 < i
    · rw [if_pos horg]
      rcases hl : List.lookup i st1.orgMap with _ | tv
      · exact sanitize_value_fix_org st2 k h2.1 horg.1
      · have htv := h1.1 _ (lookup_mem_of_eq_some hl)
        simp only at htv
        show (sanitize_value st2 k (.int tv)).1 = JValue.int tv
        rw [htv]
        exact sanitize_value_fix_org st2 k h2.1 horg.1
    · rw [if_neg horg]
      by_cases huser : k ∈ USER_ID_FIELDS ∧ 0 < i
      · rw [if_pos huser]
        have hno : k ∉ ORG_ID_FIELDS := fun hc => horg ⟨hc, huser.2⟩
        rcases hl : List.lookup i st1.userMap with _ | tv
        · exact sanitize_value_fix_user st2 k h2.2 huser.1 hno
        · have htv := h1.2 _ (lookup_mem_of_eq_some hl)
          simp only at htv
          show (sanitize_value st2 k (.int tv)).1 = JValue.int tv
          rw [htv]
          exact sanitize_value_fix_user st2 k h2.2 huser.1 hno
      · rw [if_neg huser]
        simp only
        rw [sanitize_value_intView st2 k (.int i) i rfl, if_neg horg, if_neg huser]
  | bool b =>
    have hv : pyIntView (.bool b) = some (if b then 1 else 0) := rfl
    rw [sanitize_value_intView st1 k _ _ hv]
    by_cases horg : k ∈ ORG_ID_FIELDS ∧ 0 < (if b then (1 : Int) else 0)
    · rw [if_pos horg]
      rcases hl : List.lookup (if b then (1 : Int) else 0) st1.orgMap with _ | tv
      · exact sanitize_value_fix_org st2 k h2.1 horg.1
      · have htv := h1.1 _ (lookup_mem_of_eq_some hl)
        simp only at htv
        show (sanitize_value st2 k (.int tv)).1 = JValue.int tv
        rw [htv]
        exact sanitize_value_fix_org st2 k h2.1 horg.1
    · rw [if_neg horg]
      by_cases huser : k ∈ USER_ID_FIELDS ∧ 0 < (if b then (1 : Int) else 0)
      · rw [if_pos huser]
        have hno : k ∉ ORG_ID_FIELDS := fun hc => horg ⟨hc, huser.2⟩
        rcases hl : List.lookup (if b then (1 : Int) else 0) st1.userMap with _ | tv
        · exact sanitize_value_fix_user st2 k h2.2 huser.1 hno
        · have htv := h1.2 _ (lookup_mem_of_eq_some hl)
          simp only at htv
          show (sanitize_value st2 k (.int tv)).1 = JValue.int tv
          rw [htv]
          exact sanitize_value_fix_user st2 k h2.2 huser.1 hno
      · rw [if_neg huser]
        simp only
        rw [sanitize_value_intView st2 k _ _ hv, if_neg horg, if_neg huser]

theorem StepOk.allSubst {st st' : SanState} (h : StepOk st st')
    (ha : AllSubst st) : AllSubst st' :=
  ⟨h.1 ha.1, h.2.1 ha.2⟩

set_option linter.unusedTactic false in
mutual
/-- A second structural walk over an already-sanitized dictionary leaves
every value unchanged (any states satisfying the substitute invariant). -/
theorem sanitizeEntries_idem : ∀ (es : JObj) (st1 st2 : SanState),
    AllSubst st1 → AllSubst st2 →
    (sanitizeEntries st2 (sanitizeEntries st1 es).1).1
      = (sanitizeEntries st1 es).1
  | .nil, st1, st2, _, _ => by simp [sanitizeEntries]
  | .cons k v t, st1, st2, h1, h2 => by
    cases v with
    | obj o =>
      simp only [sanitizeEntries]
      have hhead := sanitizeEntries_idem o st1 st2 h1 h2
      have h1' : AllSubst (sanitizeEntries st1 o).2 :=
        (sanitizeEntries_stepOk st1 o).allSubst h1
      have h2' : AllSubst (sanitizeEntries st2 (sanitizeEntries st1 o).1).2 :=
        (sanitizeEntries_stepOk st2 (sanitizeEntries st1 o).1).allSubst h2
      have htail := sanitizeEntries_idem t (sanitizeEntries st1 o).2
        (sanitizeEntries st2 (sanitizeEntries st1 o).1).2 h1' h2'
      rw [hhead, htail]
    | arr a =>
      simp only [sanitizeEntries]
      have hhead := sanitize_list_idem a st1 st2 h1 h2
      have h1' : AllSubst (sanitize_list st1 a).2 :=
        (sanitize_list_stepOk st1 a).allSubst h1
      have h2' : AllSubst (sanitize_list st2 (sanitize_list st1 a).1).2 :=
        (sanitize_list_stepOk st2 (sanitize_list st1 a).1).allSubst h2
      have htail := sanitizeEntries_idem t (sanitize_list st1 a).2
        (sanitize_list st2 (sanitize_list st1 a).1).2 h1' h2'
      rw [hhead, htail]
    | null =>
      simp only [sanitizeEntries]
      have hhead := sanitize_value_idem st1 st2 k .null h1 h2
      have h1' : AllSubst (sanitize_value st1 k .null).2 :=
        (sanitize_value_state st1 k .null).1 h1
      have h2' : AllSubst
          (sanitize_value st2 k (sanitize_value st1 k .null).1).2 :=
        (sanitize_value_state st2 k _).1 h2
      have htail := sanitizeEntries_idem t (sanitize_value st1 k .null).2
        (sanitize_value st2 k (sanitize_value st1 k .null).1).2 h1' h2'
      rcases sanitize_value_cases st1 k .null with hv1 | ⟨m, hv1⟩ | ⟨s2, hv1⟩ <;>
        rw [hv1] at hhead htail ⊢ <;>
        (try simp only [sanitizeEntries]) <;>
        rw [hhead, htail]
    | bool b =>
      simp only [sanitizeEntries]
      have hhead := sanitize_value_idem st1 st2 k (.bool b) h1 h2
      have h1' : AllSubst (sanitize_value st1 k (.bool b)).2 :=
        (sanitize_value_state st1 k (.bool b)).1 h1
      have h2' : AllSubst
          (sanitize_value st2 k (sanitize_value st1 k (.bool b)).1).2 :=
        (sanitize_value_state st2 k _).1 h2
      have htail := sanitizeEntries_idem t (sanitize_value st1 k (.bool b)).2
        (sanitize_value st2 k (sanitize_value st1 k (.bool b)).1).2 h1' h2'
      rcases sanitize_value_cases st1 k (.bool b) with hv1 | ⟨m, hv1⟩ | ⟨s2, hv1⟩ <;>
        rw [hv1] at hhead htail ⊢ <;>
        (try simp only [sanitizeEntries]) <;>
        rw [hhead, htail]
    | int i =>
      simp only [sanitizeEntries]
      have hhead := sanitize_value_idem st1 st2 k (.int i) h1 h2
      have h1' : AllSubst (sanitize_value st1 k (.int i)).2 :=
        (sanitize_value_state st1 k (.int i)).1 h1
      have h2' : AllSubst
          (sanitize_value st2 k (sanitize_value st1 k (.int i)).1).2 :=
        (sanitize_value_state st2 k _).1 h2
      have htail := sanitizeEntries_idem t (sanitize_value st1 k (.int i)).2
        (sanitize_value st2 k (sanitize_value st1 k (.int i)).1).2 h1' h2'
      rcases sanitize_value_cases st1 k (.int i) with hv1 | ⟨m, hv1⟩ | ⟨s2, hv1⟩ <;>
        rw [hv1] at hhead htail ⊢ <;>
        (try simp only [sanitizeEntries]) <;>
        rw [hhead, htail]
    | numRaw s =>
      simp only [sanitizeEntries]
      have hhead := sanitize_value_idem st1 st2 k (.numRaw s) h1 h2
      have h1' : AllSubst (sanitize_value st1 k (.numRaw s)).2 :=
        (sanitize_value_state st1 k (.numRaw s)).1 h1
      have h2' : AllSubst
          (sanitize_value st2 k (sanitize_value st1 k (.numRaw s)).1).2 :=
        (sanitize_value_state st2 k _).1 h2
      have htail := sanitizeEntries_idem t (sanitize_value st1 k (.numRaw s)).2
        (sanitize_value st2 k (sanitize_value st1 k (.numRaw s)).1).2 h1' h2'
      rcases sanitize_value_cases st1 k (.numRaw s) with hv1 | ⟨m, hv1⟩ | ⟨s2, hv1⟩ <;>
        rw [hv1] at hhead htail ⊢ <;>
        (try simp only [sanitizeEntries]) <;>
        rw [hhead, htail]
    | str s =>
      simp only [sanitizeEntries]
      have hhead := sanitize_value_idem st1 st2 k (.str s) h1 h2
      have h1' : AllSubst (sanitize_value st1 k (.str s)).2 :=
        (sanitize_value_state st1 k (.str s)).1 h1
      have h2' : AllSubst
          (sanitize_value st2 k (sanitize_value st1 k (.str s)).1).2 :=
        (sanitize_value_state st2 k _).1 h2
      have htail := sanitizeEntries_idem t (sanitize_value st1 k (.str s)).2
        (sanitize_value st2 k (sanitize_value st1 k (.str s)).1).2 h1' h2'
      rcases sanitize_value_cases st1 k (.str s) with hv1 | ⟨m, hv1⟩ | ⟨s2, hv1⟩ <;>
        rw [hv1] at hhead htail ⊢ <;>
        (try simp only [sanitizeEntries]) <;>
        rw [hhead, htail]

theorem sanitize_list_idem : ∀ (a : JArr) (st1 st2 : SanState),
    AllSubst st1 → AllSubst st2 →
    (sanitize_list st2 (sanitize_list st1 a).1).1 = (sanitize_list st1 a).1
  | .nil, st1, st2, _, _ => by simp [sanitize_list]
  | .cons item t, st1, st2, h1, h2 => by
    cases item with
    | obj o =>
      simp only [sanitize_list]
      have hhead := sanitizeEntries_idem o st1 st2 h1 h2
      have h1' : AllSubst (sanitizeEntries st1 o).2 :=
        (sanitizeEntries_stepOk st1 o).allSubst h1
      have h2' : AllSubst (sanitizeEntries st2 (sanitizeEntries st1 o).1).2 :=
        (sanitizeEntries_stepOk st2 (sanitizeEntries st1 o).1).allSubst h2
      have htail := sanitize_list_idem t (sanitizeEntries st1 o).2
        (sanitizeEntries st2 (sanitizeEntries st1 o).1).2 h1' h2'
      rw [hhead, htail]
    | arr its =>
      simp only [sanitize_list]
      have hhead := sanitize_list_idem its st1 st2 h1 h2
      have h1' : AllSubst (sanitize_list st1 its).2 :=
        (sanitize_list_stepOk st1 its).allSubst h1
      have h2' : AllSubst (sanitize_list st2 (sanitize_list st1 its).1).2 :=
        (sanitize_list_stepOk st2 (sanitize_list st1 its).1).allSubst h2
      have htail := sanitize_list_idem t (sanitize_list st1 its).2
        (sanitize_list st2 (sanitize_list st1 its).1).2 h1' h2'
      rw [hhead, htail]
    | null =>
      simp only [sanitize_list]
      rw [sanitize_list_idem t st1 st2 h1 h2]
    | bool b =>
      simp only [sanitize_list]
      rw [sanitize_list_idem t st1 st2 h1 h2]
    | int i =>
      simp only [sanitize_list]
      rw [sanitize_list_idem t st1 st2 h1 h2]
    | numRaw s =>
      simp only [sanitize_list]
      rw [sanitize_list_idem t st1 st2 h1 h2]
    | str s =>
      simp only [sanitize_list]
      rw [sanitize_list_idem t st1 st2 h1 h2]
end

theorem sanitize_value_wf (st : SanState) (k : String) (v : JValue)
    (h : wfV v = true) : wfV (sanitize_value st k v).1 = true := by
  rcases sanitize_value_cases st k v with h1 | ⟨m, h1⟩ | ⟨s, h1⟩ <;> rw [h1]
  · exact h
  · rfl
  · rfl

mutual
/-- The structural walk preserves well-formedness. -/
theorem sanitizeEntries_wf : ∀ (es : JObj) (st : SanState), wfO es = true →
    wfO (sanitizeEntries st es).1 = true
  | .nil, st, _ => by simp [sanitizeEntries, wfO]
  | .cons k v t, st, hw => by
    have hwv : wfV v = true ∧ wfO t = true := by
      simpa [wfO, Bool.and_eq_true] using hw
    cases v with
    | obj o =>
      simp only [sanitizeEntries, wfO, wfV, Bool.and_eq_true]
      exact ⟨sanitizeEntries_wf o st (by simpa [wfV] using hwv.1),
        sanitizeEntries_wf t _ hwv.2⟩
    | arr a =>
      simp only [sanitizeEntries, wfO, wfV, Bool.and_eq_true]
      exact ⟨sanitize_list_wf a st (by simpa [wfV] using hwv.1),
        sanitizeEntries_wf t _ hwv.2⟩
    | null =>
      simp only [sanitizeEntries, wfO, Bool.and_eq_true]
      exact ⟨sanitize_value_wf st k _ hwv.1, sanitizeEntries_wf t _ hwv.2⟩
    | bool b =>
      simp only [sanitizeEntries, wfO, Bool.and_eq_true]
      exact ⟨sanitize_value_wf st k _ hwv.1, sanitizeEntries_wf t _ hwv.2⟩
    | int i =>
      simp only [sanitizeEntries, wfO, Bool.and_eq_true]
      exact ⟨sanitize_value_wf st k _ hwv.1, sanitizeEntries_wf t _ hwv.2⟩
    | numRaw s =>
      simp only [sanitizeEntries, wfO, Bool.and_eq_true]
      exact ⟨sanitize_value_wf st k _ hwv.1, sanitizeEntries_wf t _ hwv.2⟩
    | str s =>
      simp only [sanitizeEntries, wfO, Bool.and_eq_true]
      exact ⟨sanitize_value_wf st k _ hwv.1, sanitizeEntries_wf t _ hwv.2⟩

theorem sanitize_list_wf : ∀ (a : JArr) (st : SanState), wfA a = true →
    wfA (sanitize_list st a).1 = true
  | .nil, st, _ => by simp [sanitize_list, wfA]
  | .cons item t, st, hw => by
    have hwv : wfV item = true ∧ wfA t = true := by
      simpa [wfA, Bool.and_eq_true] using hw
    cases item with
    | obj o =>
      simp only [sanitize_list, wfA, wfV, Bool.and_eq_true]
      exact ⟨sanitizeEntries_wf o st (by simpa [wfV] using hwv.1),
        sanitize_list_wf t _ hwv.2⟩
    | arr its =>
      simp only [sanitize_list, wfA, wfV, Bool.and_eq_true]
      exact ⟨sanitize_list_wf its st (by simpa [wfV] using hwv.1),
        sanitize_list_wf t _ hwv.2⟩
    | null =>
      simp only [sanitize_list, wfA, Bool.and_eq_true]
      exact ⟨hwv.1, sanitize_list_wf t _ hwv.2⟩
    | bool b =>
      simp only [sanitize_list, wfA, Bool.and_eq_true]
      exact ⟨hwv.1, sanitize_list_wf t _ hwv.2⟩
    | int i =>
      simp only [sanitize_list, wfA, Bool.and_eq_true]
      exact ⟨hwv.1, sanitize_list_wf t _ hwv.2⟩
    | numRaw s =>
      simp only [sanitize_list, wfA, Bool.and_eq_true]
      exact ⟨hwv.1, sanitize_list_wf t _ hwv.2⟩
    | str s =>
      simp only [sanitize_list, wfA, Bool.and_eq_true]
      exact ⟨hwv.1, sanitize_list_wf t _ hwv.2⟩
end

theorem sanitizeParsedBody_wf (st : SanState) (v : JValue)
    (h : wfV v = true) : wfV (sanitizeParsedBody st v).1 = true := by
  cases v with
  | obj o =>
    simp only [sanitizeParsedBody]
    show wfO (sanitizeEntries st o).1 = true
    exact sanitizeEntries_wf o st (by simpa [wfV] using h)
  | arr a =>
    simp only [sanitizeParsedBody]
    show wfA (sanitize_list st a).1 = true
    exact sanitize_list_wf a st (by simpa [wfV] using h)
  | null => exact h
  | bool b => exact h
  | int i => exact h
  | numRaw s => exact h
  | str s => exact h

theorem sanitizeParsedBody_idem (v : JValue) (st1 st2 : SanState)
    (h1 : AllSubst st1) (h2 : AllSubst st2) :
    (sanitizeParsedBody st2 (sanitizeParsedBody st1 v).1).1
      = (sanitizeParsedBody st1 v).1 := by
  cases v with
  | obj o =>
    simp only [sanitizeParsedBody]
    show JValue.obj (sanitizeEntries st2 (sanitizeEntries st1 o).1).1 = _
    rw [sanitizeEntries_idem o st1 st2 h1 h2]
  | arr a =>
    simp only [sanitizeParsedBody]
    show JValue.arr (sanitize_list st2 (sanitize_list st1 a).1).1 = _
    rw [sanitize_list_idem a st1 st2 h1 h2]
  | null => rfl
  | bool b => rfl
  | int i => rfl
  | numRaw s => rfl
  | str s => rfl

theorem sanitizeParsedBody_allSubst (st : SanState) (v : JValue)
    (h : AllSubst st) : AllSubst (sanitizeParsedBody st v).2 := by
  cases v with
  | obj o => exact (sanitizeEntries_stepOk st o).allSubst h
  | arr a => exact (sanitize_list_stepOk st a).allSubst h
  | null => exact h
  | bool b => exact h
  | int i => exact h
  | numRaw s => exact h
  | str s => exact h

theorem json_dumps_ne_empty {v : JValue} (hw : wfV v = true) :
    json_dumps v ≠ "" := by
  obtain ⟨c, cs, hd, -⟩ := dumpV_head v hw
  intro he
  have hdata : (json_dumps v).data = ("" : String).data := by rw [he]
  simp only [json_dumps] at hdata
  rw [hd] at hdata
  exact absurd hdata (by simp)

theorem sanitize_body_string_allSubst (st : SanState) (body : String)
    (h : AllSubst st) : AllSubst (sanitize_body_string st body).2 := by
  unfold sanitize_body_string
  split
  · exact h
  · rename_i v heq
    exact sanitizeParsedBody_allSubst st v h

/-- A second body sanitization is the identity on the first one's
output, which is never the empty string for a nonempty input. -/
theorem sanitize_body_string_idem (st1 st2 : SanState) (body : String)
    (h1 : AllSubst st1) (h2 : AllSubst st2) (hb : body ≠ "") :
    (sanitize_body_string st2 (sanitize_body_string st1 body).1).1
        = (sanitize_body_string st1 body).1 ∧
      (sanitize_body_string st1 body).1 ≠ "" := by
  rcases hp : json_loads body with _ | v
  · have hfix : sanitize_body_string st1 body = (body, st1) := by
      unfold sanitize_body_string
      rw [hp]
    rw [hfix]
    refine ⟨?_, hb⟩
    show (sanitize_body_string st2 body).1 = body
    unfold sanitize_body_string
    rw [hp]
  · have hwv : wfV v = true := json_loads_wf hp
    have hw1 : wfV (sanitizeParsedBody st1 v).1 = true :=
      sanitizeParsedBody_wf _ _ hwv
    have hfix : sanitize_body_string st1 body
        = (json_dumps (sanitizeParsedBody st1 v).1, (sanitizeParsedBody st1 v).2) := by
      unfold sanitize_body_string
      rw [hp]
    rw [hfix]
    refine ⟨?_, json_dumps_ne_empty hw1⟩
    have hload : json_loads (json_dumps (sanitizeParsedBody st1 v).1)
        = some (sanitizeParsedBody st1 v).1 := json_loads_dumps hw1
    show (sanitize_body_string st2 (json_dumps (sanitizeParsedBody st1 v).1)).1 = _
    unfold sanitize_body_string
    rw [hload]
    simp only
    rw [sanitizeParsedBody_idem v st1 st2 h1 h2]

/-- A second URL rewrite is the identity when no pattern of any real
key other than the substitute occurs in the URL (the substitute's own
patterns are replaced by themselves). -/
theorem sanitizeUrl_idem (st2 : SanState) (u : List Char)
    (hstale : ∀ k : Int, k ≠ TEST_ORG_ID →
      hasOcc (orgPathPat k) u = false ∧ hasOcc (orgQueryPat k) u = false) :
    sanitizeUrl st2 u = u := by
  unfold sanitizeUrl
  apply foldl_replace_fix
  intro x hx
  by_cases hxT : x = TEST_ORG_ID
  · subst hxT
    unfold replaceOrgInUrl
    rw [strReplace_self, strReplace_self]
  · obtain ⟨hpp, hq⟩ := hstale x hxT
    unfold replaceOrgInUrl
    rw [strReplace_no_occ _ _ _ hpp, strReplace_no_occ _ _ _ hq]

/-! ### The discovery pass only writes the fixed substitutes -/

theorem dictAssign_all {m : List (Int × Int)} {c k v : Int}
    (hm : ∀ p ∈ m, (p : Int × Int).2 = c) (hv : v = c) :
    ∀ p ∈ dictAssign m k v, (p : Int × Int).2 = c := by
  induction m with
  | nil =>
    intro p hp
    simp only [dictAssign, List.mem_singleton] at hp
    rw [hp, hv]
  | cons q t ih =>
    obtain ⟨k2, v2⟩ := q
    intro p hp
    simp only [dictAssign] at hp
    split at hp
    · rcases List.mem_cons.mp hp with h | h
      · rw [h]
        exact hv
      · exact hm _ (List.mem_cons_of_mem _ h)
    · rcases List.mem_cons.mp hp with h | h
      · rw [h]
        exact hm (k2, v2) (by simp)
      · exact ih (fun p2 hp2 => hm p2 (List.mem_cons_of_mem _ hp2)) _ h

theorem registerOrg_allSubst {st : SanState} {n : Int} (h : AllSubst st) :
    AllSubst (registerOrg st n) := by
  unfold registerOrg
  split
  · exact ⟨dictAssign_all h.1 rfl, h.2⟩
  · exact h

theorem registerUser_allSubst {st : SanState} {n : Int} (h : AllSubst st) :
    AllSubst (registerUser st n) := by
  unfold registerUser
  split
  · exact ⟨h.1, dictAssign_all h.2 rfl⟩
  · exact h

theorem foldl_registerOrg_allSubst (l : List Int) :
    ∀ (st : SanState), AllSubst st → AllSubst (l.foldl registerOrg st) := by
  induction l with
  | nil => exact fun st h => h
  | cons a t ih => exact fun st h => ih _ (registerOrg_allSubst h)

theorem foldl_registerUser_allSubst (l : List Int) :
    ∀ (st : SanState), AllSubst st → AllSubst (l.foldl registerUser st) := by
  induction l with
  | nil => exact fun st h => h
  | cons a t ih => exact fun st h => ih _ (registerUser_allSubst h)

theorem fields_foldl_user_allSubst (fs : List String) (cs : List Char) :
    ∀ (st : SanState), AllSubst st →
      AllSubst (fs.foldl (fun s f => (findFieldInts f cs).foldl registerUser s) st) := by
  induction fs with
  | nil => exact fun st h => h
  | cons a t ih =>
    exact fun st h => ih _ (foldl_registerUser_allSubst _ _ h)

theorem emptyState_allSubst : AllSubst emptyState := by
  constructor <;> intro p hp <;> exact absurd hp (List.not_mem_nil p)

/-- Every map entry written by the discovery pass carries the fixed
substitute. -/
theorem find_org_ids_allSubst (st : SanState) (content : String)
    (h : AllSubst st) : AllSubst (find_org_ids st content) := by
  unfold find_org_ids
  exact fields_foldl_user_allSubst _ _ _
    (foldl_registerOrg_allSubst _ _ (foldl_registerOrg_allSubst _ _ h))

theorem JObj.set_set : (o : JObj) → (k : String) → (a b : JValue) →
    JObj.set (JObj.set o k a) k b = JObj.set o k b
  | .nil, k, a, b => by simp [JObj.set]
  | .cons k2 v2 t, k, a, b => by
    by_cases h : k2 = k
    · simp [JObj.set, h]
    · simp [JObj.set, h, JObj.set_set t k a b]

theorem JObj.set_lookup_self : (o : JObj) → {k : String} → {v : JValue} →
    JObj.lookup o k = some v → JObj.set o k v = o
  | .nil, k, v, h => by simp [JObj.lookup] at h
  | .cons k2 v2 t, k, v, h => by
    by_cases hk : k2 = k
    · subst hk
      have h2 : v2 = v := by
        simpa [JObj.lookup] using h
      simp [JObj.set, h2]
    · simp only [JObj.lookup, if_neg hk] at h
      simp [JObj.set, hk, JObj.set_lookup_self t h]

/-- The first block of the interaction loop body: rewrite org IDs in
`request.url` (when present as a string). -/
def requestPhase (st : SanState) (entries : JObj) : JObj :=
  match entries.lookup "request" with
  | some (.obj req) =>
    match req.lookup "url" with
    | some (.str url) =>
      entries.set "request"
        (.obj (req.set "url" (.str ⟨sanitizeUrl st url.data⟩)))
    | _ => entries
  | _ => entries

/-- The second block of the interaction loop body: sanitize
`response.body` when it is a nonempty string. -/
def responsePhase (st : SanState) (entries1 : JObj) : JValue × SanState :=
  match entries1.lookup "response" with
  | some (.obj resp) =>
    match resp.lookup "body" with
    | some (.str body) =>
      if body ≠ "" then
        let p := sanitize_body_string st body
        (.obj (entries1.set "response" (.obj (resp.set "body" (.str p.1)))), p.2)
      else (.obj entries1, st)
    | _ => (.obj entries1, st)
  | _ => (.obj entries1, st)

/-- `sanitize_interaction` is the composition of its two blocks. -/
theorem sanitize_interaction_phases (st : SanState) (entries : JObj) :
    sanitize_interaction st (.obj entries)
      = responsePhase st (requestPhase st entries) := rfl

/-- No pattern `/org/<k>/` or `org_id=<k>` of any key other than the
substitute occurs in the URL. -/
def noStaleUrl (u : List Char) : Prop :=
  ∀ k : Int, k ≠ TEST_ORG_ID →
    hasOcc (orgPathPat k) u = false ∧ hasOcc (orgQueryPat k) u = false

/-- `noStaleUrl` for the request URL of an interaction, if any. -/
def noStaleInteraction (i : JValue) : Prop :=
  ∀ entries req url, i = .obj entries →
    entries.lookup "request" = some (.obj req) →
    req.lookup "url" = some (.str url) →
    noStaleUrl url.data

def noStaleItems : JArr → Prop
  | .nil => True
  | .cons i t => noStaleInteraction i ∧ noStaleItems t

/-- `noStaleUrl` for every interaction of a cassette. -/
def noStaleCassette (v : JValue) : Prop :=
  ∀ entries items, v = .obj entries →
    entries.lookup "interactions" = some (.arr items) →
    noStaleItems items

/-- A stale-free URL is untouched by a second rewrite. -/
theorem noStale_to_fix (st2 : SanState) (E : JObj)
    (h : noStaleInteraction (.obj E)) :
    ∀ req url, E.lookup "request" = some (.obj req) →
      req.lookup "url" = some (.str url) →
      sanitizeUrl st2 url.data = url.data := by
  intro req url hA hB
  exact sanitizeUrl_idem st2 url.data (h E req url rfl hA hB)

/-- The request phase is the identity when the URL (if any) is already
fixed. -/
theorem requestPhase_fix (st2 : SanState) (E : JObj)
    (hfix : ∀ req url, E.lookup "request" = some (.obj req) →
      req.lookup "url" = some (.str url) →
      sanitizeUrl st2 url.data = url.data) :
    requestPhase st2 E = E := by
  unfold requestPhase
  split
  · rename_i req hA
    split
    · rename_i url hB
      rw [hfix req url hA hB]
      rw [show (.str (⟨url.data⟩ : String) : JValue) = .str url from rfl]
      rw [JObj.set_lookup_self req hB]
      exact JObj.set_lookup_self E hA
    · rfl
  · rfl

/-- Both blocks only ever output an object. -/
theorem responsePhase_obj (st : SanState) (E : JObj) :
    ∃ E2, (responsePhase st E).1 = .obj E2 := by
  unfold responsePhase
  split
  · split
    · split
      · exact ⟨_, rfl⟩
      · exact ⟨E, rfl⟩
    · exact ⟨E, rfl⟩
  · exact ⟨E, rfl⟩

/-- A second response phase is the identity on the first one's output
entries. -/
theorem responsePhase_second (E1 : JObj) (st1 st2 : SanState)
    (h1 : AllSubst st1) (h2 : AllSubst st2) :
    ∀ E2, (responsePhase st1 E1).1 = .obj E2 →
      (responsePhase st2 E2).1 = .obj E2 := by
  intro E2 hE2
  rcases hC : E1.lookup "response" with _ | vC
  · unfold responsePhase at hE2
    simp only [hC] at hE2
    injection hE2 with hE
    subst hE
    unfold responsePhase
    simp only [hC]
  · cases vC with
    | obj resp =>
      rcases hD : resp.lookup "body" with _ | vD
      · unfold responsePhase at hE2
        simp only [hC, hD] at hE2
        injection hE2 with hE
        subst hE
        unfold responsePhase
        simp only [hC, hD]
      · cases vD with
        | str body =>
          by_cases hbe : body = ""
          · subst hbe
            unfold responsePhase at hE2
            simp only [hC, hD] at hE2
            injection hE2 with hE
            subst hE
            unfold responsePhase
            simp only [hC, hD]
            rw [if_neg (fun hne => hne rfl)]
          · obtain ⟨hidem, hb1ne⟩ :=
              sanitize_body_string_idem st1 st2 body h1 h2 hbe
            have hE : E2 = E1.set "response"
                (.obj (resp.set "body"
                  (.str (sanitize_body_string st1 body).1))) := by
              unfold responsePhase at hE2
              simp only [hC, hD] at hE2
              rw [if_pos hbe] at hE2
              simp only at hE2
              injection hE2 with hE
              exact hE.symm
            subst hE
            have hC2 : (E1.set "response"
                  (.obj (resp.set "body"
                    (.str (sanitize_body_string st1 body).1)))).lookup "response"
                = some (.obj (resp.set "body"
                    (.str (sanitize_body_string st1 body).1))) :=
              JObj.lookup_set_self _ _ _
            have hD2 : (resp.set "body"
                  (.str (sanitize_body_string st1 body).1)).lookup "body"
                = some (.str (sanitize_body_string st1 body).1) :=
              JObj.lookup_set_self _ _ _
            unfold responsePhase
            simp only [hC2, hD2]
            rw [if_pos hb1ne]
            simp only
            rw [hidem]
            rw [JObj.set_lookup_self _ hD2, JObj.set_lookup_self _ hC2]
        | null =>
          unfold responsePhase at hE2
          simp only [hC, hD] at hE2
          injection hE2 with hE
          subst hE
          unfold responsePhase
          simp only [hC, hD]
        | bool b =>
          unfold responsePhase at hE2
          simp only [hC, hD] at hE2
          injection hE2 with hE
          subst hE
          unfold responsePhase
          simp only [hC, hD]
        | int i =>
          unfold responsePhase at hE2
          simp only [hC, hD] at hE2
          injection hE2 with hE
          subst hE
          unfold responsePhase
          simp only [hC, hD]
        | numRaw s =>
          unfold responsePhase at hE2
          simp only [hC, hD] at hE2
          injection hE2 with hE
          subst hE
          unfold responsePhase
          simp only [hC, hD]
        | arr a =>
          unfold responsePhase at hE2
          simp only [hC, hD] at hE2
          injection hE2 with hE
          subst hE
          unfold responsePhase
          simp only [hC, hD]
        | obj o =>
          unfold responsePhase at hE2
          simp only [hC, hD] at hE2
          injection hE2 with hE
          subst hE
          unfold responsePhase
          simp only [hC, hD]
    | null =>
      unfold responsePhase at hE2
      simp only [hC] at hE2
      injection hE2 with hE
      subst hE
      unfold responsePhase
      simp only [hC]
    | bool b =>
      unfold responsePhase at hE2
      simp only [hC] at hE2
      injection hE2 with hE
      subst hE
      unfold responsePhase
      simp only [hC]
    | int i =>
      unfold responsePhase at hE2
      simp only [hC] at hE2
      injection hE2 with hE
      subst hE
      unfold responsePhase
      simp only [hC]
    | numRaw sr =>
      unfold responsePhase at hE2
      simp only [hC] at hE2
      injection hE2 with hE
      subst hE
      unfold responsePhase
      simp only [hC]
    | str sr =>
      unfold responsePhase at hE2
      simp only [hC] at hE2
      injection hE2 with hE
      subst hE
      unfold responsePhase
      simp only [hC]
    | arr ar =>
      unfold responsePhase at hE2
      simp only [hC] at hE2
      injection hE2 with hE
      subst hE
      unfold responsePhase
      simp only [hC]

theorem isPrefixOf_append_left {p q s : List Char}
    (h : (p ++ q).isPrefixOf s = true) : p.isPrefixOf s = true := by
  rw [List.isPrefixOf_iff_prefix] at h ⊢
  exact (List.prefix_append p q).trans h

theorem hasOcc_mono_false (p q : List Char) :
    ∀ u, hasOcc p u = false → hasOcc (p ++ q) u = false
  | [], h => by
    cases p with
    | nil => simp [hasOcc] at h
    | cons a b => rfl
  | c :: rest, h => by
    simp only [hasOcc, Bool.or_eq_false_iff] at h ⊢
    obtain ⟨h1, h2⟩ := h
    refine ⟨?_, hasOcc_mono_false p q rest h2⟩
    cases hpq : (p ++ q).isPrefixOf (c :: rest) with
    | false => rfl
    | true => exact absurd (isPrefixOf_append_left hpq) (by rw [h1]; simp)

/-- A URL with no `/org/` and no `org_id=` substring at all is
stale-free. -/
theorem noStaleUrl_of_no_org (u : List Char)
    (h1 : hasOcc ['/', 'o', 'r', 'g', '/'] u = false)
    (h2 : hasOcc ['o', 'r', 'g', '_', 'i', 'd', '='] u = false) :
    noStaleUrl u := by
  intro k _
  constructor
  · have hp : orgPathPat k = ['/', 'o', 'r', 'g', '/'] ++ (intChars k ++ ['/']) := rfl
    rw [hp]
    exact hasOcc_mono_false _ _ u h1
  · have hp : orgQueryPat k = ['o', 'r', 'g', '_', 'i', 'd', '='] ++ intChars k := rfl
    rw [hp]
    exact hasOcc_mono_false _ _ u h2

theorem sanitize_interaction_allSubst (st : SanState) (i : JValue)
    (h : AllSubst st) : AllSubst (sanitize_interaction st i).2 := by
  cases i with
  | obj entries =>
    rw [sanitize_interaction_phases]
    unfold responsePhase
    split
    · split
      · split
        · exact sanitize_body_string_allSubst st _ h
        · exact h
      · exact h
    · exact h
  | null => exact h
  | bool b => exact h
  | int n => exact h
  | numRaw s => exact h
  | str s => exact h
  | arr a => exact h

/-- A second interaction rewrite is value-identical when the sanitized
URL is stale-free. -/
theorem sanitize_interaction_idem (i : JValue) (st1 st2 : SanState)
    (h1 : AllSubst st1) (h2 : AllSubst st2)
    (hstale : noStaleInteraction (sanitize_interaction st1 i).1) :
    (sanitize_interaction st2 (sanitize_interaction st1 i).1).1
      = (sanitize_interaction st1 i).1 := by
  cases i with
  | obj entries =>
    obtain ⟨E2, hE2⟩ := responsePhase_obj st1 (requestPhase st1 entries)
    have hout : (sanitize_interaction st1 (.obj entries)).1 = .obj E2 := by
      rw [sanitize_interaction_phases]
      exact hE2
    rw [hout] at hstale ⊢
    rw [sanitize_interaction_phases st2 E2]
    rw [requestPhase_fix st2 E2 (noStale_to_fix st2 E2 hstale)]
    exact responsePhase_second (requestPhase st1 entries) st1 st2 h1 h2 E2 hE2
  | null => rfl
  | bool b => rfl
  | int n => rfl
  | numRaw s => rfl
  | str s => rfl
  | arr a => rfl

theorem sanitize_interactions_allSubst : ∀ (items : JArr) (st : SanState),
    AllSubst st → AllSubst (sanitize_interactions st items).2
  | .nil, _, h => h
  | .cons i t, st, h => by
    simp only [sanitize_interactions]
    exact sanitize_interactions_allSubst t _
      (sanitize_interaction_allSubst st i h)

/-- A second pass over a sanitized interaction list is value-identical
when every sanitized URL is stale-free. -/
theorem sanitize_interactions_idem : ∀ (items : JArr) (st1 st2 : SanState),
    AllSubst st1 → AllSubst st2 →
    noStaleItems (sanitize_interactions st1 items).1 →
    (sanitize_interactions st2 (sanitize_interactions st1 items).1).1
      = (sanitize_interactions st1 items).1
  | .nil, st1, st2, _, _, _ => by simp [sanitize_interactions]
  | .cons i t, st1, st2, h1, h2, hns => by
    simp only [sanitize_interactions] at hns ⊢
    obtain ⟨hns1, hns2⟩ := hns
    have hh := sanitize_interaction_idem i st1 st2 h1 h2 hns1
    have h1' := sanitize_interaction_allSubst st1 i h1
    have h2' := sanitize_interaction_allSubst st2 (sanitize_interaction st1 i).1 h2
    have ht := sanitize_interactions_idem t (sanitize_interaction st1 i).2
      (sanitize_interaction st2 (sanitize_interaction st1 i).1).2 h1' h2' hns2
    rw [hh, ht]

/-- A second cassette rewrite is value-identical when every sanitized
URL is stale-free. -/
theorem sanitize_cassette_idem (c : JValue) (st1 st2 : SanState)
    (h1 : AllSubst st1) (h2 : AllSubst st2)
    (hstale : noStaleCassette (sanitize_cassette st1 c).1) :
    (sanitize_cassette st2 (sanitize_cassette st1 c).1).1
      = (sanitize_cassette st1 c).1 := by
  cases c with
  | obj entries =>
    rcases hA : entries.lookup "interactions" with _ | vA
    · have hout : sanitize_cassette st1 (.obj entries) = (.obj entries, st1) := by
        unfold sanitize_cassette
        simp only [hA]
      rw [hout]
      simp only
      unfold sanitize_cassette
      simp only [hA]
    · cases vA with
      | arr items =>
        have hout : (sanitize_cassette st1 (.obj entries)).1
            = .obj (entries.set "interactions"
                (.arr (sanitize_interactions st1 items).1)) := by
          unfold sanitize_cassette
          simp only [hA]
        rw [hout] at hstale ⊢
        have hA2 : (entries.set "interactions"
              (.arr (sanitize_interactions st1 items).1)).lookup "interactions"
            = some (.arr (sanitize_interactions st1 items).1) :=
          JObj.lookup_set_self _ _ _
        have hns : noStaleItems (sanitize_interactions st1 items).1 :=
          hstale _ _ rfl hA2
        unfold sanitize_cassette
        simp only [hA2]
        rw [sanitize_interactions_idem items st1 st2 h1 h2 hns]
        rw [JObj.set_set]
      | null =>
        have hout : sanitize_cassette st1 (.obj entries)
            = (.obj entries, st1) := by
          unfold sanitize_cassette
          simp only [hA]
        rw [hout]
        simp only
        unfold sanitize_cassette
        simp only [hA]
      | bool b =>
        have hout : sanitize_cassette st1 (.obj entries)
            = (.obj entries, st1) := by
          unfold sanitize_cassette
          simp only [hA]
        rw [hout]
        simp only
        unfold sanitize_cassette
        simp only [hA]
      | int n =>
        have hout : sanitize_cassette st1 (.obj entries)
            = (.obj entries, st1) := by
          unfold sanitize_cassette
          simp only [hA]
        rw [hout]
        simp only
        unfold sanitize_cassette
        simp only [hA]
      | numRaw s =>
        have hout : sanitize_cassette st1 (.obj entries)
            = (.obj entries, st1) := by
          unfold sanitize_cassette
          simp only [hA]
        rw [hout]
        simp only
        unfold sanitize_cassette
        simp only [hA]
      | str s =>
        have hout : sanitize_cassette st1 (.obj entries)
            = (.obj entries, st1) := by
          unfold sanitize_cassette
          simp only [hA]
        rw [hout]
        simp only
        unfold sanitize_cassette
        simp only [hA]
      | obj o =>
        have hout : sanitize_cassette st1 (.obj entries)
            = (.obj entries, st1) := by
          unfold sanitize_cassette
          simp only [hA]
        rw [hout]
        simp only
        unfold sanitize_cassette
        simp only [hA]
  | null => rfl
  | bool b => rfl
  | int n => rfl
  | numRaw s => rfl
  | str s => rfl
  | arr a => rfl

theorem JObj.set_wf : (o : JObj) → (k : String) → (v : JValue) →
    wfO o = true → wfV v = true → wfO (JObj.set o k v) = true
  | .nil, k, v, _, hv => by simp [JObj.set, wfO, hv]
  | .cons k2 v2 t, k, v, ho, hv => by
    have h2 : wfV v2 = true ∧ wfO t = true := by
      simpa [wfO, Bool.and_eq_true] using ho
    by_cases hk : k2 = k
    · simp [JObj.set, hk, wfO, Bool.and_eq_true, hv, h2.2]
    · simp [JObj.set, hk, wfO, Bool.and_eq_true, h2.1,
        JObj.set_wf t k v h2.2 hv]

theorem JObj.lookup_wf : (o : JObj) → {k : String} → {v : JValue} →
    wfO o = true → JObj.lookup o k = some v → wfV v = true
  | .nil, k, v, _, hl => by simp [JObj.lookup] at hl
  | .cons k2 v2 t, k, v, ho, hl => by
    have h2 : wfV v2 = true ∧ wfO t = true := by
      simpa [wfO, Bool.and_eq_true] using ho
    by_cases hk : k2 = k
    · subst hk
      have h3 : v2 = v := by
        simpa [JObj.lookup] using hl
      rw [← h3]
      exact h2.1
    · simp only [JObj.lookup, if_neg hk] at hl
      exact JObj.lookup_wf t h2.2 hl

theorem requestPhase_wf (st : SanState) (entries : JObj)
    (h : wfO entries = true) : wfO (requestPhase st entries) = true := by
  unfold requestPhase
  split
  · rename_i req hA
    split
    · rename_i url hB
      have hreqO : wfO req = true := by
        simpa [wfV] using JObj.lookup_wf entries h hA
      refine JObj.set_wf entries _ _ h ?_
      show wfO (req.set "url" (.str _)) = true
      exact JObj.set_wf req _ _ hreqO rfl
    · exact h
  · exact h

theorem responsePhase_wf (st : SanState) (E1 : JObj)
    (h : wfO E1 = true) : wfV (responsePhase st E1).1 = true := by
  unfold responsePhase
  split
  · rename_i resp hC
    have hrespO : wfO resp = true := by
      simpa [wfV] using JObj.lookup_wf E1 h hC
    split
    · rename_i body hD
      split
      · show wfO (E1.set "response" (.obj (resp.set "body" (.str _)))) = true
        refine JObj.set_wf E1 _ _ h ?_
        show wfO (resp.set "body" (.str _)) = true
        exact JObj.set_wf resp _ _ hrespO rfl
      · exact h
    · exact h
  · exact h

theorem sanitize_interaction_wf (st : SanState) (i : JValue)
    (h : wfV i = true) : wfV (sanitize_interaction st i).1 = true := by
  cases i with
  | obj entries =>
    rw [sanitize_interaction_phases]
    exact responsePhase_wf st _ (requestPhase_wf st entries (by simpa [wfV] using h))
  | null => exact h
  | bool b => exact h
  | int n => exact h
  | numRaw s => exact h
  | str s => exact h
  | arr a => exact h

theorem sanitize_interactions_wf : ∀ (items : JArr) (st : SanState),
    wfA items = true → wfA (sanitize_interactions st items).1 = true
  | .nil, st, _ => by simp [sanitize_interactions, wfA]
  | .cons i t, st, hw => by
    have h2 : wfV i = true ∧ wfA t = true := by
      simpa [wfA, Bool.and_eq_true] using hw
    simp only [sanitize_interactions, wfA, Bool.and_eq_true]
    exact ⟨sanitize_interaction_wf st i h2.1,
      sanitize_interactions_wf t _ h2.2⟩

/-- The cassette rewrite preserves well-formedness: the written document
can be read back exactly. -/
theorem sanitize_cassette_wf (st : SanState) (c : JValue)
    (h : wfV c = true) : wfV (sanitize_cassette st c).1 = true := by
  cases c with
  | obj entries =>
    rcases hA : entries.lookup "interactions" with _ | vA
    · have hout : (sanitize_cassette st (.obj entries)).1 = .obj entries := by
        unfold sanitize_cassette
        simp only [hA]
      rw [hout]
      exact h
    · cases vA with
      | arr items =>
        have hout : (sanitize_cassette st (.obj entries)).1
            = .obj (entries.set "interactions"
                (.arr (sanitize_interactions st items).1)) := by
          unfold sanitize_cassette
          simp only [hA]
        rw [hout]
        have hitems : wfA items = true := by
          simpa [wfV] using JObj.lookup_wf entries (by simpa [wfV] using h) hA
        show wfO (entries.set "interactions"
          (.arr (sanitize_interactions st items).1)) = true
        refine JObj.set_wf entries _ _ (by simpa [wfV] using h) ?_
        show wfA (sanitize_interactions st items).1 = true
        exact sanitize_interactions_wf items st hitems
      | null =>
      have hout : (sanitize_cassette st (.obj entries)).1 = .obj entries := by
        unfold sanitize_cassette
        simp only [hA]
      rw [hout]
      exact h
      | bool b =>
      have hout : (sanitize_cassette st (.obj entries)).1 = .obj entries := by
        unfold sanitize_cassette
        simp only [hA]
      rw [hout]
      exact h
      | int n =>
      have hout : (sanitize_cassette st (.obj entries)).1 = .obj entries := by
        unfold sanitize_cassette
        simp only [hA]
      rw [hout]
      exact h
      | numRaw sr =>
      have hout : (sanitize_cassette st (.obj entries)).1 = .obj entries := by
        unfold sanitize_cassette
        simp only [hA]
      rw [hout]
      exact h
      | str sr =>
      have hout : (sanitize_cassette st (.obj entries)).1 = .obj entries := by
        unfold sanitize_cassette
        simp only [hA]
      rw [hout]
      exact h
      | obj o =>
      have hout : (sanitize_cassette st (.obj entries)).1 = .obj entries := by
        unfold sanitize_cassette
        simp only [hA]
      rw [hout]
      exact h
  | null => exact h
  | bool b => exact h
  | int n => exact h
  | numRaw s => exact h
  | str s => exact h
  | arr a => exact h

/-- The counterexample cassette for C4: the only interaction's URL holds
two overlapping `/org/777/` spans. -/
def C4cContent : String :=
  "\x7b\"org_id\": 777, \"interactions\": [\x7b\"request\": \x7b\"url\": \"https://a/org/777/org/777/\"\x7d\x7d]\x7d"

def C4cV0 : JValue :=
  .obj (.cons "org_id" (.int 777)
    (.cons "interactions" (.arr (.cons (.obj
      (.cons "request" (.obj (.cons "url"
        (.str "https://a/org/777/org/777/") .nil)) .nil)) .nil)) .nil))

def C4cOut1 : JValue :=
  .obj (.cons "org_id" (.int 777)
    (.cons "interactions" (.arr (.cons (.obj
      (.cons "request" (.obj (.cons "url"
        (.str "https://a/org/12345/org/777/") .nil)) .nil)) .nil)) .nil))

/-- C4 fails on the code: `str.replace` rewrites non-overlapping
occurrences left to right, so the URL `…/org/777/org/777/` comes out of
the first run as `…/org/12345/org/777/`; the written document still
contains `"org_id": 777`, so the second run rediscovers `777` and
rewrites the remaining `/org/777/` to `/org/12345/` — the second run's
output differs from its input. -/
theorem claim_C4_counterexample :
    find_org_ids emptyState C4cContent = ⟨[(777, 12345)], []⟩ ∧
    json_loads C4cContent = some C4cV0 ∧
    (sanitize_cassette ⟨[(777, 12345)], []⟩ C4cV0).1 = C4cOut1 ∧
    find_org_ids emptyState (json_dumps C4cOut1) = ⟨[(777, 12345)], []⟩ ∧
    (sanitize_cassette ⟨[(777, 12345)], []⟩ C4cOut1).1 ≠ C4cOut1 := by
  decide

/-- C4 (amended): a second Rewrite run over what the first run wrote is
byte-identical, provided no sanitized request URL still contains a
`/org/<k>/` or `org_id=<k>` substring for a key `k` other than the
fixed substitute: the written document parses back to exactly the value
the first run produced, and rewriting it again — with the maps the
second run's discovery pass builds from the written text — returns it
unchanged. -/
theorem claim_C4_amended_idempotence (content : String) (v0 : JValue)
    (hparse : json_loads content = some v0)
    (hstale : noStaleCassette
      (sanitize_cassette (find_org_ids emptyState content) v0).1) :
    json_loads (json_dumps
        (sanitize_cassette (find_org_ids emptyState content) v0).1)
      = some (sanitize_cassette (find_org_ids emptyState content) v0).1 ∧
    (sanitize_cassette
        (find_org_ids emptyState (json_dumps
          (sanitize_cassette (find_org_ids emptyState content) v0).1))
        (sanitize_cassette (find_org_ids emptyState content) v0).1).1
      = (sanitize_cassette (find_org_ids emptyState content) v0).1 := by
  have hwf : wfV (sanitize_cassette (find_org_ids emptyState content) v0).1
      = true :=
    sanitize_cassette_wf _ _ (json_loads_wf hparse)
  refine ⟨json_loads_dumps hwf, ?_⟩
  exact sanitize_cassette_idem v0 _ _
    (find_org_ids_allSubst _ _ emptyState_allSubst)
    (find_org_ids_allSubst _ _ emptyState_allSubst)
    hstale

/-- The witness cassette for C4: a pattern-free URL and a JSON body
holding a real organization ID. -/
def C4wContent : String :=
  "\x7b\"interactions\": [\x7b\"request\": \x7b\"url\": \"https://a/x\"\x7d, \"response\": \x7b\"body\": \"\x7b\\\"org_id\\\": 777\x7d\"\x7d\x7d]\x7d"

def C4wV0 : JValue :=
  .obj (.cons "interactions" (.arr (.cons (.obj
    (.cons "request" (.obj (.cons "url" (.str "https://a/x") .nil))
      (.cons "response" (.obj (.cons "body"
        (.str "\x7b\"org_id\": 777\x7d") .nil)) .nil))) .nil)) .nil)

def C4wOut1 : JValue :=
  .obj (.cons "interactions" (.arr (.cons (.obj
    (.cons "request" (.obj (.cons "url" (.str "https://a/x") .nil))
      (.cons "response" (.obj (.cons "body"
        (.str "\x7b\"org_id\":12345\x7d") .nil)) .nil))) .nil)) .nil)

theorem claim_C4_witness :
    json_loads (json_dumps
        (sanitize_cassette (find_org_ids emptyState C4wContent) C4wV0).1)
      = some (sanitize_cassette (find_org_ids emptyState C4wContent) C4wV0).1 ∧
    (sanitize_cassette
        (find_org_ids emptyState (json_dumps
          (sanitize_cassette (find_org_ids emptyState C4wContent) C4wV0).1))
        (sanitize_cassette (find_org_ids emptyState C4wContent) C4wV0).1).1
      = (sanitize_cassette (find_org_ids emptyState C4wContent) C4wV0).1 :=
  claim_C4_amended_idempotence C4wContent C4wV0 (by decide) (by
    have hX : (sanitize_cassette (find_org_ids emptyState C4wContent) C4wV0).1
        = C4wOut1 := by decide
    rw [hX]
    intro entries items he hl
    injection he with he
    subst he
    have hcomp : (JObj.cons "interactions" (JValue.arr (.cons (.obj
        (.cons "request" (.obj (.cons "url" (.str "https://a/x") .nil))
          (.cons "response" (.obj (.cons "body"
            (.str "\x7b\"org_id\":12345\x7d") .nil)) .nil))) .nil)) .nil).lookup
          "interactions"
        = some (.arr (.cons (.obj
          (.cons "request" (.obj (.cons "url" (.str "https://a/x") .nil))
            (.cons "response" (.obj (.cons "body"
              (.str "\x7b\"org_id\":12345\x7d") .nil)) .nil))) .nil)) := by decide
    rw [hcomp] at hl
    injection hl with hl
    injection hl with hl
    subst hl
    refine ⟨?_, trivial⟩
    intro E req url hE hA hB
    injection hE with hE
    subst hE
    have hcomp2 : (JObj.cons "request" (JValue.obj (.cons "url"
          (.str "https://a/x") .nil))
        (.cons "response" (.obj (.cons "body"
          (.str "\x7b\"org_id\":12345\x7d") .nil)) .nil)).lookup "request"
        = some (.obj (.cons "url" (.str "https://a/x") .nil)) := by decide
    rw [hcomp2] at hA
    injection hA with hA
    injection hA with hA
    subst hA
    have hcomp3 : (JObj.cons "url" (JValue.str "https://a/x") .nil).lookup "url"
        = some (.str "https://a/x") := by decide
    rw [hcomp3] at hB
    injection hB with hB
    injection hB with hB
    subst hB
    exact noStaleUrl_of_no_org _ (by decide) (by decide))

end Grctool
